import Mathlib

/-!
# ConvertContent2UTF8: batch conversion orchestrator

A shallow embedding of `converter.go`, `options.go` and `types.go`.

* Go strings are Lean `String`s (valid UTF-8 text); the library functions the
  program calls (`filepath.Ext`, `strings.TrimSuffix`, `strings.ToUpper`,
  `strings.ToLower`) are written out from the Go standard library.
* The case tables of package `unicode` above `MaxASCII` and the build target
  (which bytes are path separators) are parameters, collected in `GoPlatform`.
* `ConvertFiles` starts one goroutine per file.  Each goroutine is a small
  program counter machine (`PC`); one transition is one blocking operation or
  one critical section of the source.  A schedule (a list of numbers) picks,
  at every step, which of the goroutines that can move does move.
* The file system and the transcoder are parameters (`Env`); every read,
  transcoder call, write and progress callback is logged in a trace.
* `ConvertFile` runs in the caller's goroutine and is a plain function of the
  outside world (`StatEnv` adds `os.Stat` to the collaborators).
* `ConvertDirectory` walks a `FileTree`: what `os.Lstat` and the directory
  listings show below a path (`DirEnv` adds it to the collaborators).
  `filepath.Walk` is written out with its `SkipDir` rule and its two kinds of
  error, and `filepath.Join` with `filepath.Clean`, for paths without a
  volume name: the theorems about the paths of a walk are stated for Unix
  build targets.  `collectFiles` is compared with a selection among the
  candidates (`FileTree.filesIn`) of a tree that can be read
  (`FileTree.intactAll`).
* All definitions come first; the theorems follow from the heading "Theorems".
  Facts about a run are proved as invariants of `Reachable` machines: a
  quantity of the shared state equals a `tally` over the goroutines
  (`tally_invariant`), or a predicate of the shared state is preserved by
  every step (`shared_invariant_ok`).
-/

namespace ConvertContent2UTF8

/-! ## The Go standard library functions used by the program -/

/-- The parts of the Go installation the program depends on: the build target
and the `unicode` case tables for runes above `MaxASCII`. -/
structure GoPlatform where
  /-- Whether the build target is Windows (then a backslash separates path elements too). -/
  windows : Bool
  /-- Upper-case mapping of package unicode for runes above MaxASCII. -/
  upperTable : Char → Char
  /-- Lower-case mapping of package unicode for runes above MaxASCII. -/
  lowerTable : Char → Char

namespace os

/-- Go `os.IsPathSeparator`: `'/'` everywhere, and `'\\'` as well on Windows. -/
def IsPathSeparator (rt : GoPlatform) (c : Char) : Bool :=
  c == '/' || (rt.windows && c == '\\')

end os

namespace unicode

/-- Go `unicode.MaxASCII`. -/
def MaxASCII : Nat := 0x7F

/-- Go `unicode.ToUpper`: the ASCII fast path, then the case table. -/
def ToUpper (rt : GoPlatform) (r : Char) : Char :=
  if r.toNat ≤ MaxASCII then
    if 'a'.toNat ≤ r.toNat ∧ r.toNat ≤ 'z'.toNat then Char.ofNat (r.toNat - ('a'.toNat - 'A'.toNat))
    else r
  else rt.upperTable r

/-- Go `unicode.ToLower`: the ASCII fast path, then the case table. -/
def ToLower (rt : GoPlatform) (r : Char) : Char :=
  if r.toNat ≤ MaxASCII then
    if 'A'.toNat ≤ r.toNat ∧ r.toNat ≤ 'Z'.toNat then Char.ofNat (r.toNat + ('a'.toNat - 'A'.toNat))
    else r
  else rt.lowerTable r

end unicode

namespace strings

/-- Go `strings.ToUpper`: every rune mapped by `unicode.ToUpper`. -/
def ToUpper (rt : GoPlatform) (s : String) : String :=
  ⟨s.data.map (unicode.ToUpper rt)⟩

/-- Go `strings.ToLower`: every rune mapped by `unicode.ToLower`. -/
def ToLower (rt : GoPlatform) (s : String) : String :=
  ⟨s.data.map (unicode.ToLower rt)⟩

/-- Go `strings.HasSuffix`. -/
def HasSuffix (s suffix : String) : Bool :=
  suffix.data.isSuffixOf s.data

/-- Go `strings.TrimSuffix`: `s` without the trailing `suffix`, or `s` itself
when it does not end in `suffix`. -/
def TrimSuffix (s suffix : String) : String :=
  if HasSuffix s suffix then ⟨s.data.take (s.data.length - suffix.data.length)⟩ else s

end strings

namespace filepath

/-- The loop of Go `filepath.Ext`, walking from the last character towards the
first: `rev` holds the characters not yet visited (last one first), `acc` the
characters already passed.  The loop stops at a path separator (no extension)
or at a dot (the extension starts there). -/
def Ext.scan (rt : GoPlatform) : List Char → List Char → List Char
  | [], _ => []
  | c :: rev, acc =>
    if os.IsPathSeparator rt c then []
    else if c = '.' then c :: acc
    else Ext.scan rt rev (c :: acc)

/-- Go `filepath.Ext`. -/
def Ext (rt : GoPlatform) (path : String) : String :=
  ⟨Ext.scan rt path.data.reverse []⟩

end filepath

/-! ## Output path policy (`converter.go`, `generateOutputFileName`) -/

/-- Source `generateOutputFileName`. -/
def generateOutputFileName (rt : GoPlatform) (inputFile targetEncoding : String) : String :=
  let ext := filepath.Ext rt inputFile
  let base := strings.TrimSuffix inputFile ext
  if strings.ToUpper rt targetEncoding = "UTF-8" then
    inputFile
  else
    base ++ "_" ++ strings.ToLower rt targetEncoding ++ ext

/-! ### The words of the specification, for comparison with the code -/

/-- ASCII case folding of one character. -/
def foldASCII (c : Char) : Char :=
  if 'A'.toNat ≤ c.toNat ∧ c.toNat ≤ 'Z'.toNat then Char.ofNat (c.toNat + 32) else c

/-- Two strings are equal when compared case-insensitively. -/
def equalsIgnoreCase (a b : String) : Prop :=
  a.data.map foldASCII = b.data.map foldASCII

instance (a b : String) : Decidable (equalsIgnoreCase a b) := by
  unfold equalsIgnoreCase; infer_instance

/-- The final element of a path: what follows its last path separator. -/
def finalElement (rt : GoPlatform) (p : List Char) : List Char :=
  (p.reverse.takeWhile (fun c => !os.IsPathSeparator rt c)).reverse

/-- The directory prefix of a path: the path up to and including its last
path separator (empty when the path has no separator). -/
def dirPart (rt : GoPlatform) (p : List Char) : List Char :=
  (p.reverse.dropWhile (fun c => !os.IsPathSeparator rt c)).reverse

/-- The extension in the words of the specification: the suffix of the final
path element that starts at its last dot, or nothing when it has no dot. -/
def specExt (rt : GoPlatform) (p : List Char) : List Char :=
  let e := finalElement rt p
  if '.' ∈ e then '.' :: (e.reverse.takeWhile (fun c => c != '.')).reverse else []

/-- The path with its extension (in the words of the specification) removed. -/
def specBase (rt : GoPlatform) (p : List Char) : List Char :=
  p.take (p.length - (specExt rt p).length)

/-! ## Data model (`types.go`) -/

/-- Source `ProgressStatus` with its five constants. -/
inductive ProgressStatus
  | StatusStarting
  | StatusProcessing
  | StatusCompleted
  | StatusFailed
  | StatusSkipped
  deriving DecidableEq, Repr

/-- The string value of each `ProgressStatus` constant. -/
def ProgressStatus.value : ProgressStatus → String
  | .StatusStarting => "starting"
  | .StatusProcessing => "processing"
  | .StatusCompleted => "completed"
  | .StatusFailed => "failed"
  | .StatusSkipped => "skipped"

/-- File contents: a sequence of bytes. -/
abbrev Bytes := List Nat

/-- Source `Progress`.  Counts are Go `int`s that only ever hold lengths and
counters; times are `int64` nanoseconds, with `start` as the origin. -/
structure Progress where
  CurrentFile : String
  ProcessedFiles : Nat
  TotalFiles : Nat
  Status : ProgressStatus
  StartTime : Int
  ElapsedTime : Int
  EstimatedTime : Int
  FileSize : Int
  ProcessedBytes : Int
  ErrorCount : Nat
  deriving DecidableEq, Repr

/-- Source `ConvertResult`.  `DetectionConfidence` is a `float64` the program
only stores (as the constant 1.0); `ProcessorResult` is a pointer the program
always leaves nil. -/
structure ConvertResult where
  InputFile : String
  OutputFile : String
  SourceEncoding : String
  TargetEncoding : String
  BytesProcessed : Int
  ProcessingTime : Int
  DetectionConfidence : Rat
  BackupFile : String
  ProcessorResult : Option Unit
  deriving DecidableEq, Repr

/-- Source `FileError`. -/
structure FileError where
  File : String
  Operation : String
  Error : String
  Timestamp : Int
  deriving DecidableEq, Repr

/-- Source `BatchResult`. -/
structure BatchResult where
  TotalFiles : Nat
  ProcessedFiles : Nat
  SuccessfulFiles : Nat
  FailedFiles : Nat
  SkippedFiles : Nat
  TotalBytes : Int
  ProcessingTime : Int
  Results : List ConvertResult
  Errors : List FileError
  deriving DecidableEq, Repr

/-- A progress callback `func(Progress)`.  Go function values can only be
compared with nil; the model keeps a handle for the function and records every
call of it in the trace. -/
structure ProgressFunc where
  handle : Nat
  deriving DecidableEq, Repr

/-- Source `Config`.  `MinConfidence` is a `float64` the program only stores. -/
structure Config where
  TargetEncoding : String
  ProgressCallback : Option ProgressFunc
  ConcurrencyLimit : Int
  FileFilter : Option (String → Bool)
  CreateBackup : Bool
  OverwriteExisting : Bool
  MinConfidence : Rat
  DryRun : Bool
  SkipHidden : Bool
  Recursive : Bool
  MaxFileSize : Int

/-- Source `Option`: a mutation of a `Config`. -/
abbrev ConfigOption := Config → Config

/-! ## Configuration (`options.go`) -/

/-- Source `WithProgress`. -/
def WithProgress (callback : Option ProgressFunc) : ConfigOption :=
  fun c => { c with ProgressCallback := callback }

/-- Source `WithTargetEncoding`. -/
def WithTargetEncoding (encoding : String) : ConfigOption :=
  fun c => { c with TargetEncoding := encoding }

/-- Source `WithConcurrency`. -/
def WithConcurrency (limit : Int) : ConfigOption :=
  fun c => { c with ConcurrencyLimit := limit }

/-- Source `WithFileFilter`. -/
def WithFileFilter (filter : Option (String → Bool)) : ConfigOption :=
  fun c => { c with FileFilter := filter }

/-- Source `WithBackup`. -/
def WithBackup (create : Bool) : ConfigOption :=
  fun c => { c with CreateBackup := create }

/-- Source `WithOverwrite`. -/
def WithOverwrite (overwrite : Bool) : ConfigOption :=
  fun c => { c with OverwriteExisting := overwrite }

/-- Source `WithMinConfidence`. -/
def WithMinConfidence (confidence : Rat) : ConfigOption :=
  fun c => { c with MinConfidence := confidence }

/-- Source `WithDryRun`. -/
def WithDryRun (dryRun : Bool) : ConfigOption :=
  fun c => { c with DryRun := dryRun }

/-- Source `WithSkipHidden`. -/
def WithSkipHidden (skip : Bool) : ConfigOption :=
  fun c => { c with SkipHidden := skip }

/-- Source `WithRecursive`. -/
def WithRecursive (recursive : Bool) : ConfigOption :=
  fun c => { c with Recursive := recursive }

/-- Source `WithMaxFileSize`. -/
def WithMaxFileSize (size : Int) : ConfigOption :=
  fun c => { c with MaxFileSize := size }

/-- Source `getDefaultConfig`. -/
def getDefaultConfig (rt : GoPlatform) : Config :=
  { TargetEncoding := "UTF-8"
    ProgressCallback := none
    ConcurrencyLimit := 4
    FileFilter := some (fun filename => filepath.Ext rt (strings.ToLower rt filename) == ".txt")
    CreateBackup := true
    OverwriteExisting := false
    MinConfidence := 8 / 10
    DryRun := false
    SkipHidden := true
    Recursive := false
    MaxFileSize := 100 * 1024 * 1024 }

/-- Source `applyOptions`: the options applied in order over the defaults. -/
def applyOptions (rt : GoPlatform) (options : List ConfigOption) : Config :=
  options.foldl (fun config option => option config) (getDefaultConfig rt)

/-- A platform for examples: a Unix build whose case tables above ASCII are the identity. -/
def unixASCII : GoPlatform := ⟨false, id, id⟩

/-! ## The outside world -/

/-- The fields of the transcoder's result that the program reads. -/
structure ProcessorResult where
  Data : Bytes
  SourceEncoding : String
  TargetEncoding : String
  BytesProcessed : Int
  ConversionTime : Int
  deriving DecidableEq, Repr

/-- The collaborators of the program, over a state `σ` of the outside world
(file system and transcoder).  Every call may change that state and may fail
with an error message. -/
structure Env (σ : Type) where
  /-- The Go installation. -/
  rt : GoPlatform
  /-- Go `os.ReadFile`. -/
  ReadFile : σ → String → σ × Except String Bytes
  /-- The transcoder: `SmartConvert(data, targetEncoding)` of a fresh smart processor. -/
  SmartConvert : σ → Bytes → String → σ × Except String ProcessorResult
  /-- Go `os.WriteFile(name, data, 0644)`: the new state and the error, if any. -/
  WriteFile : σ → String → Bytes → σ × Option String
  /-- The k-th reading of the clock after `start`, in nanoseconds since `start`. -/
  clock : Nat → Int

/-- Wrap-around of an `int64` result. -/
def wrapInt64 (x : Int) : Int :=
  (x + 2 ^ 63) % 2 ^ 64 - 2 ^ 63

/-! ## Batch orchestrator (`converter.go`, `ConvertFiles`) -/

/-- The three stages of a conversion that can fail. -/
inductive Stage
  | read
  | convert
  | write
  deriving DecidableEq, Repr

/-- The `Operation` string the source puts in the `FileError` of a failed stage. -/
def Stage.operation : Stage → String
  | .read => "read"
  | .convert => "convert"
  | .write => "write"

/-- The `return` statement through which a goroutine leaves its body: the one
of the filter branch, one of the three failure branches, or the end of the body. -/
inductive Terminal
  | skipped
  | failed (op : Stage)
  | succeeded
  deriving DecidableEq, Repr

/-- Where a goroutine of `ConvertFiles` stands (source lines of `converter.go`). -/
inductive PC
  /-- Created by `go func`; `semaphore <- struct{}{}` (line 177) is pending. -/
  | start
  /-- Holds a slot; the filter test (line 181) is next. -/
  | filter
  /-- Filter branch, counters updated (lines 182-185); building the event (lines 188-198) is next. -/
  | skipProgress
  /-- Filter branch, event built; the callback (line 199) is next. -/
  | skipCallback (progress : Progress)
  /-- Accepted; `os.ReadFile` (line 211) is next. -/
  | read
  /-- The read failed; recording it (lines 213-221) is next. -/
  | readErr (err : String)
  /-- The read succeeded; `SmartConvert` (line 226) is next. -/
  | convert (data : Bytes)
  /-- The transcoder failed; recording it (lines 228-236) is next. -/
  | convertErr (err : String)
  /-- The transcoder succeeded; `os.WriteFile` (line 241) is next. -/
  | write (processorResult : ProcessorResult)
  /-- The write failed; recording it (lines 243-251) is next. -/
  | writeErr (err : String)
  /-- The write succeeded; recording the result (lines 255-296) is next. -/
  | record (processorResult : ProcessorResult)
  /-- Returned from the body; the deferred `<-semaphore` (line 178) is next. -/
  | release (t : Terminal)
  /-- Slot released; the deferred `wg.Done()` (line 176) is next. -/
  | wgDone (t : Terminal)
  /-- Finished. -/
  | done (t : Terminal)
  deriving DecidableEq, Repr

/-- One goroutine of `ConvertFiles`: the arguments `index` and `filePath` of
the closure, and where it stands. -/
structure Worker where
  index : Nat
  filePath : String
  pc : PC
  deriving DecidableEq, Repr

/-- What the program does to the outside world, in the order it happens.  The
worker is the index of the goroutine (`none`: the caller of `ConvertFiles`);
`file` is the input path of that goroutine. -/
inductive Event
  /-- A call `config.ProgressCallback(progress)`. -/
  | progress (worker : Option Nat) (p : Progress)
  /-- A call `os.ReadFile(file)` and whether it succeeded. -/
  | read (worker : Nat) (file : String) (ok : Bool)
  /-- A call `SmartConvert(data, config.TargetEncoding)` and whether it succeeded. -/
  | convert (worker : Nat) (file : String) (ok : Bool)
  /-- A call `os.WriteFile(output, ...)` and whether it succeeded. -/
  | write (worker : Nat) (file : String) (output : String) (ok : Bool)
  deriving DecidableEq, Repr

/-- The state the goroutines of one `ConvertFiles` call share. -/
structure Shared (σ : Type) where
  /-- The outside world. -/
  world : σ
  /-- Number of values in the buffer of the channel `semaphore`. -/
  semLen : Nat
  /-- Counter of the `sync.WaitGroup`. -/
  wg : Nat
  /-- The aggregate `*batchResult`, guarded by `mutex`. -/
  batchResult : BatchResult
  /-- Number of clock readings taken so far. -/
  clockReads : Nat
  /-- Everything done to the outside world so far. -/
  trace : List Event

/-- The filter test of line 181: `config.FileFilter != nil && !config.FileFilter(filePath)`. -/
def filterRejects (config : Config) (filePath : String) : Bool :=
  match config.FileFilter with
  | none => false
  | some f => !f filePath

/-- The failure branches (lines 213-221, 228-236, 243-251), inside the mutex:
`FailedFiles++` and one `FileError` appended. -/
def recordFailure (b : BatchResult) (file : String) (op : Stage) (err : String)
    (now : Int) : BatchResult :=
  { b with
    FailedFiles := b.FailedFiles + 1
    Errors := b.Errors ++ [{ File := file, Operation := op.operation, Error := err, Timestamp := now }] }

/-- Lines 256-272, inside the mutex: the counters, the byte total and the new `ConvertResult`. -/
def recordSuccess (b : BatchResult) (filePath outputFile : String)
    (processorResult : ProcessorResult) : BatchResult :=
  { b with
    ProcessedFiles := b.ProcessedFiles + 1
    SuccessfulFiles := b.SuccessfulFiles + 1
    TotalBytes := wrapInt64 (b.TotalBytes + processorResult.BytesProcessed)
    Results := b.Results ++ [{
      InputFile := filePath
      OutputFile := outputFile
      SourceEncoding := processorResult.SourceEncoding
      TargetEncoding := processorResult.TargetEncoding
      BytesProcessed := processorResult.BytesProcessed
      ProcessingTime := processorResult.ConversionTime
      DetectionConfidence := 1
      BackupFile := ""
      ProcessorResult := none }] }

/-- Lines 276-292: the Completed event.  `elapsed` and `elapsed2` are the two
readings `time.Since(start)` of lines 284 and 290; the division truncates and
the product wraps like `int64`. -/
def completedProgress (b : BatchResult) (filePath : String) (total : Nat)
    (elapsed elapsed2 : Int) : Progress :=
  { CurrentFile := filePath
    ProcessedFiles := b.ProcessedFiles
    TotalFiles := total
    Status := .StatusCompleted
    StartTime := 0
    ElapsedTime := elapsed
    EstimatedTime :=
      if b.ProcessedFiles > 0 then
        let remaining : Int := (total : Int) - (b.ProcessedFiles : Int)
        let avgTime : Int := Int.tdiv elapsed2 (b.ProcessedFiles : Int)
        wrapInt64 (remaining * avgTime)
      else 0
    FileSize := 0
    ProcessedBytes := 0
    ErrorCount := b.Errors.length }

/-- Lines 189-197: the Skipped event. -/
def skippedProgress (b : BatchResult) (filePath : String) (total : Nat)
    (elapsed : Int) : Progress :=
  { CurrentFile := filePath
    ProcessedFiles := b.ProcessedFiles
    TotalFiles := total
    Status := .StatusSkipped
    StartTime := 0
    ElapsedTime := elapsed
    EstimatedTime := 0
    FileSize := 0
    ProcessedBytes := 0
    ErrorCount := b.Errors.length }

/-- One step of the goroutine body (lines 175-297) of worker `w` on the shared
state `g`: the next program counter and the new shared state, or `none` when
the goroutine cannot move (it waits for a slot, or it has finished).  `cap` is
the capacity of `semaphore` and `total` is `len(files)`.  Each critical section
of `mutex` is one step. -/
def workerStep {σ : Type} (env : Env σ) (config : Config) (cap total : Nat)
    (w : Worker) (g : Shared σ) : Option (PC × Shared σ) :=
  match w.pc with
  | .start =>
    -- a send on a channel completes when the buffer has room; with capacity 0
    -- it needs a receiver, and the only receive is the deferred one below
    if g.semLen < cap then some (.filter, { g with semLen := g.semLen + 1 }) else none
  | .filter =>
    if filterRejects config w.filePath then
      let b := { g.batchResult with
        SkippedFiles := g.batchResult.SkippedFiles + 1
        ProcessedFiles := g.batchResult.ProcessedFiles + 1 }
      match config.ProgressCallback with
      | some _ => some (.skipProgress, { g with batchResult := b })
      | none => some (.release .skipped, { g with batchResult := b })
    else some (.read, g)
  | .skipProgress =>
    some (.skipCallback (skippedProgress g.batchResult w.filePath total (env.clock g.clockReads)),
      { g with clockReads := g.clockReads + 1 })
  | .skipCallback progress =>
    some (.release .skipped, { g with trace := g.trace ++ [.progress (some w.index) progress] })
  | .read =>
    match env.ReadFile g.world w.filePath with
    | (world, .ok data) =>
      some (.convert data,
        { g with world := world, trace := g.trace ++ [.read w.index w.filePath true] })
    | (world, .error err) =>
      some (.readErr err,
        { g with world := world, trace := g.trace ++ [.read w.index w.filePath false] })
  | .readErr err =>
    some (.release (.failed .read),
      { g with
        batchResult := recordFailure g.batchResult w.filePath .read err (env.clock g.clockReads)
        clockReads := g.clockReads + 1 })
  | .convert data =>
    match env.SmartConvert g.world data config.TargetEncoding with
    | (world, .ok processorResult) =>
      some (.write processorResult,
        { g with world := world, trace := g.trace ++ [.convert w.index w.filePath true] })
    | (world, .error err) =>
      some (.convertErr err,
        { g with world := world, trace := g.trace ++ [.convert w.index w.filePath false] })
  | .convertErr err =>
    some (.release (.failed .convert),
      { g with
        batchResult := recordFailure g.batchResult w.filePath .convert err (env.clock g.clockReads)
        clockReads := g.clockReads + 1 })
  | .write processorResult =>
    let outputFile := generateOutputFileName env.rt w.filePath config.TargetEncoding
    match env.WriteFile g.world outputFile processorResult.Data with
    | (world, none) =>
      some (.record processorResult,
        { g with world := world, trace := g.trace ++ [.write w.index w.filePath outputFile true] })
    | (world, some err) =>
      some (.writeErr err,
        { g with world := world, trace := g.trace ++ [.write w.index w.filePath outputFile false] })
  | .writeErr err =>
    some (.release (.failed .write),
      { g with
        batchResult := recordFailure g.batchResult w.filePath .write err (env.clock g.clockReads)
        clockReads := g.clockReads + 1 })
  | .record processorResult =>
    let outputFile := generateOutputFileName env.rt w.filePath config.TargetEncoding
    let b := recordSuccess g.batchResult w.filePath outputFile processorResult
    match config.ProgressCallback with
    | some _ =>
      let progress := completedProgress b w.filePath total
        (env.clock g.clockReads) (env.clock (g.clockReads + 1))
      some (.release .succeeded,
        { g with
          batchResult := b
          clockReads := g.clockReads + 2
          trace := g.trace ++ [.progress (some w.index) progress] })
    | none => some (.release .succeeded, { g with batchResult := b })
  | .release t =>
    -- the receive completes when the buffer holds a value
    if 0 < g.semLen then some (.wgDone t, { g with semLen := g.semLen - 1 }) else none
  | .wgDone t => some (.done t, { g with wg := g.wg - 1 })
  | .done _ => none

/-- The goroutines of one `ConvertFiles` call and the state they share. -/
structure Machine (σ : Type) where
  shared : Shared σ
  workers : List Worker

/-- Worker number `i` takes one step, when it can. -/
def Machine.step {σ : Type} (env : Env σ) (config : Config) (cap total : Nat)
    (i : Nat) (m : Machine σ) : Option (Machine σ) :=
  match m.workers[i]? with
  | none => none
  | some w =>
    match workerStep env config cap total w m.shared with
    | none => none
    | some (pc, g) => some { shared := g, workers := m.workers.set i { w with pc := pc } }

/-- The workers that can take a step. -/
def Machine.enabled {σ : Type} (env : Env σ) (config : Config) (cap total : Nat)
    (m : Machine σ) : List Nat :=
  (List.range m.workers.length).filter
    (fun i => (Machine.step env config cap total i m).isSome)

/-- The goroutines run, one step at a time.  At every step the next number of
the schedule picks one of the workers that can move (the first of them once
the schedule is used up); the run ends when no worker can move. -/
def runWorkers {σ : Type} (env : Env σ) (config : Config) (cap total : Nat) :
    Nat → List Nat → Machine σ → Machine σ
  | 0, _, m => m
  | fuel + 1, sched, m =>
    match Machine.enabled env config cap total m with
    | [] => m
    | e :: es =>
      match Machine.step env config cap total ((e :: es).getD (sched.headD 0 % (es.length + 1)) e) m with
      | none => m
      | some m' => runWorkers env config cap total fuel sched.tail m'

/-- How a call of `ConvertFiles` ends, with the final state of the machine. -/
inductive Outcome (σ : Type)
  /-- The call returned `(result, err)`. -/
  | returned (result : Option BatchResult) (err : Option String) (final : Machine σ)
  /-- The call panicked. -/
  | panicked (msg : String) (final : Machine σ)
  /-- The call never returns: `wg.Wait()` waits for goroutines none of which can move. -/
  | blocked (final : Machine σ)

/-- The initial machine of a `ConvertFiles` call: one goroutine per file (lines
173-175), the `WaitGroup` counting them, the empty aggregate of lines 147-152,
and the Starting event (lines 155-165) if a callback is configured. -/
def initialMachine {σ : Type} (config : Config) (world : σ) (files : List String) : Machine σ :=
  { shared :=
      { world := world
        semLen := 0
        wg := files.length
        batchResult :=
          { TotalFiles := files.length
            ProcessedFiles := 0
            SuccessfulFiles := 0
            FailedFiles := 0
            SkippedFiles := 0
            TotalBytes := 0
            ProcessingTime := 0
            Results := []
            Errors := [] }
        clockReads := 0
        trace :=
          match config.ProgressCallback with
          | some _ =>
            [.progress none
              { CurrentFile := ""
                ProcessedFiles := 0
                TotalFiles := files.length
                Status := .StatusStarting
                StartTime := 0
                ElapsedTime := 0
                EstimatedTime := 0
                FileSize := 0
                ProcessedBytes := 0
                ErrorCount := 0 }]
          | none => [] }
    workers := files.enum.map (fun (i, file) => { index := i, filePath := file, pc := .start }) }

/-- The number of steps after which every goroutine has finished: a goroutine
takes at most eight steps. -/
def stepBudget (files : List String) : Nat := 8 * files.length

/-- Source `ConvertFiles`, run in the world `world` under the schedule `sched`. -/
def ConvertFiles {σ : Type} (env : Env σ) (world : σ) (sched : List Nat)
    (files : List String) (options : List ConfigOption) : Outcome σ :=
  let config := applyOptions env.rt options
  if files.length = 0 then
    .returned none (some "file list cannot be empty")
      { shared :=
          { world := world, semLen := 0, wg := 0, clockReads := 0, trace := []
            batchResult := ⟨0, 0, 0, 0, 0, 0, 0, [], []⟩ }
        workers := [] }
  else
    let m := initialMachine config world files
    -- `make(chan struct{}, n)` panics for a negative n
    if config.ConcurrencyLimit < 0 then .panicked "makechan: size out of range" m
    else
      let final := runWorkers env config config.ConcurrencyLimit.toNat files.length
        (stepBudget files) sched m
      -- `wg.Wait()` returns once the counter is zero
      if final.shared.wg = 0 then
        .returned
          (some { final.shared.batchResult with
            ProcessingTime := env.clock final.shared.clockReads })
          none final
      else .blocked final

/-! ### Reading an outcome -/

/-- The `*BatchResult` a call returned, if it returned one. -/
def Outcome.result {σ : Type} : Outcome σ → Option BatchResult
  | .returned r _ _ => r
  | _ => none

/-- The final machine of a call. -/
def Outcome.final {σ : Type} : Outcome σ → Machine σ
  | .returned _ _ m => m
  | .panicked _ m => m
  | .blocked m => m

/-- The trace of a call. -/
def Outcome.trace {σ : Type} (o : Outcome σ) : List Event := o.final.shared.trace

/-! ### A small world for examples -/

/-- A file system in memory: the files that exist with their contents, and the
paths that cannot be written. -/
structure MemFS where
  files : List (String × Bytes)
  readOnly : List String
  deriving DecidableEq, Repr

/-- An environment over `MemFS`: reading fails for a missing file, the
transcoder fails on empty input and otherwise returns its input, writing fails
on a read-only path, and the clock advances by one second per reading. -/
def memEnv : Env MemFS :=
  { rt := unixASCII
    ReadFile := fun fs name =>
      match fs.files.lookup name with
      | some data => (fs, .ok data)
      | none => (fs, .error "no such file or directory")
    SmartConvert := fun fs data target =>
      if data = [] then (fs, .error "empty input")
      else (fs, .ok
        { Data := data, SourceEncoding := "UTF-8", TargetEncoding := target,
          BytesProcessed := data.length, ConversionTime := 1 })
    WriteFile := fun fs name data =>
      if name ∈ fs.readOnly then (fs, some "permission denied")
      else ({ fs with files := (name, data) :: fs.files.filter (fun f => f.1 != name) }, none)
    clock := fun k => 1000000000 * (k + 1) }

/-! ## Reasoning about runs -/

/-- The machines a run can pass through, starting from `m0`. -/
inductive Reachable {σ : Type} (env : Env σ) (config : Config) (cap total : Nat)
    (m0 : Machine σ) : Machine σ → Prop
  | init : Reachable env config cap total m0 m0
  | step {m m' : Machine σ} {i : Nat} :
      Reachable env config cap total m0 m →
      Machine.step env config cap total i m = some m' →
      Reachable env config cap total m0 m'

/-- The sum over the workers of a number read off each worker. -/
def tally (f : Worker → Nat) (ws : List Worker) : Nat := (ws.map f).sum

/-- Whether a goroutine stands between `semaphore <- struct{}{}` and `<-semaphore`. -/
def PC.holdsSlot : PC → Bool
  | .start => false
  | .wgDone _ => false
  | .done _ => false
  | _ => true

/-- Whether a goroutine has not yet called `wg.Done()`. -/
def PC.pending : PC → Bool
  | .done _ => false
  | _ => true

/-- An upper bound on the number of steps a goroutine still takes. -/
def PC.remaining : PC → Nat
  | .start => 8
  | .filter => 7
  | .read => 6
  | .convert _ => 5
  | .write _ => 4
  | .skipProgress => 4
  | .skipCallback _ => 3
  | .readErr _ => 3
  | .convertErr _ => 3
  | .writeErr _ => 3
  | .record _ => 3
  | .release _ => 2
  | .wgDone _ => 1
  | .done _ => 0

/-- The number of goroutines that hold a slot of the semaphore. -/
def Machine.holding {σ : Type} (m : Machine σ) : Nat :=
  tally (fun w => if w.pc.holdsSlot then 1 else 0) m.workers

/-- What the filter test of line 181 said, once a goroutine is past it:
`some true` when it rejected the path. -/
def PC.rejected : PC → Option Bool
  | .start => none
  | .filter => none
  | .skipProgress => some true
  | .skipCallback _ => some true
  | .release .skipped => some true
  | .wgDone .skipped => some true
  | .done .skipped => some true
  | _ => some false

/-- The outcome a goroutine has recorded in the aggregate, once it has. -/
def PC.recorded : PC → Option Terminal
  | .skipProgress => some .skipped
  | .skipCallback _ => some .skipped
  | .release t => some t
  | .wgDone t => some t
  | .done t => some t
  | _ => none

/-- The stages a goroutine went through before a `return`, each with whether it succeeded. -/
def Terminal.history : Terminal → List (Stage × Bool)
  | .skipped => []
  | .failed .read => [(.read, false)]
  | .failed .convert => [(.read, true), (.convert, false)]
  | .failed .write => [(.read, true), (.convert, true), (.write, false)]
  | .succeeded => [(.read, true), (.convert, true), (.write, true)]

/-- The stages a goroutine has gone through so far, each with whether it succeeded. -/
def PC.history : PC → List (Stage × Bool)
  | .readErr _ => [(.read, false)]
  | .convert _ => [(.read, true)]
  | .convertErr _ => [(.read, true), (.convert, false)]
  | .write _ => [(.read, true), (.convert, true)]
  | .writeErr _ => [(.read, true), (.convert, true), (.write, false)]
  | .record _ => [(.read, true), (.convert, true), (.write, true)]
  | .release t => t.history
  | .wgDone t => t.history
  | .done t => t.history
  | _ => []

/-- The stage an event of the trace belongs to, with the goroutine, its input
path and whether the call succeeded; `none` for a progress callback. -/
def Event.call : Event → Option (Nat × String × Stage × Bool)
  | .progress _ _ => none
  | .read i f ok => some (i, f, .read, ok)
  | .convert i f ok => some (i, f, .convert, ok)
  | .write i f _ ok => some (i, f, .write, ok)

/-- The number of reads, transcoder calls and writes in a trace that satisfy `P`. -/
def callCount (P : Nat → String → Stage → Bool → Bool) (trace : List Event) : Nat :=
  trace.countP (fun ev =>
    match ev.call with
    | some (i, f, s, ok) => P i f s ok
    | none => false)

/-- What holds of a goroutine throughout a run: it is the goroutine of
`files[index]`; once past the filter test, the test said what the filter says;
and the event it is about to deliver is a Skipped event for its file. -/
def WorkerOK (config : Config) (files : List String) (i : Nat) (w : Worker) : Prop :=
  w.index = i ∧ files[i]? = some w.filePath ∧
    (∀ b, w.pc.rejected = some b → filterRejects config w.filePath = b) ∧
    (∀ p, w.pc = .skipCallback p →
      p.TotalFiles = files.length ∧ p.Status = .StatusSkipped ∧ p.CurrentFile = w.filePath)

/-- What holds of the shared state throughout a run of `ConvertFiles` over `total` files. -/
structure SharedOK (rt : GoPlatform) (config : Config) (total : Nat) {σ : Type}
    (g : Shared σ) : Prop where
  totalFiles : g.batchResult.TotalFiles = total
  progressTotal : ∀ w p, Event.progress w p ∈ g.trace → p.TotalFiles = total
  processed : g.batchResult.ProcessedFiles =
    g.batchResult.SkippedFiles + g.batchResult.SuccessfulFiles
  successful : g.batchResult.SuccessfulFiles = g.batchResult.Results.length
  failed : g.batchResult.FailedFiles = g.batchResult.Errors.length
  operations : ∀ e ∈ g.batchResult.Errors, ∃ op : Stage, e.Operation = op.operation
  outputs : ∀ r ∈ g.batchResult.Results,
    r.OutputFile = generateOutputFileName rt r.InputFile config.TargetEncoding
  writes : ∀ i f out ok, Event.write i f out ok ∈ g.trace →
    out = generateOutputFileName rt f config.TargetEncoding

/-- One if the goroutine has been counted in `SkippedFiles`, else zero. -/
def Worker.countSkipped (w : Worker) : Nat :=
  if w.pc.recorded = some .skipped then 1 else 0

/-- One if the goroutine has appended its `ConvertResult` and its path satisfies `P`, else zero. -/
def Worker.countResult (P : String → Bool) (w : Worker) : Nat :=
  if w.pc.recorded = some .succeeded ∧ P w.filePath = true then 1 else 0

/-- One if the goroutine has appended a `FileError` and its path and operation satisfy `P`, else zero. -/
def Worker.countError (P : String → String → Bool) (w : Worker) : Nat :=
  match w.pc.recorded with
  | some (.failed op) => if P w.filePath op.operation then 1 else 0
  | _ => 0

/-- The number of stages the goroutine has gone through that satisfy `P`. -/
def Worker.countCalls (P : Nat → String → Stage → Bool → Bool) (w : Worker) : Nat :=
  w.pc.history.countP (fun x => P w.index w.filePath x.1 x.2)

/-! ### Example inputs -/

/-- A small file system: two text files, an empty one, and a read-only path. -/
def exampleFS : MemFS :=
  { files := [("a.txt", [97]), ("b.txt", [98]), ("e.txt", [])]
    readOnly := ["ro.txt"] }

/-- A file list with one file for every outcome: two that convert, one that is
missing, one the transcoder refuses, and one the default filter rejects. -/
def exampleFiles : List String := ["a.txt", "b.txt", "missing.txt", "e.txt", "x.log"]

/-- Whether a call ended blocked. -/
def Outcome.isBlocked {σ : Type} : Outcome σ → Bool
  | .blocked _ => true
  | _ => false

/-- Whether a call ended in a panic. -/
def Outcome.isPanicked {σ : Type} : Outcome σ → Bool
  | .panicked _ _ => true
  | _ => false

/-- A file system in which the output path of "a.txt" for the target "GBK"
already exists as a file of its own. -/
def gbkFS : MemFS :=
  { files := [("a.txt", [97]), ("a_gbk.txt", [1, 2, 3])]
    readOnly := [] }

/-- Options for the target "GBK" with a filter that accepts only "a.txt". -/
def gbkOptions : List ConfigOption :=
  [WithTargetEncoding "GBK", WithFileFilter (some (fun p => p == "a.txt"))]

/-! ### Upper-case ASCII letters -/

/-- Whether a character is one of the ASCII letters `'A'` to `'Z'`. -/
def isUpperASCII (c : Char) : Bool :=
  decide ('A'.toNat ≤ c.toNat ∧ c.toNat ≤ 'Z'.toNat)

/-! ### Lists of option constructor calls -/

/-- A call of one of the eleven option constructors of `options.go`, with its argument. -/
inductive Setting
  | progress (callback : Option ProgressFunc)
  | targetEncoding (encoding : String)
  | concurrency (limit : Int)
  | fileFilter (filter : Option (String → Bool))
  | backup (create : Bool)
  | overwrite (overwrite : Bool)
  | minConfidence (confidence : Rat)
  | dryRun (dryRun : Bool)
  | skipHidden (skip : Bool)
  | recursive (recursive : Bool)
  | maxFileSize (size : Int)

/-- The option a constructor call returns. -/
def Setting.option : Setting → ConfigOption
  | .progress v => WithProgress v
  | .targetEncoding v => WithTargetEncoding v
  | .concurrency v => WithConcurrency v
  | .fileFilter v => WithFileFilter v
  | .backup v => WithBackup v
  | .overwrite v => WithOverwrite v
  | .minConfidence v => WithMinConfidence v
  | .dryRun v => WithDryRun v
  | .skipHidden v => WithSkipHidden v
  | .recursive v => WithRecursive v
  | .maxFileSize v => WithMaxFileSize v

/-- The value picked from the last element of the list from which `pick`
picks one, or `default` when it picks none from any element. -/
def lastOr {α β : Type} (pick : α → Option β) (default : β) (l : List α) : β :=
  ((l.filterMap pick).getLast?).getD default

/-- The argument of a call of `WithProgress`. -/
def Setting.asProgress : Setting → Option (Option ProgressFunc)
  | .progress v => some v
  | _ => none

/-- The argument of a call of `WithTargetEncoding`. -/
def Setting.asTargetEncoding : Setting → Option String
  | .targetEncoding v => some v
  | _ => none

/-- The argument of a call of `WithConcurrency`. -/
def Setting.asConcurrency : Setting → Option Int
  | .concurrency v => some v
  | _ => none

/-- The argument of a call of `WithFileFilter`. -/
def Setting.asFileFilter : Setting → Option (Option (String → Bool))
  | .fileFilter v => some v
  | _ => none

/-- The argument of a call of `WithBackup`. -/
def Setting.asBackup : Setting → Option Bool
  | .backup v => some v
  | _ => none

/-- The argument of a call of `WithOverwrite`. -/
def Setting.asOverwrite : Setting → Option Bool
  | .overwrite v => some v
  | _ => none

/-- The argument of a call of `WithMinConfidence`. -/
def Setting.asMinConfidence : Setting → Option Rat
  | .minConfidence v => some v
  | _ => none

/-- The argument of a call of `WithDryRun`. -/
def Setting.asDryRun : Setting → Option Bool
  | .dryRun v => some v
  | _ => none

/-- The argument of a call of `WithSkipHidden`. -/
def Setting.asSkipHidden : Setting → Option Bool
  | .skipHidden v => some v
  | _ => none

/-- The argument of a call of `WithRecursive`. -/
def Setting.asRecursive : Setting → Option Bool
  | .recursive v => some v
  | _ => none

/-- The argument of a call of `WithMaxFileSize`. -/
def Setting.asMaxFileSize : Setting → Option Int
  | .maxFileSize v => some v
  | _ => none

/-! ### Completed events and their estimates -/

/-- What holds of every Completed event of a trace, when `processed` files have
been processed so far: it was built after at least one and at most `processed`
files, and its estimate is the `int64` product of the files that remain with
the truncated quotient of a clock reading by the files processed. -/
def EstimatesOK (clock : Nat → Int) (total processed : Nat) (trace : List Event) : Prop :=
  ∀ w p, Event.progress w p ∈ trace → p.Status = .StatusCompleted →
    1 ≤ p.ProcessedFiles ∧ p.ProcessedFiles ≤ processed ∧
    ∃ k, p.EstimatedTime =
      wrapInt64 (((total : Int) - (p.ProcessedFiles : Int)) *
        Int.tdiv (clock k) (p.ProcessedFiles : Int))

/-- The environment `memEnv` with a clock that stands at 2^62 nanoseconds. -/
def lateEnv : Env MemFS :=
  { memEnv with clock := fun _ => 2 ^ 62 }

/-- The progress an event of the trace carries, if it is a callback. -/
def Event.asProgress : Event → Option Progress
  | .progress _ p => some p
  | _ => none

/-! ## Single-file conversion (`converter.go`, `ConvertFile`) -/

/-- The collaborators of `ConvertFile`: those of `Env`, and `os.Stat`. -/
structure StatEnv (σ : Type) extends Env σ where
  /-- Whether `os.Stat(name)` fails with an error for which `os.IsNotExist` holds. -/
  IsNotExist : σ → String → Bool

/-- How a call of `ConvertFile` ends: the pair it returns, the outside world
it leaves, what it did to the outside world, and how often it read the clock. -/
structure FileOutcome (σ : Type) where
  result : Option ConvertResult
  err : Option String
  world : σ
  trace : List Event
  clockReads : Nat

/-- A progress update of `ConvertFile` (lines 32-42, 50-61, 67-78, 86-97,
121-133): nothing without a callback; with one, the event is built, reading
the clock for `StartTime` and, when `elapsed` is set, once more for
`ElapsedTime`, and the callback is called. -/
def fileProgress {σ : Type} (env : Env σ) (config : Config) (inputFile : String)
    (status : ProgressStatus) (processed errorCount : Nat) (bytes : Int) (elapsed : Bool)
    (s : FileOutcome σ) : FileOutcome σ :=
  match config.ProgressCallback with
  | none => s
  | some _ =>
    { s with
      trace := s.trace ++ [Event.progress none
        { CurrentFile := inputFile
          ProcessedFiles := processed
          TotalFiles := 1
          Status := status
          StartTime := env.clock s.clockReads
          ElapsedTime := if elapsed then env.clock (s.clockReads + 1) else 0
          EstimatedTime := 0
          FileSize := 0
          ProcessedBytes := bytes
          ErrorCount := errorCount }]
      clockReads := s.clockReads + (if elapsed then 2 else 1) }

/-- Source `ConvertFile`, run in the world `world`.  Clock readings are in
nanoseconds relative to `start` (line 44). -/
def ConvertFile {σ : Type} (env : StatEnv σ) (world : σ) (inputFile outputFile : String)
    (options : List ConfigOption) : FileOutcome σ :=
  let config := applyOptions env.rt options
  if inputFile = "" then
    ⟨none, some "input file path cannot be empty", world, [], 0⟩
  else if outputFile = "" then
    ⟨none, some "output file path cannot be empty", world, [], 0⟩
  else if env.IsNotExist world inputFile then
    ⟨none, some ("input file does not exist: " ++ inputFile), world, [], 0⟩
  else
    -- lines 32-61: the Starting and the Processing update
    let s0 : FileOutcome σ := ⟨none, none, world, [], 0⟩
    let s1 := fileProgress env.toEnv config inputFile .StatusStarting 0 0 0 false s0
    let s2 := fileProgress env.toEnv config inputFile .StatusProcessing 0 0 0 true s1
    -- line 64
    match env.ReadFile s2.world inputFile with
    | (world, .error err) =>
      let s3 := { s2 with world := world, trace := s2.trace ++ [Event.read 0 inputFile false] }
      let s4 := fileProgress env.toEnv config inputFile .StatusFailed 0 1 0 true s3
      { s4 with err := some ("failed to read file: " ++ err) }
    | (world, .ok data) =>
      let s3 := { s2 with world := world, trace := s2.trace ++ [Event.read 0 inputFile true] }
      -- line 83
      match env.SmartConvert s3.world data config.TargetEncoding with
      | (world, .error err) =>
        let s4 := { s3 with world := world, trace := s3.trace ++ [Event.convert 0 inputFile false] }
        let s5 := fileProgress env.toEnv config inputFile .StatusFailed 0 1 0 true s4
        { s5 with err := some ("failed to convert file " ++ inputFile ++ ": " ++ err) }
      | (world, .ok processorResult) =>
        let s4 := { s3 with world := world, trace := s3.trace ++ [Event.convert 0 inputFile true] }
        -- line 102
        match env.WriteFile s4.world outputFile processorResult.Data with
        | (world, some err) =>
          { s4 with
            world := world
            trace := s4.trace ++ [Event.write 0 inputFile outputFile false]
            err := some ("failed to write file " ++ outputFile ++ ": " ++ err) }
        | (world, none) =>
          let s5 := { s4 with
            world := world
            trace := s4.trace ++ [Event.write 0 inputFile outputFile true]
            clockReads := s4.clockReads + 1 }
          -- lines 108-118
          let result : ConvertResult :=
            { InputFile := inputFile
              OutputFile := outputFile
              SourceEncoding := processorResult.SourceEncoding
              TargetEncoding := processorResult.TargetEncoding
              BytesProcessed := processorResult.BytesProcessed
              ProcessingTime := env.clock s4.clockReads
              DetectionConfidence := 1
              BackupFile := ""
              ProcessorResult := none }
          let s6 := fileProgress env.toEnv config inputFile .StatusCompleted 1 0
            result.BytesProcessed true s5
          { s6 with result := some result }

/-- The environment `memEnv` with `os.Stat` reading the files of `MemFS`. -/
def memStatEnv : StatEnv MemFS :=
  { memEnv with IsNotExist := fun fs name => (fs.files.lookup name).isNone }

/-! ### Counting progress callbacks -/

/-- The number of progress callbacks in a trace whose event satisfies `P`. -/
def progressCount (P : Progress → Bool) (trace : List Event) : Nat :=
  trace.countP (fun ev =>
    match ev.asProgress with
    | some p => P p
    | none => false)

/-- One if the goroutine left through the filter branch, after its Skipped
callback if one is configured, else zero. -/
def Worker.countSkipReturned (w : Worker) : Nat :=
  match w.pc with
  | .release .skipped => 1
  | .wgDone .skipped => 1
  | .done .skipped => 1
  | _ => 0

/-- What holds of the progress callbacks of a trace throughout a run: one
Starting event and one Completed event per successful file when a callback is
configured, and never a Failed or a Processing event. -/
structure ProgressOK (config : Config) (b : BatchResult) (trace : List Event) : Prop where
  starting : progressCount (fun p => p.Status == .StatusStarting) trace =
    if config.ProgressCallback.isSome then 1 else 0
  completed : progressCount (fun p => p.Status == .StatusCompleted) trace =
    if config.ProgressCallback.isSome then b.SuccessfulFiles else 0
  failed : progressCount (fun p => p.Status == .StatusFailed) trace = 0
  processing : progressCount (fun p => p.Status == .StatusProcessing) trace = 0

/-! ### The length of a string in bytes -/

/-- Go `len` of a string: the number of bytes of its UTF-8 encoding. -/
def len (s : String) : Nat :=
  (s.data.map Char.utf8Size).sum

/-- A platform whose lower-case table has the entry of package `unicode` for
the Kelvin sign U+212A (three bytes in UTF-8): the letter `k`. -/
def kelvinPlatform : GoPlatform :=
  { windows := false
    upperTable := fun c => c
    lowerTable := fun c => if c = Char.ofNat 0x212A then 'k' else c }

/-! ### The byte total -/

/-- The sum of `BytesProcessed` over a list of results, in the integers. -/
def sumBytes (results : List ConvertResult) : Int :=
  (results.map (fun r => r.BytesProcessed)).sum

/-- The environment `memEnv` with a transcoder that reports 2^62 processed
bytes for every input. -/
def hugeEnv : Env MemFS :=
  { memEnv with
    SmartConvert := fun fs data target =>
      (fs, .ok
        { Data := data, SourceEncoding := "UTF-8", TargetEncoding := target,
          BytesProcessed := 2 ^ 62, ConversionTime := 1 }) }

/-! ## Directory discovery (`converter.go`, `collectFiles` and `ConvertDirectory`) -/

/-- What can be read of an `os.FileInfo`. -/
structure FileInfo where
  Name : String
  Size : Int
  IsDir : Bool
  /-- The answer of `Mode().IsRegular()`: false for a directory, a symbolic link, a
  device, a socket or a pipe. -/
  IsRegular : Bool
  deriving DecidableEq, Repr

/-- A file tree as `os.Lstat` and the directory listings show it to
`filepath.Walk`.  The entries of a directory stand in the order of its
listing, which is sorted by name.  The size of a directory, which the program
never reads, is not kept and stands as 0 in its `FileInfo`. -/
inductive FileTree
  /-- An entry that is not a directory, with its size in bytes. -/
  | file (name : String) (size : Int) (regular : Bool)
  /-- A directory; `readErr` is the error of listing it, when listing fails. -/
  | dir (name : String) (readErr : Option String) (entries : List FileTree)
  /-- An entry for which `os.Lstat` fails. -/
  | broken (name : String) (err : String)

/-- The name of an entry. -/
def FileTree.name : FileTree → String
  | .file name _ _ => name
  | .dir name _ _ => name
  | .broken name _ => name

/-- Whether an entry is a directory. -/
def FileTree.isDir : FileTree → Bool
  | .dir _ _ _ => true
  | _ => false

namespace strings

/-- Go `strings.HasPrefix`. -/
def HasPrefix (s pre : String) : Bool :=
  pre.data.isPrefixOf s.data

end strings

namespace filepath

/-- A non-nil error returned by a `WalkFunc`: the sentinel `filepath.SkipDir`,
or any other error. -/
inductive WalkError
  | SkipDir
  | failure (msg : String)
  deriving DecidableEq, Repr

/-- Go `filepath.WalkFunc`, with the state the closure updates passed through. -/
abbrev WalkFunc (α : Type) :=
  String → Option FileInfo → Option String → α → α × Option WalkError

/-- Go `os.PathSeparator`. -/
def Separator (rt : GoPlatform) : Char :=
  if rt.windows then '\\' else '/'

/-- The elements of a path: the pieces between its path separators, empty
pieces included. -/
def elements (rt : GoPlatform) : List Char → List (List Char)
  | [] => [[]]
  | c :: cs =>
    if os.IsPathSeparator rt c then [] :: elements rt cs
    else
      match elements rt cs with
      | e :: es => (c :: e) :: es
      | [] => [[c]]

/-- One round of the loop of Go `filepath.Clean`, on the path element `e`;
`out` holds the elements written to the buffer so far.  An empty element and
"." are dropped; ".." removes the last element written when there is one to
backtrack over (`out.w > dotdot`: the last one is not itself ".."), is
written when the path is not rooted, and is dropped otherwise; any other
element is written. -/
def Clean.step (rooted : Bool) (out : List (List Char)) (e : List Char) : List (List Char) :=
  if e = [] ∨ e = ['.'] then out
  else if e = ['.', '.'] then
    match out.getLast? with
    | none => if rooted then out else out ++ [e]
    | some l =>
      if l = ['.', '.'] then (if rooted then out else out ++ [e])
      else out.dropLast
  else out ++ [e]

/-- The elements of the buffer with one separator between them. -/
def Clean.render (sep : Char) : List (List Char) → List Char
  | [] => []
  | [e] => e
  | e :: es => e ++ sep :: Clean.render sep es

/-- Go `filepath.Clean` for a path without a volume name, as is every path on
a Unix target: the elements of the path go through the loop in turn, the
result starts with a separator if the path does, and an empty result is ".". -/
def Clean (rt : GoPlatform) (path : String) : String :=
  let rooted := path.data.head?.map (os.IsPathSeparator rt) == some true
  let out := (elements rt path.data).foldl (Clean.step rooted) []
  if rooted then ⟨Separator rt :: Clean.render (Separator rt) out⟩
  else if out = [] then "."
  else ⟨Clean.render (Separator rt) out⟩

/-- Go `filepath.Join` of two elements for a Unix target: the elements from
the first non-empty one on, with a separator between them, cleaned. -/
def Join (rt : GoPlatform) (dir name : String) : String :=
  if dir ≠ "" then Clean rt (dir ++ String.singleton (Separator rt) ++ name)
  else if name ≠ "" then Clean rt name
  else ""

/-- Whether a string can be the name of a directory entry: not empty, not "."
or "..", and without a path separator. -/
def IsName (rt : GoPlatform) (name : String) : Bool :=
  name != "" && name != "." && name != ".." &&
    name.data.all (fun c => !os.IsPathSeparator rt c)

/-- The elements of a list that count as written less those that count as a
step back: an element other than "", "." and ".." counts one, ".." counts
minus one. -/
def Clean.weight (l : List (List Char)) : Int :=
  (l.map (fun e =>
    if e = ['.', '.'] then (-1 : Int) else if e = [] ∨ e = ['.'] then 0 else 1)).sum

mutual

/-- Go `filepath.walk`: the callback on the entry itself and then, for a
directory that was listed and that the callback did not refuse, on its
entries in turn.  For an entry `os.Lstat` fails on, the callback with that
error, as `filepath.Walk` does for such a root. -/
def walk {α : Type} (rt : GoPlatform) (walkFn : WalkFunc α) (path : String) :
    FileTree → α → α × Option WalkError
  | .file name size regular, a => walkFn path (some ⟨name, size, false, regular⟩) none a
  | .broken _ err, a => walkFn path none (some err) a
  | .dir name readErr entries, a =>
    match walkFn path (some ⟨name, 0, true, false⟩) readErr a with
    | (a1, some err1) => (a1, some err1)
    | (a1, none) =>
      if readErr.isSome then (a1, none)
      else walkEntries rt walkFn path entries a1

/-- The loop of `filepath.walk` over the names of a listing. -/
def walkEntries {α : Type} (rt : GoPlatform) (walkFn : WalkFunc α) (path : String) :
    List FileTree → α → α × Option WalkError
  | [], a => (a, none)
  | .broken name err :: rest, a =>
    -- `err != nil && err != SkipDir` ends the walk
    match walkFn (Join rt path name) none (some err) a with
    | (a1, some (.failure e)) => (a1, some (.failure e))
    | (a1, _) => walkEntries rt walkFn path rest a1
  | .file name size regular :: rest, a =>
    -- `SkipDir` from a file skips the rest of the directory
    match walk rt walkFn (Join rt path name) (.file name size regular) a with
    | (a1, some e) => (a1, some e)
    | (a1, none) => walkEntries rt walkFn path rest a1
  | .dir name readErr entries :: rest, a =>
    match walk rt walkFn (Join rt path name) (.dir name readErr entries) a with
    | (a1, some (.failure e)) => (a1, some (.failure e))
    | (a1, _) => walkEntries rt walkFn path rest a1

end

/-- Go `filepath.Walk` on the tree found at `root`: `SkipDir` from the walk is
no error. -/
def Walk {α : Type} (rt : GoPlatform) (root : String) (tree : FileTree) (walkFn : WalkFunc α)
    (a : α) : α × Option String :=
  match walk rt walkFn root tree a with
  | (a1, some (.failure e)) => (a1, some e)
  | (a1, _) => (a1, none)

end filepath

/-- The callback of `collectFiles` (lines 338-369), with the slice `files` as
its state. -/
def collectFiles.visit (dirPath : String) (config : Config) : filepath.WalkFunc (List String) :=
  fun path info err files =>
    match err, info with
    | some e, _ => (files, some (.failure e))
    -- never called so: a nil `info` comes with an error
    | none, none => (files, some (.failure "invalid memory address or nil pointer dereference"))
    | none, some info =>
      if info.IsDir then
        if !config.Recursive && path != dirPath then (files, some .SkipDir)
        else (files, none)
      else if config.SkipHidden && strings.HasPrefix info.Name "." then (files, none)
      else if decide (config.MaxFileSize > 0) && decide (info.Size > config.MaxFileSize) then
        (files, none)
      else if filterRejects config path then (files, none)
      else (files ++ [path], none)

/-- Source `collectFiles`, on the tree found at `dirPath`. -/
def collectFiles (rt : GoPlatform) (tree : FileTree) (dirPath : String) (config : Config) :
    List String × Option String :=
  filepath.Walk rt dirPath tree (collectFiles.visit dirPath config) []

/-- The collaborators of `ConvertDirectory`: those of `ConvertFile`, and the
tree `filepath.Walk` finds at a path. -/
structure DirEnv (σ : Type) extends StatEnv σ where
  Tree : σ → String → FileTree

/-- The machine of a call that starts no goroutine. -/
def idleMachine {σ : Type} (world : σ) : Machine σ :=
  { shared :=
      { world := world, semLen := 0, wg := 0, clockReads := 0, trace := []
        batchResult := ⟨0, 0, 0, 0, 0, 0, 0, [], []⟩ }
    workers := [] }

/-- Source `ConvertDirectory`, run in the world `world` under the schedule `sched`. -/
def ConvertDirectory {σ : Type} (env : DirEnv σ) (world : σ) (sched : List Nat)
    (dirPath : String) (options : List ConfigOption) : Outcome σ :=
  let config := applyOptions env.rt options
  if env.IsNotExist world dirPath then
    .returned none (some ("directory does not exist: " ++ dirPath)) (idleMachine world)
  else
    match collectFiles env.rt (env.Tree world dirPath) dirPath config with
    | (_, some err) =>
      .returned none
        (some ("failed to collect files from directory " ++ dirPath ++ ": " ++ err))
        (idleMachine world)
    | (files, none) =>
      if files.length = 0 then
        .returned (some ⟨0, 0, 0, 0, 0, 0, 0, [], []⟩) none (idleMachine world)
      else
        ConvertFiles env.toEnv world sched files options

/-! ### The words of the specification, for comparison with the code -/

/-- Whether a name begins with a dot. -/
def isHiddenName (name : String) : Bool :=
  name.data.head? = some '.'

mutual

/-- The entries that are not directories in the tree found at `path`, each
with its path: the entry itself when it is not a directory; for a directory,
when `deep` is set, those of its entries at every depth, in the order of the
listings, and none otherwise. -/
def FileTree.filesAt (rt : GoPlatform) (deep : Bool) (path : String) :
    FileTree → List (String × FileInfo)
  | .file name size regular => [(path, ⟨name, size, false, regular⟩)]
  | .broken _ _ => []
  | .dir _ _ entries => if deep then FileTree.filesIn rt deep path entries else []

/-- The entries that are not directories among the entries of the directory
at `path`: its direct children and, when `deep` is set, those of its
sub-directories at every depth. -/
def FileTree.filesIn (rt : GoPlatform) (deep : Bool) (path : String) :
    List FileTree → List (String × FileInfo)
  | [] => []
  | t :: rest =>
    FileTree.filesAt rt deep (filepath.Join rt path t.name) t ++ FileTree.filesIn rt deep path rest

end

mutual

/-- A tree every entry of which can be read and listed and has a name that a
directory listing can hold (`filepath.IsName`). -/
def FileTree.intact (rt : GoPlatform) : FileTree → Bool
  | .file name _ _ => filepath.IsName rt name
  | .broken _ _ => false
  | .dir name readErr entries =>
    filepath.IsName rt name && readErr.isNone && FileTree.intactAll rt entries

/-- Every tree of a listing is intact. -/
def FileTree.intactAll (rt : GoPlatform) : List FileTree → Bool
  | [] => true
  | t :: rest => t.intact rt && FileTree.intactAll rt rest

end

/-- Whether the hidden-file rule keeps an entry. -/
def passesHidden (config : Config) (info : FileInfo) : Bool :=
  !(config.SkipHidden && isHiddenName info.Name)

/-- Whether the size ceiling keeps an entry: it excludes a file if and only if
the ceiling is positive and the file is larger. -/
def passesSize (config : Config) (info : FileInfo) : Bool :=
  !(decide (0 < config.MaxFileSize) && decide (config.MaxFileSize < info.Size))

/-- Whether discovery keeps a candidate: the hidden-file rule, the size
ceiling and the filter predicate all keep it. -/
def eligible (config : Config) (c : String × FileInfo) : Bool :=
  passesHidden config c.2 && passesSize config c.2 && !filterRejects config c.1

/-! ### Example trees -/

/-- The directory of the repository's test: two text files, a sub-directory
with two more, and a log file. -/
def testTree : FileTree :=
  .dir "testdir" none
    [.file "root1.txt" 5 true, .file "root2.txt" 5 true,
      .dir "subdir" none [.file "sub1.txt" 5 true, .file "sub2.txt" 5 true],
      .file "test.log" 5 true]

/-- A directory with a hidden sub-directory holding a text file, a hidden text
file, a symbolic link and a text file of 2000 bytes next to one of 1000. -/
def hiddenTree : FileTree :=
  .dir "repo" none
    [.dir ".git" none [.file "notes.txt" 5 true],
      .file ".secret.txt" 5 true,
      .file "big.txt" 2000 true,
      .file "link.txt" 9 false,
      .file "small.txt" 1000 true]

/-- An environment over `MemFS` with the directories `dirs`, each with the
tree found there. -/
def memDirEnv (dirs : List (String × FileTree)) : DirEnv MemFS :=
  { memEnv with
    IsNotExist := fun fs name => (fs.files.lookup name).isNone && (dirs.lookup name).isNone
    Tree := fun _ name => (dirs.lookup name).getD (.broken name "no such file or directory") }

/-- A file system with the files of `testTree`. -/
def testFS : MemFS :=
  { files :=
      [("testdir/root1.txt", [97]), ("testdir/root2.txt", [98]),
        ("testdir/subdir/sub1.txt", [99]), ("testdir/subdir/sub2.txt", [100]),
        ("testdir/test.log", [101])]
    readOnly := [] }

/-! # Theorems -/

/-! ## Output path policy: the library functions against the words of the specification -/

theorem ToUpper_foldASCII (rt : GoPlatform) (c : Char) :
    unicode.ToUpper rt (foldASCII c) = unicode.ToUpper rt c := by
  unfold foldASCII
  split
  · rename_i h
    have hc : c = Char.ofNat c.toNat := (Char.ofNat_toNat c).symm
    obtain ⟨h1, h2⟩ := h
    have h1' : 65 ≤ c.toNat := h1
    have h2' : c.toNat ≤ 90 := h2
    rw [hc]
    generalize c.toNat = n at h1' h2'
    interval_cases n <;> rfl
  · rfl

theorem ToUpper_of_equalsIgnoreCase (rt : GoPlatform) (a b : String)
    (h : equalsIgnoreCase a b) : strings.ToUpper rt a = strings.ToUpper rt b := by
  unfold equalsIgnoreCase at h
  have h2 := congrArg (List.map (unicode.ToUpper rt)) h
  simp only [List.map_map] at h2
  have hf : (unicode.ToUpper rt ∘ foldASCII) = unicode.ToUpper rt := by
    funext c; exact ToUpper_foldASCII rt c
  rw [hf] at h2
  simp [strings.ToUpper, h2]

theorem scan_eq (rt : GoPlatform) (rev acc : List Char) :
    filepath.Ext.scan rt rev acc =
      if '.' ∈ rev.takeWhile (fun c => !os.IsPathSeparator rt c) then
        '.' :: ((rev.takeWhile (fun c => !os.IsPathSeparator rt c)).takeWhile
                  (fun c => c != '.')).reverse ++ acc
      else [] := by
  induction rev generalizing acc with
  | nil => simp [filepath.Ext.scan]
  | cons c rev ih =>
    by_cases hs : os.IsPathSeparator rt c = true
    · simp [filepath.Ext.scan, hs]
    · by_cases hd : c = '.'
      · subst hd
        simp [filepath.Ext.scan, hs]
      · have hd2 : ¬ ('.' = c) := fun h => hd h.symm
        simp [filepath.Ext.scan, hs, hd, hd2, ih]

theorem Ext_eq_specExt (rt : GoPlatform) (p : String) :
    (filepath.Ext rt p).data = specExt rt p.data := by
  simp [filepath.Ext, scan_eq, specExt, finalElement]

theorem dir_append_final (rt : GoPlatform) (p : List Char) :
    dirPart rt p ++ finalElement rt p = p := by
  unfold dirPart finalElement
  rw [← List.reverse_append, List.takeWhile_append_dropWhile, List.reverse_reverse]

theorem finalElement_noSep (rt : GoPlatform) (p : List Char) :
    ∀ c ∈ finalElement rt p, os.IsPathSeparator rt c = false := by
  intro c hc
  unfold finalElement at hc
  rw [List.mem_reverse] at hc
  simpa using List.mem_takeWhile_imp hc

theorem specExt_suffix_final (rt : GoPlatform) (p : List Char) :
    specExt rt p <:+ finalElement rt p := by
  unfold specExt
  simp only
  split
  · rename_i h
    generalize finalElement rt p = e at h
    have h' : '.' ∈ e.reverse := List.mem_reverse.mpr h
    have key : ∀ r : List Char, '.' ∈ r →
        ('.' :: (r.takeWhile (fun c => c != '.')).reverse) <:+ r.reverse := by
      intro r
      induction r with
      | nil => simp
      | cons c r ih =>
        intro hm
        by_cases hd : c = '.'
        · subst hd
          simp
        · have hm' : '.' ∈ r := by
            rcases List.mem_cons.mp hm with h | h
            · exact absurd h.symm hd
            · exact h
          have := ih hm'
          simp only [List.takeWhile_cons, bne_iff_ne, ne_eq, hd, not_false_eq_true,
            decide_True, ↓reduceIte, List.reverse_cons]
          obtain ⟨t, ht⟩ := this
          refine ⟨t, ?_⟩
          rw [← ht]
          simp
    simpa using key e.reverse h'
  · exact List.nil_suffix

theorem specExt_suffix (rt : GoPlatform) (p : List Char) : specExt rt p <:+ p := by
  refine (specExt_suffix_final rt p).trans ?_
  exact ⟨dirPart rt p, dir_append_final rt p⟩

theorem specBase_append_specExt (rt : GoPlatform) (p : List Char) :
    specBase rt p ++ specExt rt p = p := by
  obtain ⟨t, ht⟩ := specExt_suffix rt p
  unfold specBase
  generalize specExt rt p = x at ht ⊢
  subst ht
  simp

theorem TrimSuffix_Ext (rt : GoPlatform) (p : String) :
    (strings.TrimSuffix p (filepath.Ext rt p)).data = specBase rt p.data := by
  have hs : strings.HasSuffix p (filepath.Ext rt p) = true := by
    unfold strings.HasSuffix
    rw [Ext_eq_specExt]
    simpa using specExt_suffix rt p.data
  simp [strings.TrimSuffix, hs, specBase, Ext_eq_specExt]

theorem dirPart_append_noSep (rt : GoPlatform) (l t : List Char)
    (ht : ∀ c ∈ t, os.IsPathSeparator rt c = false) :
    dirPart rt (l ++ t) = dirPart rt l := by
  unfold dirPart
  congr 1
  rw [List.reverse_append]
  have key : ∀ r : List Char, (∀ c ∈ r, os.IsPathSeparator rt c = false) →
      (r ++ l.reverse).dropWhile (fun c => !os.IsPathSeparator rt c) =
        l.reverse.dropWhile (fun c => !os.IsPathSeparator rt c) := by
    intro r
    induction r with
    | nil => simp
    | cons c r ih =>
      intro h
      have hc := h c (List.mem_cons_self _ _)
      simp only [List.cons_append, List.dropWhile_cons, hc, Bool.not_false, ↓reduceIte]
      exact ih (fun d hd => h d (List.mem_cons_of_mem _ hd))
  exact key t.reverse (fun c hc => ht c (List.mem_reverse.mp hc))

theorem dirPart_eq_of_final (rt : GoPlatform) (p t : List Char)
    (ht : ∀ c ∈ t, os.IsPathSeparator rt c = false) :
    dirPart rt (dirPart rt p ++ t) = dirPart rt p := by
  rw [dirPart_append_noSep rt _ _ ht]
  have h := dirPart_append_noSep rt (dirPart rt p) (finalElement rt p) (finalElement_noSep rt p)
  rw [dir_append_final] at h
  exact h.symm

theorem specBase_eq_dir_stem (rt : GoPlatform) (p : List Char) :
    ∃ stem, specBase rt p = dirPart rt p ++ stem ∧ stem ++ specExt rt p = finalElement rt p := by
  obtain ⟨stem, hs⟩ := specExt_suffix_final rt p
  refine ⟨stem, ?_, hs⟩
  have h1 := specBase_append_specExt rt p
  have h2 : (dirPart rt p ++ stem) ++ specExt rt p = p := by
    rw [List.append_assoc, hs, dir_append_final]
  exact List.append_cancel_right (h1.trans h2.symm)

theorem generateOutputFileName_data (rt : GoPlatform) (p e : String)
    (h : strings.ToUpper rt e ≠ "UTF-8") :
    (generateOutputFileName rt p e).data =
      specBase rt p.data ++ '_' :: (strings.ToLower rt e).data ++ specExt rt p.data := by
  unfold generateOutputFileName
  simp only [h, ↓reduceIte, String.data_append, TrimSuffix_Ext, Ext_eq_specExt]
  simp

theorem foldASCII_ToUpper (rt : GoPlatform) (c : Char) (hc : c.toNat ≤ unicode.MaxASCII) :
    foldASCII (unicode.ToUpper rt c) = foldASCII c := by
  have hc' : c.toNat ≤ 127 := hc
  have he : c = Char.ofNat c.toNat := (Char.ofNat_toNat c).symm
  rw [he]
  generalize c.toNat = n at hc'
  interval_cases n <;> rfl

/-- When no rune above ASCII has an upper case among the characters of
"UTF-8", the comparison of the program (`strings.ToUpper(e) == "UTF-8"`) is
the case-insensitive comparison with "UTF-8". -/
theorem ToUpper_eq_utf8_iff (rt : GoPlatform) (e : String)
    (hT : ∀ c : Char, unicode.MaxASCII < c.toNat → rt.upperTable c ∉ "UTF-8".data) :
    strings.ToUpper rt e = "UTF-8" ↔ equalsIgnoreCase e "UTF-8" := by
  constructor
  · intro h
    have hd : e.data.map (unicode.ToUpper rt) = "UTF-8".data := by
      have := congrArg String.data h
      simpa [strings.ToUpper] using this
    have hascii : ∀ c ∈ e.data, c.toNat ≤ unicode.MaxASCII := by
      intro c hc
      by_contra hn
      have hmem : unicode.ToUpper rt c ∈ "UTF-8".data := by
        rw [← hd]
        exact List.mem_map_of_mem _ hc
      have hlt : unicode.MaxASCII < c.toNat := by omega
      have hup : unicode.ToUpper rt c = rt.upperTable c := by
        unfold unicode.ToUpper
        rw [if_neg hn]
      rw [hup] at hmem
      exact hT c hlt hmem
    unfold equalsIgnoreCase
    rw [← hd, List.map_map]
    apply List.map_congr_left
    intro c hc
    exact (foldASCII_ToUpper rt c (hascii c hc)).symm
  · intro h
    rw [ToUpper_of_equalsIgnoreCase rt e "UTF-8" h]
    rfl

theorem generateOutputFileName_utf8_same (rt : GoPlatform) (p e : String)
    (h : equalsIgnoreCase e "UTF-8") : generateOutputFileName rt p e = p := by
  have hu : strings.ToUpper rt e = "UTF-8" := by
    rw [ToUpper_of_equalsIgnoreCase rt e "UTF-8" h]
    rfl
  simp [generateOutputFileName, hu]

/-! ## Runs of the goroutines: general facts -/

section Runs

variable {σ : Type} {env : Env σ} {config : Config} {cap total : Nat}

theorem Machine.step_some {i : Nat} {m m' : Machine σ}
    (h : Machine.step env config cap total i m = some m') :
    ∃ w pc g, m.workers[i]? = some w ∧
      workerStep env config cap total w m.shared = some (pc, g) ∧
      m' = { shared := g, workers := m.workers.set i { w with pc := pc } } := by
  unfold Machine.step at h
  split at h
  · exact absurd h (by simp)
  · rename_i w hw
    split at h
    · exact absurd h (by simp)
    · rename_i pc g hs
      exact ⟨w, pc, g, hw, hs, (Option.some.inj h).symm⟩

theorem runWorkers_reachable {m0 : Machine σ} (fuel : Nat) :
    ∀ (sched : List Nat) (m : Machine σ), Reachable env config cap total m0 m →
      Reachable env config cap total m0 (runWorkers env config cap total fuel sched m) := by
  induction fuel with
  | zero => intro sched m h; exact h
  | succ n ih =>
    intro sched m h
    unfold runWorkers
    split
    · exact h
    · split
      · exact h
      · rename_i m' hs
        exact ih _ _ (Reachable.step h hs)

theorem tally_set (f : Worker → Nat) :
    ∀ (ws : List Worker) (i : Nat) (w w' : Worker), ws[i]? = some w →
      tally f (ws.set i w') + f w = tally f ws + f w' := by
  intro ws
  induction ws with
  | nil => intro i w w' h; simp at h
  | cons a ws ih =>
    intro i w w' h
    cases i with
    | zero =>
      simp at h
      subst h
      simp [tally]
      omega
    | succ i =>
      simp at h
      have := ih i w w' h
      simp [tally] at this ⊢
      omega

theorem tally_congr (f g : Worker → Nat) (ws : List Worker)
    (h : ∀ w ∈ ws, f w = g w) : tally f ws = tally g ws := by
  unfold tally
  rw [List.map_congr_left h]

theorem tally_add (f g : Worker → Nat) (ws : List Worker) :
    tally (fun w => f w + g w) ws = tally f ws + tally g ws := by
  induction ws with
  | nil => simp [tally]
  | cons a ws ih => simp [tally] at ih ⊢; omega

theorem tally_eq_zero (f : Worker → Nat) (ws : List Worker)
    (h : ∀ w ∈ ws, f w = 0) : tally f ws = 0 := by
  induction ws with
  | nil => simp [tally]
  | cons a ws ih =>
    have h1 := h a (List.mem_cons_self _ _)
    have h2 := ih (fun w hw => h w (List.mem_cons_of_mem _ hw))
    simp [tally] at h2 ⊢
    exact ⟨h1, h2⟩

theorem tally_pos_of_mem (f : Worker → Nat) (ws : List Worker) (w : Worker)
    (hw : w ∈ ws) : f w ≤ tally f ws := by
  induction ws with
  | nil => simp at hw
  | cons a ws ih =>
    rcases List.mem_cons.mp hw with h | h
    · subst h; simp [tally]
    · have := ih h
      simp [tally] at this ⊢
      omega

/-- A quantity of the shared state that every step changes by as much as it
changes the stepping worker's contribution stays equal to the tally. -/
theorem tally_invariant {m0 m : Machine σ} (q : Shared σ → Nat) (f : Worker → Nat)
    (hstep : ∀ w g pc g', f w ≤ q g → workerStep env config cap total w g = some (pc, g') →
      q g' + f w = q g + f { w with pc := pc })
    (h0 : q m0.shared = tally f m0.workers)
    (hr : Reachable env config cap total m0 m) : q m.shared = tally f m.workers := by
  induction hr with
  | init => exact h0
  | step _ hs ih =>
    obtain ⟨w, pc, g, hw, hws, rfl⟩ := Machine.step_some hs
    have h3 := tally_pos_of_mem f _ w (List.getElem?_mem hw)
    have h1 := hstep w _ pc g (by omega) hws
    have h2 := tally_set f _ _ w { w with pc := pc } hw
    simp only
    omega

end Runs

/-! ## The semaphore, the wait group and termination -/

section Gate

variable {σ : Type} {env : Env σ} {config : Config} {cap total : Nat}

theorem workerStep_semLen (w : Worker) (g : Shared σ) (pc : PC) (g' : Shared σ)
    (h : workerStep env config cap total w g = some (pc, g')) :
    g'.semLen + (if w.pc.holdsSlot then 1 else 0) =
      g.semLen + (if pc.holdsSlot then 1 else 0) ∧ g'.semLen ≤ max g.semLen cap := by
  obtain ⟨idx, path, wpc⟩ := w
  cases wpc <;> simp only [workerStep] at h <;> (try split at h) <;> (try split at h) <;>
    simp at h <;> obtain ⟨rfl, rfl⟩ := h <;> simp [PC.holdsSlot] <;> omega

theorem workerStep_wg (w : Worker) (g : Shared σ) (pc : PC) (g' : Shared σ)
    (hle : (if w.pc.pending then 1 else 0) ≤ g.wg)
    (h : workerStep env config cap total w g = some (pc, g')) :
    g'.wg + (if w.pc.pending then 1 else 0) = g.wg + (if pc.pending then 1 else 0) := by
  obtain ⟨idx, path, wpc⟩ := w
  cases wpc <;> simp only [workerStep] at h <;> (try split at h) <;> (try split at h) <;>
    simp at h <;> obtain ⟨rfl, rfl⟩ := h <;>
    first
      | (simp [PC.pending] at hle ⊢; done)
      | (simp [PC.pending] at hle ⊢; omega)

theorem workerStep_remaining (w : Worker) (g : Shared σ) (pc : PC) (g' : Shared σ)
    (h : workerStep env config cap total w g = some (pc, g')) :
    pc.remaining < w.pc.remaining := by
  obtain ⟨idx, path, wpc⟩ := w
  cases wpc <;> simp only [workerStep] at h <;> (try split at h) <;> (try split at h) <;>
    simp at h <;> obtain ⟨rfl, rfl⟩ := h <;> simp [PC.remaining]

theorem workerStep_none (w : Worker) (g : Shared σ)
    (h : workerStep env config cap total w g = none) :
    (w.pc = .start ∧ cap ≤ g.semLen) ∨ (∃ t, w.pc = .release t ∧ g.semLen = 0) ∨
      (∃ t, w.pc = .done t) := by
  obtain ⟨idx, path, wpc⟩ := w
  cases wpc <;> simp only [workerStep] at h <;> (try split at h) <;> (try split at h) <;>
    simp at h ⊢ <;> omega

/-- A predicate of the shared state that every step preserves holds throughout a run. -/
theorem shared_invariant {m0 m : Machine σ} (P : Shared σ → Prop)
    (hstep : ∀ w g pc g', P g → workerStep env config cap total w g = some (pc, g') → P g')
    (h0 : P m0.shared)
    (hr : Reachable env config cap total m0 m) : P m.shared := by
  induction hr with
  | init => exact h0
  | step _ hs ih =>
    obtain ⟨w, pc, g, _, hws, rfl⟩ := Machine.step_some hs
    exact hstep w _ pc g ih hws

theorem step_remaining {i : Nat} {m m' : Machine σ}
    (h : Machine.step env config cap total i m = some m') :
    tally (fun w => w.pc.remaining) m'.workers < tally (fun w => w.pc.remaining) m.workers := by
  obtain ⟨w, pc, g, hw, hws, rfl⟩ := Machine.step_some h
  have h1 := workerStep_remaining w _ pc g hws
  have h2 := tally_set (fun w => w.pc.remaining) _ _ w { w with pc := pc } hw
  simp only at h2 ⊢
  omega

theorem mem_enabled {i : Nat} {m : Machine σ} :
    i ∈ Machine.enabled env config cap total m ↔
      i < m.workers.length ∧ (Machine.step env config cap total i m).isSome = true := by
  simp [Machine.enabled]

theorem enabled_nil_of_remaining_zero (m : Machine σ)
    (h : tally (fun w => w.pc.remaining) m.workers = 0) :
    Machine.enabled env config cap total m = [] := by
  rw [List.eq_nil_iff_forall_not_mem]
  intro i hi
  obtain ⟨_, hs⟩ := mem_enabled.mp hi
  obtain ⟨m', hm'⟩ := Option.isSome_iff_exists.mp hs
  have := step_remaining hm'
  omega

/-- With as much fuel as the goroutines have steps left, a run ends in a
machine in which no goroutine can move. -/
theorem runWorkers_quiescent (fuel : Nat) :
    ∀ (sched : List Nat) (m : Machine σ), tally (fun w => w.pc.remaining) m.workers ≤ fuel →
      Machine.enabled env config cap total (runWorkers env config cap total fuel sched m) = [] := by
  induction fuel with
  | zero =>
    intro sched m h
    exact enabled_nil_of_remaining_zero m (by omega)
  | succ n ih =>
    intro sched m h
    unfold runWorkers
    split
    · assumption
    · rename_i e es he
      have hmem : (e :: es).getD (sched.headD 0 % (es.length + 1)) e ∈
          Machine.enabled env config cap total m := by
        rw [he]
        have hlt : sched.headD 0 % (es.length + 1) < (e :: es).length := by
          simp only [List.length_cons]
          exact Nat.mod_lt _ (Nat.succ_pos _)
        rw [List.getD_eq_getElem _ _ hlt]
        exact List.getElem_mem _
      obtain ⟨_, hs⟩ := mem_enabled.mp hmem
      split
      · rename_i hnone
        rw [hnone] at hs
        exact absurd hs (by simp)
      · rename_i m' hm'
        have := step_remaining hm'
        exact ih _ _ (by omega)

/-- No deadlock: when the semaphore has room for one goroutine and no goroutine
can move, every goroutine has finished. -/
theorem all_done_of_quiescent (m : Machine σ) (hcap : 0 < cap)
    (hsem : m.shared.semLen = m.holding)
    (hq : Machine.enabled env config cap total m = []) :
    ∀ w ∈ m.workers, ∃ t, w.pc = .done t := by
  have hnone : ∀ w ∈ m.workers, workerStep env config cap total w m.shared = none := by
    intro w hw
    obtain ⟨i, hi, hget⟩ := List.getElem_of_mem hw
    have hni : i ∉ Machine.enabled env config cap total m := by rw [hq]; simp
    rw [mem_enabled] at hni
    have hstep : Machine.step env config cap total i m = none := by
      cases hs : Machine.step env config cap total i m with
      | none => rfl
      | some m' => exact absurd ⟨hi, by simp [hs]⟩ hni
    unfold Machine.step at hstep
    have hw' : m.workers[i]? = some w := by rw [List.getElem?_eq_getElem hi, hget]
    rw [hw'] at hstep
    simp only at hstep
    split at hstep
    · assumption
    · exact absurd hstep (by simp)
  have hcases := fun w hw => workerStep_none w m.shared (hnone w hw)
  -- no goroutine waits to release a slot
  have hnorel : ∀ w ∈ m.workers, ∀ t, w.pc ≠ .release t := by
    intro w hw t ht
    rcases hcases w hw with ⟨h1, _⟩ | ⟨t', _, h0⟩ | ⟨t', h1⟩
    · rw [ht] at h1; exact absurd h1 (by simp)
    · have := tally_pos_of_mem (fun w => if w.pc.holdsSlot then 1 else 0) _ w hw
      have hh : w.pc.holdsSlot = true := by rw [ht]; rfl
      simp only [hh, if_true] at this
      unfold Machine.holding at hsem
      omega
    · rw [ht] at h1; exact absurd h1 (by simp)
  have hhold : m.holding = 0 := by
    apply tally_eq_zero
    intro w hw
    rcases hcases w hw with ⟨h1, _⟩ | ⟨t', h1, _⟩ | ⟨t', h1⟩
    · simp [h1, PC.holdsSlot]
    · exact absurd h1 (hnorel w hw t')
    · simp [h1, PC.holdsSlot]
  intro w hw
  rcases hcases w hw with ⟨_, h2⟩ | ⟨t', h1, _⟩ | h
  · omega
  · exact absurd h1 (hnorel w hw t')
  · exact h

end Gate

/-! ## The run of `ConvertFiles` -/

section Run

variable {σ : Type} {env : Env σ} {config : Config} {cap total : Nat}

theorem tally_enumFrom (f : Worker → Nat) (c : Nat)
    (hf : ∀ i file, f { index := i, filePath := file, pc := .start } = c) :
    ∀ (files : List String) (k : Nat),
      tally f ((files.enumFrom k).map
        (fun (x : Nat × String) => { index := x.1, filePath := x.2, pc := .start })) =
        c * files.length := by
  intro files
  induction files with
  | nil => intro k; simp [tally]
  | cons a files ih =>
    intro k
    have := ih (k + 1)
    simp only [tally, List.enumFrom_cons, List.map_cons, List.sum_cons, List.length_cons, hf] at this ⊢
    rw [this, Nat.mul_succ, Nat.add_comm]

theorem tally_initial (f : Worker → Nat) (c : Nat) (world : σ) (files : List String)
    (hf : ∀ i file, f { index := i, filePath := file, pc := .start } = c) :
    tally f (initialMachine config world files).workers = c * files.length := by
  simpa [initialMachine, List.enum] using tally_enumFrom f c hf files 0

theorem reachable_semLen {world : σ} {files : List String} {m : Machine σ}
    (hr : Reachable env config cap total (initialMachine config world files) m) :
    m.shared.semLen = m.holding := by
  unfold Machine.holding
  refine tally_invariant (fun g => g.semLen) _ ?_ ?_ hr
  · intro w g pc g' _ h
    exact (workerStep_semLen w g pc g' h).1
  · rw [tally_initial _ 0 world files (by intros; rfl)]
    simp [initialMachine]

theorem reachable_semLen_le {world : σ} {files : List String} {m : Machine σ}
    (hr : Reachable env config cap total (initialMachine config world files) m) :
    m.shared.semLen ≤ cap := by
  refine shared_invariant (fun g => g.semLen ≤ cap) ?_ ?_ hr
  · intro w g pc g' hg h
    have := (workerStep_semLen w g pc g' h).2
    simp only at hg ⊢
    omega
  · simp [initialMachine]

theorem reachable_wg {world : σ} {files : List String} {m : Machine σ}
    (hr : Reachable env config cap total (initialMachine config world files) m) :
    m.shared.wg = tally (fun w => if w.pc.pending then 1 else 0) m.workers := by
  refine tally_invariant (fun g => g.wg) _ ?_ ?_ hr
  · intro w g pc g' hle h
    exact workerStep_wg w g pc g' hle h
  · rw [tally_initial _ 1 world files (by intros; rfl)]
    simp [initialMachine]

/-- The machine in which the run of `ConvertFiles` ends. -/
theorem run_reachable (world : σ) (sched : List Nat) (files : List String) :
    Reachable env config cap total (initialMachine config world files)
      (runWorkers env config cap total (stepBudget files) sched
        (initialMachine config world files)) :=
  runWorkers_reachable _ _ _ Reachable.init

/-- With a positive capacity the run ends with every goroutine finished. -/
theorem run_all_done (world : σ) (sched : List Nat) (files : List String) (hcap : 0 < cap) :
    ∀ w ∈ (runWorkers env config cap total (stepBudget files) sched
        (initialMachine config world files)).workers, ∃ t, w.pc = .done t := by
  apply all_done_of_quiescent _ hcap (reachable_semLen (run_reachable world sched files))
  apply runWorkers_quiescent
  rw [tally_initial _ 8 world files (by intros; rfl)]
  rfl

theorem wg_zero_of_all_done {world : σ} {files : List String} {m : Machine σ}
    (hr : Reachable env config cap total (initialMachine config world files) m)
    (hd : ∀ w ∈ m.workers, ∃ t, w.pc = .done t) : m.shared.wg = 0 := by
  rw [reachable_wg hr]
  apply tally_eq_zero
  intro w hw
  obtain ⟨t, ht⟩ := hd w hw
  simp [ht, PC.pending]

theorem all_done_of_wg_zero {world : σ} {files : List String} {m : Machine σ}
    (hr : Reachable env config cap total (initialMachine config world files) m)
    (hz : m.shared.wg = 0) : ∀ w ∈ m.workers, ∃ t, w.pc = .done t := by
  intro w hw
  have h1 := tally_pos_of_mem (fun w => if w.pc.pending then 1 else 0) _ w hw
  rw [← reachable_wg hr, hz] at h1
  cases hpc : w.pc <;> simp [hpc, PC.pending] at h1 ⊢

end Run

/-! ## Invariants of a run -/

section Invariants

variable {σ : Type} {env : Env σ} {config : Config} {cap : Nat} {files : List String}

theorem rejected_wgDone (t : Terminal) : (PC.wgDone t).rejected = (PC.release t).rejected := by
  cases t <;> rfl

theorem rejected_done (t : Terminal) : (PC.done t).rejected = (PC.wgDone t).rejected := by
  cases t <;> rfl

theorem workerStep_ok (i : Nat) (w : Worker) (g : Shared σ) (pc : PC) (g' : Shared σ)
    (hw : WorkerOK config files i w)
    (h : workerStep env config cap files.length w g = some (pc, g')) :
    WorkerOK config files i { w with pc := pc } := by
  obtain ⟨h1, h2, h3, h4⟩ := hw
  obtain ⟨idx, path, wpc⟩ := w
  refine ⟨h1, h2, ?_, ?_⟩
  · cases wpc <;> simp only [workerStep] at h <;> (try split at h) <;> (try split at h) <;>
      simp at h <;> obtain ⟨rfl, rfl⟩ := h <;> intro b hb <;>
      first
        | (simp [PC.rejected] at hb; done)
        | exact h3 b hb
        | exact h3 b (by rw [← rejected_wgDone]; exact hb)
        | exact h3 b (by rw [← rejected_done]; exact hb)
        | (simp [PC.rejected] at hb; subst hb; simp at *; assumption)
  · cases wpc <;> simp only [workerStep] at h <;> (try split at h) <;> (try split at h) <;>
      simp at h <;> obtain ⟨rfl, rfl⟩ := h <;> intro p hp <;>
      first
        | (simp at hp; done)
        | (simp at hp; subst hp; simp [skippedProgress])

theorem initial_workers_getElem? (world : σ) (i : Nat) :
    (initialMachine config world files).workers[i]? =
      (files[i]?).map (fun file => { index := i, filePath := file, pc := .start }) := by
  simp only [initialMachine, List.getElem?_map, List.enum]
  rw [List.getElem?_enumFrom]
  cases files[i]? <;> simp

theorem reachable_workers_ok {world : σ} {m : Machine σ}
    (hr : Reachable env config cap files.length (initialMachine config world files) m) :
    m.workers.length = files.length ∧
      ∀ i w, m.workers[i]? = some w → WorkerOK config files i w := by
  induction hr with
  | init =>
    refine ⟨by simp [initialMachine], ?_⟩
    intro i w hw
    rw [initial_workers_getElem?] at hw
    cases hf : files[i]? with
    | none => simp [hf] at hw
    | some file =>
      simp [hf] at hw
      subst hw
      exact ⟨rfl, hf, by intro b hb; simp [PC.rejected] at hb, by intro p hp; simp at hp⟩
  | step _ hs ih =>
    obtain ⟨w, pc, g, hw, hws, rfl⟩ := Machine.step_some hs
    obtain ⟨hlen, hok⟩ := ih
    refine ⟨by simpa using hlen, ?_⟩
    intro j w' hj
    simp only [List.getElem?_set] at hj
    split at hj
    · rename_i hij
      subst hij
      split at hj
      · have := Option.some.inj hj
        subst this
        exact workerStep_ok _ w _ pc g (hok _ w hw) hws
      · exact absurd hj (by simp)
    · exact hok j w' hj

/-- A predicate of the shared state that every step of a well-formed goroutine
preserves holds throughout a run. -/
theorem shared_invariant_ok {world : σ} {m : Machine σ} (P : Shared σ → Prop)
    (hstep : ∀ i w g pc g', WorkerOK config files i w → P g →
      workerStep env config cap files.length w g = some (pc, g') → P g')
    (h0 : P (initialMachine config world files).shared)
    (hr : Reachable env config cap files.length (initialMachine config world files) m) :
    P m.shared := by
  induction hr with
  | init => exact h0
  | step hr' hs ih =>
    obtain ⟨w, pc, g, hw, hws, rfl⟩ := Machine.step_some hs
    exact hstep _ w _ pc g ((reachable_workers_ok hr').2 _ w hw) ih hws

theorem workerStep_sharedOK (i : Nat) (w : Worker) (g : Shared σ) (pc : PC) (g' : Shared σ)
    (hw : WorkerOK config files i w) (hg : SharedOK env.rt config files.length g)
    (h : workerStep env config cap files.length w g = some (pc, g')) :
    SharedOK env.rt config files.length g' := by
  obtain ⟨h1, h2, h3, h4, h5, h6, h7, h8⟩ := hg
  obtain ⟨-, -, -, hp⟩ := hw
  obtain ⟨idx, path, wpc⟩ := w
  constructor
  · clear h2 h3 h4 h5 h6 h7 h8 hp
    cases wpc <;> simp only [workerStep] at h <;> (try split at h) <;> (try split at h) <;>
      simp at h <;> obtain ⟨rfl, rfl⟩ := h <;>
      simpa [recordFailure, recordSuccess] using h1
  · clear h1 h3 h4 h5 h6 h7 h8
    cases wpc <;> simp only [workerStep] at h <;> (try split at h) <;> (try split at h) <;>
      simp at h <;> obtain ⟨rfl, rfl⟩ := h <;> intro w p hmem <;>
      first
        | exact h2 w p hmem
        | (simp at hmem
           rcases hmem with hmem | hmem
           · exact h2 w p hmem
           · obtain ⟨-, rfl⟩ := hmem
             first
              | rfl
              | exact (hp _ rfl).1)
        | (simp at hmem; exact h2 w p hmem)
  · clear h1 h2 h4 h5 h6 h7 h8 hp
    cases wpc <;> simp only [workerStep] at h <;> (try split at h) <;> (try split at h) <;>
      simp at h <;> obtain ⟨rfl, rfl⟩ := h <;>
      (try simp [recordFailure, recordSuccess]) <;> omega
  · clear h1 h2 h3 h5 h6 h7 h8 hp
    cases wpc <;> simp only [workerStep] at h <;> (try split at h) <;> (try split at h) <;>
      simp at h <;> obtain ⟨rfl, rfl⟩ := h <;>
      (try simp [recordFailure, recordSuccess]) <;> omega
  · clear h1 h2 h3 h4 h6 h7 h8 hp
    cases wpc <;> simp only [workerStep] at h <;> (try split at h) <;> (try split at h) <;>
      simp at h <;> obtain ⟨rfl, rfl⟩ := h <;>
      (try simp [recordFailure, recordSuccess]) <;> omega
  · clear h1 h2 h3 h4 h5 h7 h8 hp
    cases wpc <;> simp only [workerStep] at h <;> (try split at h) <;> (try split at h) <;>
      simp at h <;> obtain ⟨rfl, rfl⟩ := h <;> intro e he <;>
      first
        | exact h6 e he
        | (simp [recordFailure, recordSuccess] at he
           first
            | exact h6 e he
            | (rcases he with he | he
               · exact h6 e he
               · subst he
                 first
                  | exact ⟨.read, rfl⟩
                  | exact ⟨.convert, rfl⟩
                  | exact ⟨.write, rfl⟩))
  · clear h1 h2 h3 h4 h5 h6 h8 hp
    cases wpc <;> simp only [workerStep] at h <;> (try split at h) <;> (try split at h) <;>
      simp at h <;> obtain ⟨rfl, rfl⟩ := h <;> intro r hr <;>
      first
        | exact h7 r hr
        | (simp [recordFailure, recordSuccess] at hr
           first
            | exact h7 r hr
            | (rcases hr with hr | hr
               · exact h7 r hr
               · subst hr; rfl))
  · clear h1 h2 h3 h4 h5 h6 h7 hp
    cases wpc <;> simp only [workerStep] at h <;> (try split at h) <;> (try split at h) <;>
      simp at h <;> obtain ⟨rfl, rfl⟩ := h <;> intro i f out ok hmem <;>
      first
        | exact h8 i f out ok hmem
        | (simp at hmem
           first
            | exact h8 i f out ok hmem
            | (rcases hmem with hmem | hmem
               · exact h8 i f out ok hmem
               · obtain ⟨-, rfl, rfl, -⟩ := hmem; rfl))

theorem reachable_sharedOK {world : σ} {m : Machine σ}
    (hr : Reachable env config cap files.length (initialMachine config world files) m) :
    SharedOK env.rt config files.length m.shared := by
  refine shared_invariant_ok (SharedOK env.rt config files.length) ?_ ?_ hr
  · intro i w g pc g' hw hg h
    exact workerStep_sharedOK i w g pc g' hw hg h
  · constructor <;> simp [initialMachine] <;> cases config.ProgressCallback <;> simp

theorem workerStep_countSkipped (w : Worker) (g : Shared σ) (pc : PC) (g' : Shared σ)
    (h : workerStep env config cap files.length w g = some (pc, g')) :
    g'.batchResult.SkippedFiles + w.countSkipped =
      g.batchResult.SkippedFiles + Worker.countSkipped { w with pc := pc } := by
  obtain ⟨idx, path, wpc⟩ := w
  cases wpc <;> simp only [workerStep] at h <;> (try split at h) <;> (try split at h) <;>
    simp at h <;> obtain ⟨rfl, rfl⟩ := h <;>
    simp [Worker.countSkipped, PC.recorded, recordFailure, recordSuccess]

theorem workerStep_countResult (P : String → Bool)
    (w : Worker) (g : Shared σ) (pc : PC) (g' : Shared σ)
    (h : workerStep env config cap files.length w g = some (pc, g')) :
    g'.batchResult.Results.countP (fun r => P r.InputFile) + w.countResult P =
      g.batchResult.Results.countP (fun r => P r.InputFile) +
        Worker.countResult P { w with pc := pc } := by
  obtain ⟨idx, path, wpc⟩ := w
  cases wpc <;> simp only [workerStep] at h <;> (try split at h) <;> (try split at h) <;>
    simp at h <;> obtain ⟨rfl, rfl⟩ := h <;>
    simp [Worker.countResult, PC.recorded, recordFailure, recordSuccess, List.countP_append,
      List.countP_cons]

theorem workerStep_countError (P : String → String → Bool)
    (w : Worker) (g : Shared σ) (pc : PC) (g' : Shared σ)
    (h : workerStep env config cap files.length w g = some (pc, g')) :
    g'.batchResult.Errors.countP (fun e => P e.File e.Operation) + w.countError P =
      g.batchResult.Errors.countP (fun e => P e.File e.Operation) +
        Worker.countError P { w with pc := pc } := by
  obtain ⟨idx, path, wpc⟩ := w
  cases wpc <;> simp only [workerStep] at h <;> (try split at h) <;> (try split at h) <;>
    simp at h <;> obtain ⟨rfl, rfl⟩ := h <;>
    simp [Worker.countError, PC.recorded, recordFailure, recordSuccess, List.countP_append,
      List.countP_cons]

theorem workerStep_countCalls (P : Nat → String → Stage → Bool → Bool)
    (w : Worker) (g : Shared σ) (pc : PC) (g' : Shared σ)
    (h : workerStep env config cap files.length w g = some (pc, g')) :
    callCount P g'.trace + w.countCalls P =
      callCount P g.trace + Worker.countCalls P { w with pc := pc } := by
  obtain ⟨idx, path, wpc⟩ := w
  cases wpc <;> simp only [workerStep] at h <;> (try split at h) <;> (try split at h) <;>
    simp at h <;> obtain ⟨rfl, rfl⟩ := h <;>
    simp [Worker.countCalls, PC.history, Terminal.history, callCount, Event.call, List.countP_append,
      List.countP_cons] <;> omega

theorem initial_callCount (P : Nat → String → Stage → Bool → Bool) (world : σ) :
    callCount P (initialMachine config world files).shared.trace = 0 := by
  simp only [initialMachine, callCount]
  cases config.ProgressCallback <;> simp [Event.call]

theorem reachable_countSkipped {world : σ} {m : Machine σ}
    (hr : Reachable env config cap files.length (initialMachine config world files) m) :
    m.shared.batchResult.SkippedFiles = tally Worker.countSkipped m.workers := by
  refine tally_invariant (fun g => g.batchResult.SkippedFiles) _ ?_ ?_ hr
  · intro w g pc g' _ h
    exact workerStep_countSkipped w g pc g' h
  · rw [tally_initial _ 0 world files (by intros; rfl)]
    simp [initialMachine]

theorem reachable_countResult (P : String → Bool) {world : σ} {m : Machine σ}
    (hr : Reachable env config cap files.length (initialMachine config world files) m) :
    m.shared.batchResult.Results.countP (fun r => P r.InputFile) =
      tally (Worker.countResult P) m.workers := by
  refine tally_invariant (fun g => g.batchResult.Results.countP (fun r => P r.InputFile)) _ ?_ ?_ hr
  · intro w g pc g' _ h
    exact workerStep_countResult P w g pc g' h
  · rw [tally_initial _ 0 world files (by intros; rfl)]
    simp [initialMachine]

theorem reachable_countError (P : String → String → Bool) {world : σ} {m : Machine σ}
    (hr : Reachable env config cap files.length (initialMachine config world files) m) :
    m.shared.batchResult.Errors.countP (fun e => P e.File e.Operation) =
      tally (Worker.countError P) m.workers := by
  refine tally_invariant
    (fun g => g.batchResult.Errors.countP (fun e => P e.File e.Operation)) _ ?_ ?_ hr
  · intro w g pc g' _ h
    exact workerStep_countError P w g pc g' h
  · rw [tally_initial _ 0 world files (by intros; rfl)]
    simp [initialMachine]

theorem reachable_countCalls (P : Nat → String → Stage → Bool → Bool) {world : σ} {m : Machine σ}
    (hr : Reachable env config cap files.length (initialMachine config world files) m) :
    callCount P m.shared.trace = tally (Worker.countCalls P) m.workers := by
  refine tally_invariant (fun g => callCount P g.trace) _ ?_ ?_ hr
  · intro w g pc g' _ h
    exact workerStep_countCalls P w g pc g' h
  · rw [tally_initial _ 0 world files (by intros; rfl)]
    simp [initial_callCount]

theorem tally_path_countP (P : String → Bool) (ws : List Worker) :
    tally (fun w => if P w.filePath = true then 1 else 0) ws =
      (ws.map (fun w => w.filePath)).countP P := by
  induction ws with
  | nil => simp [tally]
  | cons a ws ih =>
    simp only [tally, List.map_cons, List.sum_cons, List.countP_cons] at ih ⊢
    rw [ih]
    omega

theorem workers_paths {world : σ} {m : Machine σ}
    (hr : Reachable env config cap files.length (initialMachine config world files) m) :
    m.workers.map (fun w => w.filePath) = files := by
  obtain ⟨hlen, hok⟩ := reachable_workers_ok hr
  apply List.ext_getElem?
  intro i
  rw [List.getElem?_map]
  cases hw : m.workers[i]? with
  | none =>
    have : m.workers.length ≤ i := List.getElem?_eq_none_iff.mp hw
    simp only [Option.map_none']
    exact (List.getElem?_eq_none_iff.mpr (by omega)).symm
  | some w =>
    simp only [Option.map_some']
    exact (hok i w hw).2.1.symm

/-- Only the goroutine at position `i` contributes to a tally that vanishes elsewhere. -/
theorem tally_single (f : Worker → Nat) :
    ∀ (ws : List Worker) (i : Nat), (∀ j w, ws[j]? = some w → j ≠ i → f w = 0) →
      tally f ws = ((ws[i]?).map f).getD 0 := by
  intro ws
  induction ws with
  | nil => intro i _; simp [tally]
  | cons a ws ih =>
    intro i h
    cases i with
    | zero =>
      have hz : tally f ws = 0 := by
        apply tally_eq_zero
        intro w hw
        obtain ⟨j, hj, hget⟩ := List.getElem_of_mem hw
        exact h (j + 1) w (by simp [List.getElem?_eq_getElem hj, hget]) (by omega)
      simp [tally] at hz ⊢
      simpa [tally] using hz
    | succ k =>
      have ha : f a = 0 := h 0 a (by simp) (by omega)
      have := ih k (fun j w hj hne => h (j + 1) w (by simpa using hj) (by omega))
      simp [tally] at this ⊢
      omega

end Invariants

/-! ## From the run to the outcome of `ConvertFiles` -/

section Outcomes

variable {σ : Type} (env : Env σ) (world : σ) (sched : List Nat) (files : List String)
  (options : List ConfigOption)

/-- The outcome of `ConvertFiles` on a non-empty list, case by case. -/
theorem ConvertFiles_cases (hne : files ≠ []) :
    ((applyOptions env.rt options).ConcurrencyLimit < 0 ∧
      ConvertFiles env world sched files options =
        .panicked "makechan: size out of range"
          (initialMachine (applyOptions env.rt options) world files)) ∨
    (0 ≤ (applyOptions env.rt options).ConcurrencyLimit ∧
      ∃ m, m = runWorkers env (applyOptions env.rt options)
          (applyOptions env.rt options).ConcurrencyLimit.toNat files.length (stepBudget files)
          sched (initialMachine (applyOptions env.rt options) world files) ∧
        ((m.shared.wg = 0 ∧ ConvertFiles env world sched files options =
            .returned (some { m.shared.batchResult with
              ProcessingTime := env.clock m.shared.clockReads }) none m) ∨
         (m.shared.wg ≠ 0 ∧ ConvertFiles env world sched files options = .blocked m))) := by
  have hlen : files.length ≠ 0 := by
    intro h; exact hne (List.length_eq_zero.mp h)
  unfold ConvertFiles
  simp only [hlen, ↓reduceIte]
  by_cases hneg : (applyOptions env.rt options).ConcurrencyLimit < 0
  · left
    exact ⟨hneg, by simp [hneg]⟩
  · right
    refine ⟨by omega, _, rfl, ?_⟩
    simp only [hneg, ↓reduceIte]
    by_cases hwg : (runWorkers env (applyOptions env.rt options)
          (applyOptions env.rt options).ConcurrencyLimit.toNat files.length (stepBudget files)
          sched (initialMachine (applyOptions env.rt options) world files)).shared.wg = 0
    · left; exact ⟨hwg, by simp [hwg]⟩
    · right; exact ⟨hwg, by simp [hwg]⟩

theorem ConvertFiles_final_reachable (hne : files ≠ []) :
    Reachable env (applyOptions env.rt options)
      (applyOptions env.rt options).ConcurrencyLimit.toNat files.length
      (initialMachine (applyOptions env.rt options) world files)
      (ConvertFiles env world sched files options).final := by
  rcases ConvertFiles_cases env world sched files options hne with
    ⟨_, h⟩ | ⟨_, m, hm, ⟨_, h⟩ | ⟨_, h⟩⟩
  · rw [h]; exact Reachable.init
  · rw [h, hm]; exact run_reachable world sched files
  · rw [h, hm]; exact run_reachable world sched files

/-- A non-empty list and a positive limit: the call returns a `BatchResult` and no error. -/
theorem ConvertFiles_returns (hne : files ≠ [])
    (hpos : 0 < (applyOptions env.rt options).ConcurrencyLimit) :
    ∃ b m, ConvertFiles env world sched files options = .returned (some b) none m := by
  rcases ConvertFiles_cases env world sched files options hne with
    ⟨hneg, _⟩ | ⟨_, m, hm, ⟨_, h⟩ | ⟨hwg, _⟩⟩
  · omega
  · exact ⟨_, _, h⟩
  · exfalso
    apply hwg
    have hcap : 0 < (applyOptions env.rt options).ConcurrencyLimit.toNat := by omega
    rw [hm]
    exact wg_zero_of_all_done (run_reachable world sched files)
      (run_all_done world sched files hcap)

/-- Whenever the call returns on a non-empty list, it returns the aggregate of
the final machine and no error, and every goroutine has finished. -/
theorem ConvertFiles_returned (hne : files ≠ []) {r : Option BatchResult} {e : Option String}
    {m : Machine σ} (h : ConvertFiles env world sched files options = .returned r e m) :
    e = none ∧
      r = some { m.shared.batchResult with ProcessingTime := env.clock m.shared.clockReads } ∧
      (∀ w ∈ m.workers, ∃ t, w.pc = .done t) ∧
      Reachable env (applyOptions env.rt options)
        (applyOptions env.rt options).ConcurrencyLimit.toNat files.length
        (initialMachine (applyOptions env.rt options) world files) m := by
  have hr := ConvertFiles_final_reachable env world sched files options hne
  rcases ConvertFiles_cases env world sched files options hne with
    ⟨_, h'⟩ | ⟨_, m', hm, ⟨hwg, h'⟩ | ⟨_, h'⟩⟩
  · rw [h'] at h; exact absurd h (by simp)
  · rw [h'] at h hr
    simp only [Outcome.returned.injEq] at h
    obtain ⟨h1, h2, h3⟩ := h
    subst h3
    simp only [Outcome.final] at hr
    exact ⟨h2.symm, h1.symm, all_done_of_wg_zero hr hwg, hr⟩
  · rw [h'] at h; exact absurd h (by simp)

theorem ConvertFiles_result (hne : files ≠ []) {b : BatchResult}
    (h : (ConvertFiles env world sched files options).result = some b) :
    ∃ m, ConvertFiles env world sched files options = .returned (some b) none m := by
  cases hc : ConvertFiles env world sched files options with
  | returned r e m =>
    rw [hc] at h
    simp only [Outcome.result] at h
    obtain ⟨he, _, _, _⟩ := ConvertFiles_returned env world sched files options hne hc
    subst he; subst h
    exact ⟨m, rfl⟩
  | panicked msg m => rw [hc] at h; simp [Outcome.result] at h
  | blocked m => rw [hc] at h; simp [Outcome.result] at h

end Outcomes

/-! ## The aggregate once every goroutine has finished -/

section Final

variable {σ : Type} {env : Env σ} {config : Config} {cap : Nat} {files : List String}

theorem mem_workers_ok {world : σ} {m : Machine σ}
    (hr : Reachable env config cap files.length (initialMachine config world files) m)
    {w : Worker} (hw : w ∈ m.workers) : ∃ i, m.workers[i]? = some w ∧ WorkerOK config files i w := by
  obtain ⟨i, hi, hget⟩ := List.getElem_of_mem hw
  have h : m.workers[i]? = some w := by rw [List.getElem?_eq_getElem hi, hget]
  exact ⟨i, h, (reachable_workers_ok hr).2 i w h⟩

theorem done_rejects {i : Nat} {w : Worker} {t : Terminal} (hw : WorkerOK config files i w)
    (ht : w.pc = .done t) : filterRejects config w.filePath = decide (t = .skipped) := by
  obtain ⟨_, _, h3, _⟩ := hw
  rw [ht] at h3
  cases t with
  | skipped => simpa using h3 true rfl
  | failed op => simpa using h3 false rfl
  | succeeded => simpa using h3 false rfl

theorem final_skipped {world : σ} {m : Machine σ}
    (hr : Reachable env config cap files.length (initialMachine config world files) m)
    (hd : ∀ w ∈ m.workers, ∃ t, w.pc = .done t) :
    m.shared.batchResult.SkippedFiles = files.countP (filterRejects config) := by
  rw [reachable_countSkipped hr, ← workers_paths hr, ← tally_path_countP]
  apply tally_congr
  intro w hw
  obtain ⟨t, ht⟩ := hd w hw
  obtain ⟨i, _, hok⟩ := mem_workers_ok hr hw
  have := done_rejects hok ht
  cases t <;> simp_all [Worker.countSkipped, PC.recorded]

theorem final_perm {world : σ} {m : Machine σ}
    (hr : Reachable env config cap files.length (initialMachine config world files) m)
    (hd : ∀ w ∈ m.workers, ∃ t, w.pc = .done t) :
    List.Perm files
      (files.filter (filterRejects config) ++
        m.shared.batchResult.Results.map (fun r => r.InputFile) ++
        m.shared.batchResult.Errors.map (fun e => e.File)) := by
  rw [List.perm_iff_count]
  intro p
  have hA : List.count p files =
      tally (fun w => if (fun f => f == p) w.filePath = true then 1 else 0) m.workers := by
    rw [tally_path_countP (fun f => f == p) m.workers, workers_paths hr]
    rfl
  have hB : List.count p (files.filter (filterRejects config)) =
      tally (fun w => if (fun f => filterRejects config f && f == p) w.filePath = true
        then 1 else 0) m.workers := by
    rw [tally_path_countP (fun f => filterRejects config f && f == p) m.workers,
      workers_paths hr, List.count, List.countP_filter]
    congr 1
    funext f
    simp [Bool.and_comm]
  have hC : List.count p (m.shared.batchResult.Results.map (fun r => r.InputFile)) =
      tally (Worker.countResult (fun f => f == p)) m.workers := by
    rw [← reachable_countResult (fun f => f == p) hr, List.count, List.countP_map]
    rfl
  have hD : List.count p (m.shared.batchResult.Errors.map (fun e => e.File)) =
      tally (Worker.countError (fun f _ => f == p)) m.workers := by
    rw [← reachable_countError (fun f _ => f == p) hr, List.count, List.countP_map]
    rfl
  rw [List.count_append, List.count_append, hA, hB, hC, hD, ← tally_add, ← tally_add]
  apply tally_congr
  intro w hw
  obtain ⟨t, ht⟩ := hd w hw
  obtain ⟨i, _, hok⟩ := mem_workers_ok hr hw
  have := done_rejects hok ht
  cases t <;> simp_all [Worker.countResult, Worker.countError, PC.recorded]

theorem final_total {world : σ} {m : Machine σ}
    (hr : Reachable env config cap files.length (initialMachine config world files) m)
    (hd : ∀ w ∈ m.workers, ∃ t, w.pc = .done t) :
    m.shared.batchResult.SkippedFiles + m.shared.batchResult.Results.length +
      m.shared.batchResult.Errors.length = files.length := by
  have h1 := (final_perm hr hd).length_eq
  have h2 := final_skipped hr hd
  rw [List.countP_eq_length_filter] at h2
  simp only [List.length_append, List.length_map] at h1
  omega

end Final

/-! ## Non-positive limits and prefixes of a run -/

section Limits

variable {σ : Type} (env : Env σ) (world : σ) (sched : List Nat) (files : List String)
  (options : List ConfigOption)

theorem initial_enabled_zero (config : Config) (total : Nat) :
    Machine.enabled env config 0 total (initialMachine config world files) = [] := by
  rw [List.eq_nil_iff_forall_not_mem]
  intro i hi
  obtain ⟨_, hs⟩ := mem_enabled.mp hi
  obtain ⟨m', hm'⟩ := Option.isSome_iff_exists.mp hs
  obtain ⟨w, pc, g, hw, hws, _⟩ := Machine.step_some hm'
  rw [initial_workers_getElem?] at hw
  cases hf : files[i]? with
  | none => simp [hf] at hw
  | some file =>
    simp [hf] at hw
    subst hw
    simp [workerStep] at hws

/-- A limit of zero: no goroutine ever gets a slot and `wg.Wait()` never returns. -/
theorem ConvertFiles_limit_zero (hne : files ≠ [])
    (h0 : (applyOptions env.rt options).ConcurrencyLimit = 0) :
    ConvertFiles env world sched files options =
      .blocked (initialMachine (applyOptions env.rt options) world files) := by
  have hlen : files.length ≠ 0 := by
    intro h; exact hne (List.length_eq_zero.mp h)
  have hrun : runWorkers env (applyOptions env.rt options) 0 files.length (stepBudget files)
      sched (initialMachine (applyOptions env.rt options) world files) =
      initialMachine (applyOptions env.rt options) world files := by
    cases hb : stepBudget files with
    | zero => rfl
    | succ n =>
      unfold runWorkers
      rw [initial_enabled_zero]
  unfold ConvertFiles
  simp only [hlen, ↓reduceIte, h0, Int.lt_irrefl, Int.toNat_zero, hrun]
  simp [initialMachine, hlen]

/-- A negative limit: creating the channel panics. -/
theorem ConvertFiles_limit_negative (hne : files ≠ [])
    (hneg : (applyOptions env.rt options).ConcurrencyLimit < 0) :
    ConvertFiles env world sched files options =
      .panicked "makechan: size out of range"
        (initialMachine (applyOptions env.rt options) world files) := by
  rcases ConvertFiles_cases env world sched files options hne with
    ⟨_, h⟩ | ⟨hnn, _⟩
  · exact h
  · omega

/-- The machine after `k + j` steps is the machine `j` steps after the one after `k` steps. -/
theorem runWorkers_add (config : Config) (cap total : Nat) (k j : Nat) :
    ∀ (sched : List Nat) (m : Machine σ),
      runWorkers env config cap total (k + j) sched m =
        runWorkers env config cap total j (sched.drop k)
          (runWorkers env config cap total k sched m) := by
  induction k with
  | zero => intro sched m; simp [runWorkers]
  | succ k ih =>
    intro sched m
    have hq : ∀ (n : Nat) (s : List Nat) (m : Machine σ),
        Machine.enabled env config cap total m = [] →
        runWorkers env config cap total n s m = m := by
      intro n s m h
      cases n with
      | zero => rfl
      | succ n => unfold runWorkers; rw [h]
    rw [Nat.succ_add]
    conv_lhs => unfold runWorkers
    conv_rhs => rw [runWorkers]
    split
    · rename_i he
      exact (hq _ _ _ he).symm
    · rename_i e es he
      have hmem : (e :: es).getD (sched.headD 0 % (es.length + 1)) e ∈
          Machine.enabled env config cap total m := by
        rw [he]
        have hlt : sched.headD 0 % (es.length + 1) < (e :: es).length := by
          simp only [List.length_cons]
          exact Nat.mod_lt _ (Nat.succ_pos _)
        rw [List.getD_eq_getElem _ _ hlt]
        exact List.getElem_mem _
      obtain ⟨_, hs⟩ := mem_enabled.mp hmem
      split
      · rename_i hnone
        rw [hnone] at hs
        exact absurd hs (by simp)
      · rename_i m' hm'
        rw [ih]
        cases sched <;> simp

end Limits

/-! ## Failures and filter rejections in the trace -/

section TraceFacts

variable {σ : Type} {env : Env σ} {config : Config} {cap : Nat} {files : List String}

theorem recorded_rejected {pc : PC} {t : Terminal} (h : pc.recorded = some t) :
    pc.rejected = some (decide (t = .skipped)) := by
  cases pc with
  | release t' =>
    simp only [PC.recorded, Option.some.injEq] at h
    subst h
    cases t' <;> rfl
  | wgDone t' =>
    simp only [PC.recorded, Option.some.injEq] at h
    subst h
    cases t' <;> rfl
  | done t' =>
    simp only [PC.recorded, Option.some.injEq] at h
    subst h
    cases t' <;> rfl
  | _ => simp [PC.recorded] at h <;> subst h <;> rfl

theorem history_rejected {pc : PC} (h : pc.history ≠ []) : pc.rejected = some false := by
  cases pc with
  | release t => cases t with
    | failed op => cases op <;> rfl
    | skipped => exact absurd rfl h
    | succeeded => rfl
  | wgDone t => cases t with
    | failed op => cases op <;> rfl
    | skipped => exact absurd rfl h
    | succeeded => rfl
  | done t => cases t with
    | failed op => cases op <;> rfl
    | skipped => exact absurd rfl h
    | succeeded => rfl
  | _ => first | rfl | exact absurd rfl h

/-- A goroutine fails at most once, and after a failed read or transcoder call
it has neither called the transcoder again nor written. -/
theorem history_failures (pc : PC) :
    pc.history.countP (fun x => !x.2) ≤ 1 ∧
      (0 < pc.history.countP (fun x => !x.2 && x.1 != Stage.write) →
        pc.history.countP (fun x => x.1 == Stage.write) = 0) ∧
      (0 < pc.history.countP (fun x => !x.2 && x.1 == Stage.read) →
        pc.history.countP (fun x => x.1 == Stage.convert) = 0) := by
  cases pc with
  | release t => cases t with
    | failed op => cases op <;> simp [PC.history, Terminal.history]
    | _ => simp [PC.history, Terminal.history]
  | wgDone t => cases t with
    | failed op => cases op <;> simp [PC.history, Terminal.history]
    | _ => simp [PC.history, Terminal.history]
  | done t => cases t with
    | failed op => cases op <;> simp [PC.history, Terminal.history]
    | _ => simp [PC.history, Terminal.history]
  | _ => simp [PC.history]

/-- The calls of goroutine `i` in the trace are those of the goroutine at position `i`. -/
theorem calls_single {world : σ} {m : Machine σ}
    (hr : Reachable env config cap files.length (initialMachine config world files) m)
    (i : Nat) (Q : Stage → Bool → Bool) :
    callCount (fun j _ s ok => j == i && Q s ok) m.shared.trace =
      ((m.workers[i]?).map (fun w => w.pc.history.countP (fun x => Q x.1 x.2))).getD 0 := by
  rw [reachable_countCalls _ hr, tally_single _ _ i]
  · cases hw : m.workers[i]? with
    | none => rfl
    | some w =>
      have hok := (reachable_workers_ok hr).2 i w hw
      simp [Worker.countCalls, hok.1]
  · intro j w hj hne
    have hok := (reachable_workers_ok hr).2 j w hj
    simp [Worker.countCalls, hok.1, hne]

theorem mem_trace_callCount {trace : List Event} {ev : Event} {i : Nat} {f : String} {s : Stage}
    {ok : Bool} (P : Nat → String → Stage → Bool → Bool)
    (hmem : ev ∈ trace) (hcall : ev.call = some (i, f, s, ok)) (hP : P i f s ok = true) :
    0 < callCount P trace := by
  unfold callCount
  rw [List.countP_pos_iff]
  exact ⟨ev, hmem, by simp [hcall, hP]⟩

theorem callCount_zero_mem {trace : List Event} {ev : Event} {i : Nat} {f : String} {s : Stage}
    {ok : Bool} (P : Nat → String → Stage → Bool → Bool)
    (hz : callCount P trace = 0) (hmem : ev ∈ trace) (hcall : ev.call = some (i, f, s, ok)) :
    P i f s ok = false := by
  unfold callCount at hz
  rw [List.countP_eq_zero] at hz
  have := hz ev hmem
  simpa [hcall] using this

/-- At any moment of a run, goroutine `i` has at most one failed call in the trace. -/
theorem reachable_fails_once {world : σ} {m : Machine σ}
    (hr : Reachable env config cap files.length (initialMachine config world files) m)
    (i : Nat) : callCount (fun j _ _ ok => j == i && !ok) m.shared.trace ≤ 1 := by
  rw [calls_single hr i (fun _ ok => !ok)]
  cases hw : m.workers[i]? with
  | none => simp
  | some w => simpa using (history_failures w.pc).1

/-- At any moment of a run, a goroutine whose read or transcoder call failed has not written. -/
theorem reachable_no_write_after_failure {world : σ} {m : Machine σ}
    (hr : Reachable env config cap files.length (initialMachine config world files) m)
    (i : Nat)
    (h : 0 < callCount (fun j _ s ok => j == i && (!ok && s != Stage.write)) m.shared.trace) :
    callCount (fun j _ s _ => j == i && s == Stage.write) m.shared.trace = 0 := by
  rw [calls_single hr i (fun s ok => !ok && s != Stage.write)] at h
  rw [calls_single hr i (fun s _ => s == Stage.write)]
  cases hw : m.workers[i]? with
  | none => simp
  | some w =>
    rw [hw] at h
    simpa using (history_failures w.pc).2.1 (by simpa using h)

/-- At any moment of a run, a goroutine whose read failed has not called the transcoder. -/
theorem reachable_no_convert_after_failure {world : σ} {m : Machine σ}
    (hr : Reachable env config cap files.length (initialMachine config world files) m)
    (i : Nat)
    (h : 0 < callCount (fun j _ s ok => j == i && (!ok && s == Stage.read)) m.shared.trace) :
    callCount (fun j _ s _ => j == i && s == Stage.convert) m.shared.trace = 0 := by
  rw [calls_single hr i (fun s ok => !ok && s == Stage.read)] at h
  rw [calls_single hr i (fun s _ => s == Stage.convert)]
  cases hw : m.workers[i]? with
  | none => simp
  | some w =>
    rw [hw] at h
    simpa using (history_failures w.pc).2.2 (by simpa using h)

/-- At any moment of a run, every call in the trace was made by the goroutine
of a path of the list that the filter accepts. -/
theorem reachable_calls_accepted {world : σ} {m : Machine σ}
    (hr : Reachable env config cap files.length (initialMachine config world files) m) :
    callCount (fun i f _ _ => filterRejects config f || !(files[i]? == some f))
      m.shared.trace = 0 := by
  rw [reachable_countCalls _ hr]
  apply tally_eq_zero
  intro w hw
  obtain ⟨i, _, hok⟩ := mem_workers_ok hr hw
  obtain ⟨h1, h2, h3, _⟩ := hok
  unfold Worker.countCalls
  rw [List.countP_eq_zero]
  intro x hx
  have hne : w.pc.history ≠ [] := List.ne_nil_of_mem hx
  have hrej := h3 false (history_rejected hne)
  simp [hrej, h1, h2]

/-- At any moment of a run, no `ConvertResult` and no `FileError` is about a
path the filter rejects. -/
theorem reachable_entries_accepted {world : σ} {m : Machine σ}
    (hr : Reachable env config cap files.length (initialMachine config world files) m) :
    (∀ r ∈ m.shared.batchResult.Results, filterRejects config r.InputFile = false) ∧
      (∀ e ∈ m.shared.batchResult.Errors, filterRejects config e.File = false) := by
  constructor
  · have h := reachable_countResult (filterRejects config) hr
    have hz : tally (Worker.countResult (filterRejects config)) m.workers = 0 := by
      apply tally_eq_zero
      intro w hw
      obtain ⟨i, _, hok⟩ := mem_workers_ok hr hw
      unfold Worker.countResult
      split
      · rename_i hc
        have := hok.2.2.1 _ (recorded_rejected hc.1)
        rw [hc.2] at this
        exact absurd this (by decide)
      · rfl
    rw [hz, List.countP_eq_zero] at h
    intro r hrm
    simpa using h r hrm
  · have h := reachable_countError (fun f _ => filterRejects config f) hr
    have hz : tally (Worker.countError (fun f _ => filterRejects config f)) m.workers = 0 := by
      apply tally_eq_zero
      intro w hw
      obtain ⟨i, _, hok⟩ := mem_workers_ok hr hw
      unfold Worker.countError
      split
      · rename_i op hc
        have := hok.2.2.1 _ (recorded_rejected hc)
        simp [this]
      · rfl
    rw [hz, List.countP_eq_zero] at h
    intro e hem
    simpa using h e hem

/-- Once every goroutine has finished, the `FileError`s with a given path and
operation are as many as the failed calls of that stage on that path, and the
`FileError`s are as many as the failed calls. -/
theorem final_errors {world : σ} {m : Machine σ}
    (hr : Reachable env config cap files.length (initialMachine config world files) m)
    (hd : ∀ w ∈ m.workers, ∃ t, w.pc = .done t) :
    (∀ (p : String) (op : Stage),
      m.shared.batchResult.Errors.countP (fun e => e.File == p && e.Operation == op.operation) =
        callCount (fun _ f s ok => f == p && s == op && !ok) m.shared.trace) ∧
      m.shared.batchResult.Errors.length = callCount (fun _ _ _ ok => !ok) m.shared.trace := by
  constructor
  · intro p op
    rw [reachable_countError (fun f o => f == p && o == op.operation) hr, reachable_countCalls _ hr]
    apply tally_congr
    intro w hw
    obtain ⟨t, ht⟩ := hd w hw
    by_cases hp : w.filePath = p
    · cases t with
      | failed op' =>
        cases op' <;> cases op <;>
          simp [Worker.countError, Worker.countCalls, ht, PC.recorded, PC.history,
            Terminal.history, Stage.operation, hp]
      | _ =>
        simp [Worker.countError, Worker.countCalls, ht, PC.recorded, PC.history, Terminal.history]
    · cases t with
      | failed op' =>
        cases op' <;>
          simp [Worker.countError, Worker.countCalls, ht, PC.recorded, PC.history,
            Terminal.history, hp]
      | _ =>
        simp [Worker.countError, Worker.countCalls, ht, PC.recorded, PC.history, Terminal.history]
  · have h := reachable_countError (fun _ _ => true) hr
    simp only [List.countP_true] at h
    rw [h, reachable_countCalls _ hr]
    apply tally_congr
    intro w hw
    obtain ⟨t, ht⟩ := hd w hw
    cases t with
    | failed op' =>
      cases op' <;>
        simp [Worker.countError, Worker.countCalls, ht, PC.recorded, PC.history, Terminal.history]
    | _ =>
      simp [Worker.countError, Worker.countCalls, ht, PC.recorded, PC.history, Terminal.history]

end TraceFacts

/-! ## Output path policy: the claims -/

/-- C9: for every input path `p` and every target encoding `e` that equals
"UTF-8" when compared case-insensitively, `generateOutputFileName` returns
exactly `p`, on every platform. -/
theorem generateOutputFileName_utf8_identity (rt : GoPlatform) (p e : String)
    (h : equalsIgnoreCase e "UTF-8") : generateOutputFileName rt p e = p :=
  generateOutputFileName_utf8_same rt p e h

/-- Witness of C9 at the path "/path/to/file.txt" with the encoding "Utf-8". -/
theorem generateOutputFileName_utf8_identity_witness :
    equalsIgnoreCase "Utf-8" "UTF-8" ∧
      generateOutputFileName unixASCII "/path/to/file.txt" "Utf-8" = "/path/to/file.txt" :=
  ⟨by decide, generateOutputFileName_utf8_identity unixASCII "/path/to/file.txt" "Utf-8" (by decide)⟩

/-- C10 as stated fails: with the target encoding "x/y" (not "UTF-8" under any
casing) the path "dir/f.txt" maps to "dir/f_x/y.txt", whose directory prefix
"dir/f_x/" is not the directory prefix "dir/" of the input. -/
theorem generateOutputFileName_dirPart_counterexample :
    strings.ToUpper unixASCII "x/y" ≠ "UTF-8" ∧
      ¬ equalsIgnoreCase "x/y" "UTF-8" ∧
      generateOutputFileName unixASCII "dir/f.txt" "x/y" = "dir/f_x/y.txt" ∧
      dirPart unixASCII (generateOutputFileName unixASCII "dir/f.txt" "x/y").data
        ≠ dirPart unixASCII "dir/f.txt".data := by
  decide

/-- C10 (amended): for every input path `p` and every target encoding `e` the
program does not take for "UTF-8" (its upper-casing differs from "UTF-8"),
`generateOutputFileName p e` is `base ++ "_" ++ lowercase(e) ++ ext`, with
`ext` the suffix from the last dot of the final path element (empty if none)
and `base` the path without it; a path without extension maps to
`p ++ "_" ++ lowercase(e)`; the directory prefix of `p` is a prefix of the
result; and the result has the same directory prefix as `p` whenever the
lower-cased encoding contains no path separator. -/
theorem generateOutputFileName_suffix_form (rt : GoPlatform) (p e : String)
    (h : strings.ToUpper rt e ≠ "UTF-8") :
    (generateOutputFileName rt p e).data =
        specBase rt p.data ++ '_' :: (strings.ToLower rt e).data ++ specExt rt p.data ∧
      (specExt rt p.data = [] →
        generateOutputFileName rt p e = p ++ "_" ++ strings.ToLower rt e) ∧
      dirPart rt p.data <+: (generateOutputFileName rt p e).data ∧
      ((∀ c ∈ (strings.ToLower rt e).data, os.IsPathSeparator rt c = false) →
        dirPart rt (generateOutputFileName rt p e).data = dirPart rt p.data) := by
  have hd := generateOutputFileName_data rt p e h
  obtain ⟨stem, hb, hs⟩ := specBase_eq_dir_stem rt p.data
  refine ⟨hd, ?_, ?_, ?_⟩
  · intro hx
    have hbp : specBase rt p.data = p.data := by
      have := specBase_append_specExt rt p.data
      rwa [hx, List.append_nil] at this
    apply String.ext
    rw [hd, hx, hbp]
    simp
  · rw [hd, hb]
    exact ⟨stem ++ '_' :: (strings.ToLower rt e).data ++ specExt rt p.data, by simp⟩
  · intro hsep
    rw [hd, hb]
    have hfin := finalElement_noSep rt p.data
    rw [← hs] at hfin
    have ht : ∀ c ∈ stem ++ '_' :: (strings.ToLower rt e).data ++ specExt rt p.data,
        os.IsPathSeparator rt c = false := by
      intro c hc
      simp only [List.mem_append, List.mem_cons] at hc
      rcases hc with (hc | hc | hc) | hc
      · exact hfin c (List.mem_append_left _ hc)
      · subst hc
        cases hw : rt.windows <;> simp [os.IsPathSeparator, hw]
      · exact hsep c hc
      · exact hfin c (List.mem_append_right _ hc)
    have := dirPart_eq_of_final rt p.data _ ht
    simpa [List.append_assoc] using this

/-- Witness of C10 (amended) at the path "/path/to/file.txt" with the encoding "BIG5". -/
theorem generateOutputFileName_suffix_form_witness :
    strings.ToUpper unixASCII "BIG5" ≠ "UTF-8" ∧
      generateOutputFileName unixASCII "/path/to/file.txt" "BIG5" = "/path/to/file_big5.txt" ∧
      dirPart unixASCII (generateOutputFileName unixASCII "/path/to/file.txt" "BIG5").data
        = "/path/to/".data :=
  ⟨by decide, by decide,
    ((generateOutputFileName_suffix_form unixASCII "/path/to/file.txt" "BIG5" (by decide)).2.2.2
      (by decide)).trans (by decide)⟩

/-! ## Batch orchestrator: the claims -/

section BatchClaims

variable {σ : Type} (env : Env σ) (world : σ) (sched : List Nat) (files : List String)
  (options : List ConfigOption)

/-- C1: on the one-file list `["missing.txt"]` with the default configuration,
where the read fails, `ConvertFiles` returns TotalFiles 1, FailedFiles 1 and
ProcessedFiles 0: the failure branches count the file as failed but not as
processed, so ProcessedFiles is neither the sum of the three outcome counters
nor TotalFiles. -/
theorem ConvertFiles_failed_not_processed :
    (ConvertFiles memEnv ⟨[], []⟩ [] ["missing.txt"] []).result.map
        (fun b => (b.TotalFiles, b.ProcessedFiles, b.SuccessfulFiles, b.FailedFiles,
          b.SkippedFiles)) = some (1, 0, 0, 1, 0) := by
  decide

/-- The counter law the code keeps: whenever `ConvertFiles` returns an
aggregate, ProcessedFiles counts the skipped and the successful files, and
together with FailedFiles they make up TotalFiles. -/
theorem ConvertFiles_processed_law (hne : files ≠ []) (b : BatchResult)
    (h : (ConvertFiles env world sched files options).result = some b) :
    b.ProcessedFiles = b.SuccessfulFiles + b.SkippedFiles ∧
      b.ProcessedFiles + b.FailedFiles = b.TotalFiles := by
  obtain ⟨m, hm⟩ := ConvertFiles_result env world sched files options hne h
  obtain ⟨_, hb, hd, hr⟩ := ConvertFiles_returned env world sched files options hne hm
  have hs := reachable_sharedOK hr
  have ht := final_total hr hd
  have hb' := Option.some.inj hb
  subst hb'
  have h1 := hs.processed
  have h2 := hs.successful
  have h3 := hs.failed
  have h4 := hs.totalFiles
  simp only
  omega

/-- C2: for every non-empty file list, in every world and under every
schedule, whenever `ConvertFiles` returns an aggregate (it does when the limit
is positive), the submitted paths are, as a multiset, exactly the paths the
filter rejects together with the input paths of `Results` and the paths of
`Errors`; `SkippedFiles` is the number of rejected paths; hence
`SkippedFiles + len(Results) + len(Errors) == len(files)`. -/
theorem ConvertFiles_one_outcome_per_path (hne : files ≠ []) :
    (0 < (applyOptions env.rt options).ConcurrencyLimit →
      ∃ b m, ConvertFiles env world sched files options = .returned (some b) none m) ∧
    ∀ b, (ConvertFiles env world sched files options).result = some b →
      b.SkippedFiles = (files.filter (filterRejects (applyOptions env.rt options))).length ∧
      List.Perm files
        (files.filter (filterRejects (applyOptions env.rt options)) ++
          b.Results.map (fun r => r.InputFile) ++ b.Errors.map (fun e => e.File)) ∧
      b.SkippedFiles + b.Results.length + b.Errors.length = files.length := by
  refine ⟨ConvertFiles_returns env world sched files options hne, ?_⟩
  intro b h
  obtain ⟨m, hm⟩ := ConvertFiles_result env world sched files options hne h
  obtain ⟨_, hb, hd, hr⟩ := ConvertFiles_returned env world sched files options hne hm
  have hb' := Option.some.inj hb
  subst hb'
  refine ⟨?_, final_perm hr hd, final_total hr hd⟩
  rw [← List.countP_eq_length_filter]
  exact final_skipped hr hd

/-- Witness of C2 on the example list, with the default options. -/
theorem ConvertFiles_one_outcome_per_path_witness :
    exampleFiles ≠ [] ∧ 0 < (applyOptions memEnv.rt []).ConcurrencyLimit ∧
      (∃ b m, ConvertFiles memEnv exampleFS [3, 1, 4, 1, 5] exampleFiles [] =
        .returned (some b) none m) ∧
      (ConvertFiles memEnv exampleFS [3, 1, 4, 1, 5] exampleFiles []).result.map
        (fun b => (b.SkippedFiles, b.Results.length, b.Errors.length)) = some (1, 2, 2) :=
  ⟨by decide, by decide,
    (ConvertFiles_one_outcome_per_path memEnv exampleFS [3, 1, 4, 1, 5] exampleFiles []
      (by decide)).1 (by decide),
    by decide⟩

/-- C5: `ConvertFiles` on the empty list, under any options, in any world and
under any schedule, returns a nil result with the error "file list cannot be
empty", leaves the world as it was and has an empty trace: nothing is read,
transcoded or written and the progress callback is never called. -/
theorem ConvertFiles_empty_list :
    (∃ m, ConvertFiles env world sched [] options =
        .returned none (some "file list cannot be empty") m) ∧
      (ConvertFiles env world sched [] options).result = none ∧
      (ConvertFiles env world sched [] options).trace = [] ∧
      (ConvertFiles env world sched [] options).final.shared.world = world ∧
      (ConvertFiles env world sched [] options).final.workers = [] := by
  refine ⟨⟨_, rfl⟩, rfl, rfl, rfl, rfl⟩

/-- C6: with the limit 0 the call on `["a.txt"]` never returns (the goroutine
stays before its send on the semaphore and no goroutine can move), and with the
limit -3 it panics when the channel is created; in neither case is the limit
raised to a positive floor and in neither case is a `BatchResult` returned. -/
theorem ConvertFiles_nonpositive_limit :
    (ConvertFiles memEnv exampleFS [] ["a.txt"] [WithConcurrency 0]).isBlocked = true ∧
      (ConvertFiles memEnv exampleFS [] ["a.txt"] [WithConcurrency 0]).result = none ∧
      (ConvertFiles memEnv exampleFS [] ["a.txt"] [WithConcurrency 0]).final.workers =
        [{ index := 0, filePath := "a.txt", pc := .start }] ∧
      (ConvertFiles memEnv exampleFS [] ["a.txt"] [WithConcurrency (-3)]).isPanicked = true ∧
      (ConvertFiles memEnv exampleFS [] ["a.txt"] [WithConcurrency (-3)]).result = none := by
  decide

/-- C7: during a run of `ConvertFiles` with a positive limit `L`, after any
number `k` of steps at most `L` goroutines stand between the send on the
semaphore and the deferred receive; and the call returns, with every goroutine
finished, no slot held, and every file recorded as skipped, converted or failed. -/
theorem ConvertFiles_gate_and_join (hne : files ≠ [])
    (hpos : 0 < (applyOptions env.rt options).ConcurrencyLimit) :
    (∀ k, (runWorkers env (applyOptions env.rt options)
        (applyOptions env.rt options).ConcurrencyLimit.toNat files.length k sched
        (initialMachine (applyOptions env.rt options) world files)).holding ≤
          (applyOptions env.rt options).ConcurrencyLimit.toNat) ∧
    ∃ b m, ConvertFiles env world sched files options = .returned (some b) none m ∧
      m = runWorkers env (applyOptions env.rt options)
        (applyOptions env.rt options).ConcurrencyLimit.toNat files.length (stepBudget files)
        sched (initialMachine (applyOptions env.rt options) world files) ∧
      m.workers.length = files.length ∧
      (∀ w ∈ m.workers, ∃ t, w.pc = .done t) ∧
      m.holding = 0 ∧
      b.SkippedFiles + b.Results.length + b.Errors.length = files.length := by
  constructor
  · intro k
    have hr : Reachable env (applyOptions env.rt options)
        (applyOptions env.rt options).ConcurrencyLimit.toNat files.length
        (initialMachine (applyOptions env.rt options) world files)
        (runWorkers env (applyOptions env.rt options)
          (applyOptions env.rt options).ConcurrencyLimit.toNat files.length k sched
          (initialMachine (applyOptions env.rt options) world files)) :=
      runWorkers_reachable _ _ _ Reachable.init
    rw [← reachable_semLen hr]
    exact reachable_semLen_le hr
  · obtain ⟨b, m, hm⟩ := ConvertFiles_returns env world sched files options hne hpos
    obtain ⟨_, hb, hd, hr⟩ := ConvertFiles_returned env world sched files options hne hm
    have hb' := Option.some.inj hb
    subst hb'
    refine ⟨_, m, hm, ?_, (reachable_workers_ok hr).1, hd, ?_, final_total hr hd⟩
    · rcases ConvertFiles_cases env world sched files options hne with
        ⟨_, h'⟩ | ⟨_, m', hm', ⟨_, h'⟩ | ⟨_, h'⟩⟩
      · rw [h'] at hm; exact absurd hm (by simp)
      · rw [h'] at hm
        simp only [Outcome.returned.injEq] at hm
        rw [← hm.2.2, hm']
      · rw [h'] at hm; exact absurd hm (by simp)
    · apply tally_eq_zero
      intro w hw
      obtain ⟨t, ht⟩ := hd w hw
      simp [ht, PC.holdsSlot]

/-- Witness of C7 on the example list with a limit of two. -/
theorem ConvertFiles_gate_and_join_witness :
    exampleFiles ≠ [] ∧ 0 < (applyOptions memEnv.rt [WithConcurrency 2]).ConcurrencyLimit ∧
      (runWorkers memEnv (applyOptions memEnv.rt [WithConcurrency 2]) 2 5 7 [4, 4, 2, 0]
        (initialMachine (applyOptions memEnv.rt [WithConcurrency 2]) exampleFS
          exampleFiles)).holding ≤ 2 ∧
      (ConvertFiles memEnv exampleFS [4, 4, 2, 0] exampleFiles [WithConcurrency 2]).result.map
        (fun b => b.SkippedFiles + b.Results.length + b.Errors.length) = some 5 :=
  ⟨by decide, by decide,
    (ConvertFiles_gate_and_join memEnv exampleFS [4, 4, 2, 0] exampleFiles [WithConcurrency 2]
      (by decide) (by decide)).1 7,
    by decide⟩

/-- C8: for every non-empty file list, in every world and under every
schedule, every Progress event passed to the callback has TotalFiles equal to
`len(files)`, and so has the aggregate whenever `ConvertFiles` returns one
(it does when the limit is positive). -/
theorem ConvertFiles_totalFiles (hne : files ≠ []) :
    (0 < (applyOptions env.rt options).ConcurrencyLimit →
      ∃ b m, ConvertFiles env world sched files options = .returned (some b) none m) ∧
    (∀ b, (ConvertFiles env world sched files options).result = some b →
      b.TotalFiles = files.length) ∧
    (∀ w p, Event.progress w p ∈ (ConvertFiles env world sched files options).trace →
      p.TotalFiles = files.length) := by
  have hs := reachable_sharedOK (ConvertFiles_final_reachable env world sched files options hne)
  refine ⟨ConvertFiles_returns env world sched files options hne, ?_, hs.progressTotal⟩
  intro b h
  obtain ⟨m, hm⟩ := ConvertFiles_result env world sched files options hne h
  obtain ⟨_, hb, _, _⟩ := ConvertFiles_returned env world sched files options hne hm
  have hb' := Option.some.inj hb
  subst hb'
  rw [hm] at hs
  exact hs.totalFiles

/-- Witness of C8 on the example list, with a progress callback. -/
theorem ConvertFiles_totalFiles_witness :
    exampleFiles ≠ [] ∧
      (ConvertFiles memEnv exampleFS [2, 7] exampleFiles [WithProgress (some ⟨0⟩)]).result.map
        (fun b => b.TotalFiles) = some 5 ∧
      ∀ w p, Event.progress w p ∈
        (ConvertFiles memEnv exampleFS [2, 7] exampleFiles [WithProgress (some ⟨0⟩)]).trace →
          p.TotalFiles = exampleFiles.length :=
  ⟨by decide, by decide,
    (ConvertFiles_totalFiles memEnv exampleFS [2, 7] exampleFiles [WithProgress (some ⟨0⟩)]
      (by decide)).2.2⟩

/-- C3: for every non-empty file list, in every world and under every
schedule, a failing read, transcoder call or write does not abort the batch:
the call returns an aggregate and a nil error whenever the limit is positive
and never returns an error; in the returned aggregate `FailedFiles` is the
number of `FileError`s and the number of failed calls, the `FileError`s with a
given path and operation are as many as the failed calls of that stage on that
path, and every `FileError` names a submitted path and one of "read",
"convert", "write"; at any moment a goroutine has at most one failed call, no
write after a failed read or transcoder call, and no transcoder call after a
failed read. -/
theorem ConvertFiles_failure_recorded (hne : files ≠ []) :
    (0 < (applyOptions env.rt options).ConcurrencyLimit →
      ∃ b m, ConvertFiles env world sched files options = .returned (some b) none m) ∧
    (∀ r e m, ConvertFiles env world sched files options = .returned r e m → e = none) ∧
    (∀ b, (ConvertFiles env world sched files options).result = some b →
      b.FailedFiles = b.Errors.length ∧
      b.FailedFiles = callCount (fun _ _ _ ok => !ok)
        (ConvertFiles env world sched files options).trace ∧
      (∀ (p : String) (op : Stage),
        b.Errors.countP (fun e => e.File == p && e.Operation == op.operation) =
          callCount (fun _ f s ok => f == p && s == op && !ok)
            (ConvertFiles env world sched files options).trace) ∧
      (∀ e ∈ b.Errors, e.File ∈ files ∧ ∃ op : Stage, e.Operation = op.operation)) ∧
    (∀ i, callCount (fun j _ _ ok => j == i && !ok)
      (ConvertFiles env world sched files options).trace ≤ 1) ∧
    (∀ i f, (Event.read i f false ∈ (ConvertFiles env world sched files options).trace ∨
        Event.convert i f false ∈ (ConvertFiles env world sched files options).trace) →
      ∀ f' out ok,
        Event.write i f' out ok ∉ (ConvertFiles env world sched files options).trace) ∧
    (∀ i f, Event.read i f false ∈ (ConvertFiles env world sched files options).trace →
      ∀ f' ok, Event.convert i f' ok ∉ (ConvertFiles env world sched files options).trace) := by
  have hfin := ConvertFiles_final_reachable env world sched files options hne
  refine ⟨ConvertFiles_returns env world sched files options hne, ?_, ?_, ?_, ?_, ?_⟩
  · intro r e m h
    exact (ConvertFiles_returned env world sched files options hne h).1
  · intro b h
    obtain ⟨m, hm⟩ := ConvertFiles_result env world sched files options hne h
    obtain ⟨_, hb, hd, hr⟩ := ConvertFiles_returned env world sched files options hne hm
    have hb' := Option.some.inj hb
    subst hb'
    have hs := reachable_sharedOK hr
    have he := final_errors hr hd
    simp only [Outcome.trace, hm, Outcome.final]
    refine ⟨hs.failed, by rw [← he.2]; exact hs.failed, he.1, ?_⟩
    intro e hem
    refine ⟨?_, hs.operations e hem⟩
    have hp := final_perm hr hd
    apply hp.mem_iff.mpr
    apply List.mem_append_right
    exact List.mem_map_of_mem _ hem
  · intro i
    exact reachable_fails_once hfin i
  · intro i f h f' out ok hw
    have hpos : 0 < callCount (fun j _ s ok => j == i && (!ok && s != Stage.write))
        (ConvertFiles env world sched files options).trace := by
      rcases h with h | h
      · exact mem_trace_callCount _ h rfl (by simp)
      · exact mem_trace_callCount _ h rfl (by simp)
    have hz := reachable_no_write_after_failure hfin i hpos
    have := callCount_zero_mem _ hz hw rfl
    simp at this
  · intro i f h f' ok hc
    have hpos : 0 < callCount (fun j _ s ok => j == i && (!ok && s == Stage.read))
        (ConvertFiles env world sched files options).trace :=
      mem_trace_callCount _ h rfl (by simp)
    have hz := reachable_no_convert_after_failure hfin i hpos
    have := callCount_zero_mem _ hz hc rfl
    simp at this

/-- Witness of C3 on the example list: two of the five files fail, one at the
read and one at the transcoder, and the batch still returns. -/
theorem ConvertFiles_failure_recorded_witness :
    exampleFiles ≠ [] ∧ 0 < (applyOptions memEnv.rt []).ConcurrencyLimit ∧
      (∃ b m, ConvertFiles memEnv exampleFS [1, 0, 2] exampleFiles [] =
        .returned (some b) none m) ∧
      (ConvertFiles memEnv exampleFS [1, 0, 2] exampleFiles []).result.map
        (fun b => (b.FailedFiles, b.Errors.map (fun e => (e.File, e.Operation)))) =
          some (2, [("missing.txt", "read"), ("e.txt", "convert")]) :=
  ⟨by decide, by decide,
    (ConvertFiles_failure_recorded memEnv exampleFS [1, 0, 2] exampleFiles []
      (by decide)).1 (by decide),
    by decide⟩

/-- C4 as stated fails: with the target "GBK" and a filter that accepts only
"a.txt", the list `["a.txt", "a_gbk.txt"]` has the rejected path "a_gbk.txt",
and `ConvertFiles` writes that path, as the output of "a.txt", replacing its
contents. -/
theorem ConvertFiles_rejected_path_written :
    "a_gbk.txt" ∈ ["a.txt", "a_gbk.txt"] ∧
      filterRejects (applyOptions memEnv.rt gbkOptions) "a_gbk.txt" = true ∧
      Event.write 0 "a.txt" "a_gbk.txt" true ∈
        (ConvertFiles memEnv gbkFS [] ["a.txt", "a_gbk.txt"] gbkOptions).trace ∧
      gbkFS.files.lookup "a_gbk.txt" = some [1, 2, 3] ∧
      (ConvertFiles memEnv gbkFS [] ["a.txt", "a_gbk.txt"] gbkOptions).final.shared.world.files.lookup
        "a_gbk.txt" = some [97] := by
  decide

/-- C4 (amended): for every non-empty file list and every filter, in every
world and under every schedule, whenever `ConvertFiles` returns an aggregate
(it does when the limit is positive) `SkippedFiles` is the number of paths the
filter rejects, `ProcessedFiles` counts every one of them (it is not below
`SkippedFiles`), and no `ConvertResult` or `FileError` is about a rejected path; at any
moment every read, transcoder call and write was made by the goroutine of a
path of the list that the filter accepts, so a rejected path is never read and
its goroutine does nothing; every write goes to the generated output path of
an accepted file, which is that file itself when the target is "UTF-8" in any
casing. -/
theorem ConvertFiles_filter_skips (hne : files ≠ []) :
    (0 < (applyOptions env.rt options).ConcurrencyLimit →
      ∃ b m, ConvertFiles env world sched files options = .returned (some b) none m) ∧
    (∀ b, (ConvertFiles env world sched files options).result = some b →
      b.SkippedFiles = files.countP (filterRejects (applyOptions env.rt options)) ∧
      b.SkippedFiles ≤ b.ProcessedFiles ∧
      (∀ r ∈ b.Results, filterRejects (applyOptions env.rt options) r.InputFile = false) ∧
      (∀ e ∈ b.Errors, filterRejects (applyOptions env.rt options) e.File = false)) ∧
    (∀ ev ∈ (ConvertFiles env world sched files options).trace, ∀ i f s ok,
      ev.call = some (i, f, s, ok) →
        files[i]? = some f ∧ filterRejects (applyOptions env.rt options) f = false) ∧
    (∀ i f out ok, Event.write i f out ok ∈ (ConvertFiles env world sched files options).trace →
      out = generateOutputFileName env.rt f (applyOptions env.rt options).TargetEncoding) ∧
    (equalsIgnoreCase (applyOptions env.rt options).TargetEncoding "UTF-8" →
      ∀ i f out ok, Event.write i f out ok ∈ (ConvertFiles env world sched files options).trace →
        out = f ∧ filterRejects (applyOptions env.rt options) out = false) := by
  have hfin := ConvertFiles_final_reachable env world sched files options hne
  have hcall : ∀ ev ∈ (ConvertFiles env world sched files options).trace, ∀ i f s ok,
      ev.call = some (i, f, s, ok) →
        files[i]? = some f ∧ filterRejects (applyOptions env.rt options) f = false := by
    intro ev hev i f s ok hcall
    have := callCount_zero_mem _ (reachable_calls_accepted hfin) hev hcall
    simp only [Bool.or_eq_false_iff, Bool.not_eq_false', beq_iff_eq] at this
    exact ⟨this.2, this.1⟩
  have hwr := (reachable_sharedOK hfin).writes
  refine ⟨ConvertFiles_returns env world sched files options hne, ?_, hcall, hwr, ?_⟩
  · intro b h
    obtain ⟨m, hm⟩ := ConvertFiles_result env world sched files options hne h
    obtain ⟨_, hb, hd, hr⟩ := ConvertFiles_returned env world sched files options hne hm
    have hb' := Option.some.inj hb
    subst hb'
    have hp := (reachable_sharedOK hr).processed
    exact ⟨final_skipped hr hd, by simp only; omega,
      (reachable_entries_accepted hr).1, (reachable_entries_accepted hr).2⟩
  · intro hutf i f out ok hw
    have h1 := hwr i f out ok hw
    rw [generateOutputFileName_utf8_same env.rt f _ hutf] at h1
    subst h1
    exact ⟨rfl, (hcall _ hw i out .write ok rfl).2⟩

/-- Witness of C4 (amended) on the example list, where the default filter rejects "x.log". -/
theorem ConvertFiles_filter_skips_witness :
    exampleFiles ≠ [] ∧ 0 < (applyOptions memEnv.rt []).ConcurrencyLimit ∧
      (∃ b m, ConvertFiles memEnv exampleFS [6, 2, 8] exampleFiles [] =
        .returned (some b) none m) ∧
      (ConvertFiles memEnv exampleFS [6, 2, 8] exampleFiles []).result.map
        (fun b => (b.SkippedFiles, b.ProcessedFiles, b.SuccessfulFiles)) = some (1, 3, 2) :=
  ⟨by decide, by decide,
    (ConvertFiles_filter_skips memEnv exampleFS [6, 2, 8] exampleFiles []
      (by decide)).1 (by decide),
    by decide⟩

end BatchClaims

/-! ## Output path policy: idempotence and case -/

theorem ToLower_foldASCII (rt : GoPlatform) (c : Char) :
    unicode.ToLower rt (foldASCII c) = unicode.ToLower rt c := by
  unfold foldASCII
  split
  · rename_i h
    have hc : c = Char.ofNat c.toNat := (Char.ofNat_toNat c).symm
    obtain ⟨h1, h2⟩ := h
    have h1' : 65 ≤ c.toNat := h1
    have h2' : c.toNat ≤ 90 := h2
    rw [hc]
    generalize c.toNat = n at h1' h2'
    interval_cases n <;> rfl
  · rfl

theorem ToLower_of_equalsIgnoreCase (rt : GoPlatform) (a b : String)
    (h : equalsIgnoreCase a b) : strings.ToLower rt a = strings.ToLower rt b := by
  unfold equalsIgnoreCase at h
  have h2 := congrArg (List.map (unicode.ToLower rt)) h
  simp only [List.map_map] at h2
  have hf : (unicode.ToLower rt ∘ foldASCII) = unicode.ToLower rt := by
    funext c; exact ToLower_foldASCII rt c
  rw [hf] at h2
  simp [strings.ToLower, h2]

theorem ToLower_ascii_not_upper (rt : GoPlatform) (c : Char) (hc : c.toNat ≤ unicode.MaxASCII) :
    isUpperASCII (unicode.ToLower rt c) = false := by
  have hc' : c.toNat ≤ 127 := hc
  have he : c = Char.ofNat c.toNat := (Char.ofNat_toNat c).symm
  rw [he]
  generalize c.toNat = n at hc'
  interval_cases n <;> rfl

/-- C11: for every path `p`, on every platform, applying the output path
policy twice with the target encoding "UTF-8" returns `p`. -/
theorem generateOutputFileName_utf8_idempotent (rt : GoPlatform) (p : String) :
    generateOutputFileName rt (generateOutputFileName rt p "UTF-8") "UTF-8" = p := by
  have h : equalsIgnoreCase "UTF-8" "UTF-8" := by decide
  rw [generateOutputFileName_utf8_same rt p "UTF-8" h,
    generateOutputFileName_utf8_same rt p "UTF-8" h]

/-- C12: for every path `p` and every two target encodings that differ only in
the case of their ASCII letters, the output path is the same; and for a target
the program does not take for "UTF-8" the inserted suffix is an underscore
followed by the lower-cased identifier, which holds no upper-case ASCII letter
(the case table is only asked not to produce one for the runes of the
identifier above ASCII, if it has any). -/
theorem generateOutputFileName_ignores_case (rt : GoPlatform) (p e1 e2 : String)
    (h : equalsIgnoreCase e1 e2) :
    generateOutputFileName rt p e1 = generateOutputFileName rt p e2 ∧
    (strings.ToUpper rt e1 ≠ "UTF-8" →
      (generateOutputFileName rt p e1).data =
          specBase rt p.data ++ ('_' :: (strings.ToLower rt e1).data) ++ specExt rt p.data ∧
        ('_' :: (strings.ToLower rt e1).data) = '_' :: (strings.ToLower rt e2).data ∧
        ((∀ c ∈ e1.data, unicode.MaxASCII < c.toNat → isUpperASCII (rt.lowerTable c) = false) →
          ∀ c ∈ '_' :: (strings.ToLower rt e1).data, isUpperASCII c = false)) := by
  have hU := ToUpper_of_equalsIgnoreCase rt e1 e2 h
  have hL := ToLower_of_equalsIgnoreCase rt e1 e2 h
  refine ⟨?_, ?_⟩
  · unfold generateOutputFileName
    simp only [hU, hL]
  · intro hne
    refine ⟨?_, by rw [hL], ?_⟩
    · rw [generateOutputFileName_data rt p e1 hne]
    · intro hT c hc
      rcases List.mem_cons.mp hc with hc | hc
      · subst hc; rfl
      · simp only [strings.ToLower, List.mem_map] at hc
        obtain ⟨d, hd, rfl⟩ := hc
        by_cases hd' : d.toNat ≤ unicode.MaxASCII
        · exact ToLower_ascii_not_upper rt d hd'
        · have : unicode.ToLower rt d = rt.lowerTable d := by
            unfold unicode.ToLower
            rw [if_neg hd']
          rw [this]
          exact hT d hd (by omega)

/-- Witness of C12 with the encodings "GBK" and "gbk" on the path "report.txt". -/
theorem generateOutputFileName_ignores_case_witness :
    equalsIgnoreCase "GBK" "gbk" ∧
      generateOutputFileName unixASCII "report.txt" "GBK" = "report_gbk.txt" ∧
      generateOutputFileName unixASCII "report.txt" "gbk" = "report_gbk.txt" ∧
      generateOutputFileName unixASCII "report.txt" "GBK" =
        generateOutputFileName unixASCII "report.txt" "gbk" :=
  ⟨by decide, by decide, by decide,
    (generateOutputFileName_ignores_case unixASCII "report.txt" "GBK" "gbk" (by decide)).1⟩

/-! ## Configuration: the claims -/

theorem lastOr_cons {α β : Type} (pick : α → Option β) (default : β) (a : α) (l : List α) :
    lastOr pick default (a :: l) = lastOr pick ((pick a).getD default) l := by
  unfold lastOr
  cases hp : pick a with
  | none => simp [List.filterMap_cons, hp]
  | some v =>
    simp only [List.filterMap_cons, hp, Option.getD_some]
    cases hl : List.filterMap pick l with
    | nil => simp
    | cons b t => simp [List.getLast?_eq_getLast _ (List.cons_ne_nil b t)]

/-- A field that every constructor call either sets to its argument or leaves
alone ends up with the argument of the last call that sets it. -/
theorem foldl_field {β : Type} (get : Config → β) (pick : Setting → Option β)
    (h : ∀ s c, get (s.option c) = (pick s).getD (get c)) :
    ∀ (ss : List Setting) (c : Config),
      get ((ss.map Setting.option).foldl (fun config option => option config) c) =
        lastOr pick (get c) ss := by
  intro ss
  induction ss with
  | nil => intro c; rfl
  | cons s ss ih =>
    intro c
    rw [List.map_cons, List.foldl_cons, ih, lastOr_cons, h]

/-- C14: `applyOptions` applies the options from left to right over the
defaults, so the later option wins: for every list of constructor calls, each
field of the result is the argument of the last call in the list for that
field, or the default when the list has no call for it; four calls
`WithTargetEncoding("GBK")`, `WithTargetEncoding("BIG5")`, `WithConcurrency(2)`,
`WithConcurrency(8)` give "BIG5" and 8. -/
theorem applyOptions_last_wins (rt : GoPlatform) (ss : List Setting) :
    ((applyOptions rt (ss.map Setting.option)).ProgressCallback =
        lastOr Setting.asProgress (getDefaultConfig rt).ProgressCallback ss ∧
      (applyOptions rt (ss.map Setting.option)).TargetEncoding =
        lastOr Setting.asTargetEncoding (getDefaultConfig rt).TargetEncoding ss ∧
      (applyOptions rt (ss.map Setting.option)).ConcurrencyLimit =
        lastOr Setting.asConcurrency (getDefaultConfig rt).ConcurrencyLimit ss ∧
      (applyOptions rt (ss.map Setting.option)).FileFilter =
        lastOr Setting.asFileFilter (getDefaultConfig rt).FileFilter ss ∧
      (applyOptions rt (ss.map Setting.option)).CreateBackup =
        lastOr Setting.asBackup (getDefaultConfig rt).CreateBackup ss ∧
      (applyOptions rt (ss.map Setting.option)).OverwriteExisting =
        lastOr Setting.asOverwrite (getDefaultConfig rt).OverwriteExisting ss ∧
      (applyOptions rt (ss.map Setting.option)).MinConfidence =
        lastOr Setting.asMinConfidence (getDefaultConfig rt).MinConfidence ss ∧
      (applyOptions rt (ss.map Setting.option)).DryRun =
        lastOr Setting.asDryRun (getDefaultConfig rt).DryRun ss ∧
      (applyOptions rt (ss.map Setting.option)).SkipHidden =
        lastOr Setting.asSkipHidden (getDefaultConfig rt).SkipHidden ss ∧
      (applyOptions rt (ss.map Setting.option)).Recursive =
        lastOr Setting.asRecursive (getDefaultConfig rt).Recursive ss ∧
      (applyOptions rt (ss.map Setting.option)).MaxFileSize =
        lastOr Setting.asMaxFileSize (getDefaultConfig rt).MaxFileSize ss) ∧
    (applyOptions rt [WithTargetEncoding "GBK", WithTargetEncoding "BIG5", WithConcurrency 2,
        WithConcurrency 8]).TargetEncoding = "BIG5" ∧
    (applyOptions rt [WithTargetEncoding "GBK", WithTargetEncoding "BIG5", WithConcurrency 2,
        WithConcurrency 8]).ConcurrencyLimit = 8 := by
  refine ⟨⟨?_, ?_, ?_, ?_, ?_, ?_, ?_, ?_, ?_, ?_, ?_⟩, rfl, rfl⟩
  · exact foldl_field (fun c => c.ProgressCallback) _ (by intro s c; cases s <;> rfl) ss _
  · exact foldl_field (fun c => c.TargetEncoding) _ (by intro s c; cases s <;> rfl) ss _
  · exact foldl_field (fun c => c.ConcurrencyLimit) _ (by intro s c; cases s <;> rfl) ss _
  · exact foldl_field (fun c => c.FileFilter) _ (by intro s c; cases s <;> rfl) ss _
  · exact foldl_field (fun c => c.CreateBackup) _ (by intro s c; cases s <;> rfl) ss _
  · exact foldl_field (fun c => c.OverwriteExisting) _ (by intro s c; cases s <;> rfl) ss _
  · exact foldl_field (fun c => c.MinConfidence) _ (by intro s c; cases s <;> rfl) ss _
  · exact foldl_field (fun c => c.DryRun) _ (by intro s c; cases s <;> rfl) ss _
  · exact foldl_field (fun c => c.SkipHidden) _ (by intro s c; cases s <;> rfl) ss _
  · exact foldl_field (fun c => c.Recursive) _ (by intro s c; cases s <;> rfl) ss _
  · exact foldl_field (fun c => c.MaxFileSize) _ (by intro s c; cases s <;> rfl) ss _

/-- C15: `applyOptions` with no option returns the defaults: it is
`getDefaultConfig()`, with TargetEncoding "UTF-8", ConcurrencyLimit 4,
MinConfidence 0.8, MaxFileSize 104857600, CreateBackup true, OverwriteExisting
false, DryRun false, SkipHidden true, Recursive false, a file filter and no
progress callback. -/
theorem applyOptions_empty (rt : GoPlatform) :
    applyOptions rt [] = getDefaultConfig rt ∧
      (applyOptions rt []).TargetEncoding = "UTF-8" ∧
      (applyOptions rt []).ConcurrencyLimit = 4 ∧
      (applyOptions rt []).MinConfidence = 8 / 10 ∧
      (applyOptions rt []).MaxFileSize = 104857600 ∧
      (applyOptions rt []).CreateBackup = true ∧
      (applyOptions rt []).OverwriteExisting = false ∧
      (applyOptions rt []).DryRun = false ∧
      (applyOptions rt []).SkipHidden = true ∧
      (applyOptions rt []).Recursive = false ∧
      (applyOptions rt []).FileFilter.isSome = true ∧
      (applyOptions rt []).ProgressCallback = none := by
  refine ⟨rfl, rfl, rfl, rfl, ?_, rfl, rfl, rfl, rfl, rfl, rfl, rfl⟩
  show (100 * 1024 * 1024 : Int) = 104857600
  norm_num

/-- C16: each of the eleven option constructors, applied to any configuration
with any argument, stores the argument in its own field as it is and leaves
the ten other fields as they were; `WithConcurrency(0)` and
`WithConcurrency(-3)` store 0 and -3. -/
theorem option_sets_own_field (c : Config) :
    (∀ v, WithProgress v c =
      { TargetEncoding := c.TargetEncoding, ProgressCallback := v,
        ConcurrencyLimit := c.ConcurrencyLimit, FileFilter := c.FileFilter,
        CreateBackup := c.CreateBackup, OverwriteExisting := c.OverwriteExisting,
        MinConfidence := c.MinConfidence, DryRun := c.DryRun, SkipHidden := c.SkipHidden,
        Recursive := c.Recursive, MaxFileSize := c.MaxFileSize }) ∧
    (∀ v, WithTargetEncoding v c =
      { TargetEncoding := v, ProgressCallback := c.ProgressCallback,
        ConcurrencyLimit := c.ConcurrencyLimit, FileFilter := c.FileFilter,
        CreateBackup := c.CreateBackup, OverwriteExisting := c.OverwriteExisting,
        MinConfidence := c.MinConfidence, DryRun := c.DryRun, SkipHidden := c.SkipHidden,
        Recursive := c.Recursive, MaxFileSize := c.MaxFileSize }) ∧
    (∀ v, WithConcurrency v c =
      { TargetEncoding := c.TargetEncoding, ProgressCallback := c.ProgressCallback,
        ConcurrencyLimit := v, FileFilter := c.FileFilter,
        CreateBackup := c.CreateBackup, OverwriteExisting := c.OverwriteExisting,
        MinConfidence := c.MinConfidence, DryRun := c.DryRun, SkipHidden := c.SkipHidden,
        Recursive := c.Recursive, MaxFileSize := c.MaxFileSize }) ∧
    (∀ v, WithFileFilter v c =
      { TargetEncoding := c.TargetEncoding, ProgressCallback := c.ProgressCallback,
        ConcurrencyLimit := c.ConcurrencyLimit, FileFilter := v,
        CreateBackup := c.CreateBackup, OverwriteExisting := c.OverwriteExisting,
        MinConfidence := c.MinConfidence, DryRun := c.DryRun, SkipHidden := c.SkipHidden,
        Recursive := c.Recursive, MaxFileSize := c.MaxFileSize }) ∧
    (∀ v, WithBackup v c =
      { TargetEncoding := c.TargetEncoding, ProgressCallback := c.ProgressCallback,
        ConcurrencyLimit := c.ConcurrencyLimit, FileFilter := c.FileFilter,
        CreateBackup := v, OverwriteExisting := c.OverwriteExisting,
        MinConfidence := c.MinConfidence, DryRun := c.DryRun, SkipHidden := c.SkipHidden,
        Recursive := c.Recursive, MaxFileSize := c.MaxFileSize }) ∧
    (∀ v, WithOverwrite v c =
      { TargetEncoding := c.TargetEncoding, ProgressCallback := c.ProgressCallback,
        ConcurrencyLimit := c.ConcurrencyLimit, FileFilter := c.FileFilter,
        CreateBackup := c.CreateBackup, OverwriteExisting := v,
        MinConfidence := c.MinConfidence, DryRun := c.DryRun, SkipHidden := c.SkipHidden,
        Recursive := c.Recursive, MaxFileSize := c.MaxFileSize }) ∧
    (∀ v, WithMinConfidence v c =
      { TargetEncoding := c.TargetEncoding, ProgressCallback := c.ProgressCallback,
        ConcurrencyLimit := c.ConcurrencyLimit, FileFilter := c.FileFilter,
        CreateBackup := c.CreateBackup, OverwriteExisting := c.OverwriteExisting,
        MinConfidence := v, DryRun := c.DryRun, SkipHidden := c.SkipHidden,
        Recursive := c.Recursive, MaxFileSize := c.MaxFileSize }) ∧
    (∀ v, WithDryRun v c =
      { TargetEncoding := c.TargetEncoding, ProgressCallback := c.ProgressCallback,
        ConcurrencyLimit := c.ConcurrencyLimit, FileFilter := c.FileFilter,
        CreateBackup := c.CreateBackup, OverwriteExisting := c.OverwriteExisting,
        MinConfidence := c.MinConfidence, DryRun := v, SkipHidden := c.SkipHidden,
        Recursive := c.Recursive, MaxFileSize := c.MaxFileSize }) ∧
    (∀ v, WithSkipHidden v c =
      { TargetEncoding := c.TargetEncoding, ProgressCallback := c.ProgressCallback,
        ConcurrencyLimit := c.ConcurrencyLimit, FileFilter := c.FileFilter,
        CreateBackup := c.CreateBackup, OverwriteExisting := c.OverwriteExisting,
        MinConfidence := c.MinConfidence, DryRun := c.DryRun, SkipHidden := v,
        Recursive := c.Recursive, MaxFileSize := c.MaxFileSize }) ∧
    (∀ v, WithRecursive v c =
      { TargetEncoding := c.TargetEncoding, ProgressCallback := c.ProgressCallback,
        ConcurrencyLimit := c.ConcurrencyLimit, FileFilter := c.FileFilter,
        CreateBackup := c.CreateBackup, OverwriteExisting := c.OverwriteExisting,
        MinConfidence := c.MinConfidence, DryRun := c.DryRun, SkipHidden := c.SkipHidden,
        Recursive := v, MaxFileSize := c.MaxFileSize }) ∧
    (∀ v, WithMaxFileSize v c =
      { TargetEncoding := c.TargetEncoding, ProgressCallback := c.ProgressCallback,
        ConcurrencyLimit := c.ConcurrencyLimit, FileFilter := c.FileFilter,
        CreateBackup := c.CreateBackup, OverwriteExisting := c.OverwriteExisting,
        MinConfidence := c.MinConfidence, DryRun := c.DryRun, SkipHidden := c.SkipHidden,
        Recursive := c.Recursive, MaxFileSize := v }) ∧
    (WithConcurrency 0 c).ConcurrencyLimit = 0 ∧
    (WithConcurrency (-3) c).ConcurrencyLimit = -3 := by
  refine ⟨fun v => rfl, fun v => rfl, fun v => rfl, fun v => rfl, fun v => rfl,
    fun v => rfl, fun v => rfl, fun v => rfl, fun v => rfl, fun v => rfl, fun v => rfl, rfl, rfl⟩

theorem Ext_of_txt_suffix (rt : GoPlatform) (t : List Char) :
    filepath.Ext.scan rt (t ++ ['.', 't', 'x', 't']).reverse [] = ['.', 't', 'x', 't'] := by
  cases hw : rt.windows <;>
    simp [filepath.Ext.scan, os.IsPathSeparator, hw]

/-- The default filter accepts exactly the paths whose lower-cased form ends in ".txt". -/
theorem Ext_eq_txt_iff (rt : GoPlatform) (s : String) :
    filepath.Ext rt s = ".txt" ↔ strings.HasSuffix s ".txt" = true := by
  constructor
  · intro h
    have hd : specExt rt s.data = ".txt".data := by
      rw [← Ext_eq_specExt, h]
    have hs := specExt_suffix rt s.data
    rw [hd] at hs
    simpa [strings.HasSuffix] using hs
  · intro h
    simp only [strings.HasSuffix, List.isSuffixOf_iff_suffix] at h
    obtain ⟨t, ht⟩ := h
    apply String.ext
    simp only [filepath.Ext]
    rw [← ht]
    exact Ext_of_txt_suffix rt t

/-- C17: on every platform the default file filter exists and accepts a path
if and only if the extension of the lower-cased path is ".txt", that is, if
and only if the final path element of the lower-cased path has a last dot and
what starts there is ".txt", that is, if and only if the lower-cased path ends
in ".txt"; so "TEST.TXT", "file.TXT" and "/path/to/file.txt" are accepted and
".log", ".md", ".json" and paths without an extension are rejected. -/
theorem default_filter_txt (rt : GoPlatform) :
    (∃ f, (getDefaultConfig rt).FileFilter = some f ∧
      ∀ path : String,
        (f path = true ↔ filepath.Ext rt (strings.ToLower rt path) = ".txt") ∧
        (f path = true ↔ specExt rt (strings.ToLower rt path).data = ".txt".data) ∧
        (f path = true ↔ strings.HasSuffix (strings.ToLower rt path) ".txt" = true) ∧
        filterRejects (getDefaultConfig rt) path = !f path) ∧
    filterRejects (getDefaultConfig unixASCII) "test.txt" = false ∧
    filterRejects (getDefaultConfig unixASCII) "TEST.TXT" = false ∧
    filterRejects (getDefaultConfig unixASCII) "file.TXT" = false ∧
    filterRejects (getDefaultConfig unixASCII) "/path/to/file.txt" = false ∧
    filterRejects (getDefaultConfig unixASCII) "/path/to/file.log" = true ∧
    filterRejects (getDefaultConfig unixASCII) "readme.md" = true ∧
    filterRejects (getDefaultConfig unixASCII) "config.json" = true ∧
    filterRejects (getDefaultConfig unixASCII) "file_without_ext" = true ∧
    filterRejects (getDefaultConfig unixASCII) "dir.txt/file" = true := by
  refine ⟨⟨_, rfl, ?_⟩, by decide, by decide, by decide, by decide, by decide, by decide,
    by decide, by decide, by decide⟩
  intro path
  have h1 : ((filepath.Ext rt (strings.ToLower rt path) == ".txt") = true ↔
      filepath.Ext rt (strings.ToLower rt path) = ".txt") := beq_iff_eq
  refine ⟨h1, ?_, ?_, rfl⟩
  · rw [h1, ← Ext_eq_specExt]
    constructor
    · intro h; rw [h]
    · intro h; exact String.ext h
  · rw [h1]
    exact Ext_eq_txt_iff rt _

/-! ## Batch orchestrator: results, progress events and estimates -/

section ResultClaims

variable {σ : Type} (env : Env σ) (world : σ) (sched : List Nat) (files : List String)
  (options : List ConfigOption)

/-- C13: for every non-empty file list, in every world and under every
schedule, whenever `ConvertFiles` returns an aggregate (it does when the limit
is positive), every `ConvertResult` in it has an input path of the list and
the output path `generateOutputFileName(InputFile, target)`; when the target
is "UTF-8" in any casing, as it is by default, the output path is the input
path; and when the filter rejects no path of the list and no read, transcoder
call or write of the run failed, `SuccessfulFiles == len(files)` and
`FailedFiles == 0`. -/
theorem ConvertFiles_results (hne : files ≠ []) :
    (0 < (applyOptions env.rt options).ConcurrencyLimit →
      ∃ b m, ConvertFiles env world sched files options = .returned (some b) none m) ∧
    equalsIgnoreCase (getDefaultConfig env.rt).TargetEncoding "UTF-8" ∧
    (∀ b, (ConvertFiles env world sched files options).result = some b →
      (∀ r ∈ b.Results,
        r.InputFile ∈ files ∧
        r.OutputFile =
          generateOutputFileName env.rt r.InputFile (applyOptions env.rt options).TargetEncoding) ∧
      (equalsIgnoreCase (applyOptions env.rt options).TargetEncoding "UTF-8" →
        ∀ r ∈ b.Results, r.OutputFile = r.InputFile) ∧
      ((∀ f ∈ files, filterRejects (applyOptions env.rt options) f = false) →
        (∀ ev ∈ (ConvertFiles env world sched files options).trace, ∀ i f s ok,
          ev.call = some (i, f, s, ok) → ok = true) →
        b.SuccessfulFiles = files.length ∧ b.FailedFiles = 0)) := by
  refine ⟨ConvertFiles_returns env world sched files options hne, ?_, ?_⟩
  · show equalsIgnoreCase "UTF-8" "UTF-8"
    decide
  intro b h
  obtain ⟨m, hm⟩ := ConvertFiles_result env world sched files options hne h
  obtain ⟨_, hb, hd, hr⟩ := ConvertFiles_returned env world sched files options hne hm
  have hb' := Option.some.inj hb
  subst hb'
  have hs := reachable_sharedOK hr
  have hout : ∀ r ∈ m.shared.batchResult.Results,
      r.InputFile ∈ files ∧
      r.OutputFile =
        generateOutputFileName env.rt r.InputFile (applyOptions env.rt options).TargetEncoding := by
    intro r hrm
    refine ⟨?_, hs.outputs r hrm⟩
    apply (final_perm hr hd).mem_iff.mpr
    apply List.mem_append_left
    apply List.mem_append_right
    exact List.mem_map_of_mem _ hrm
  refine ⟨hout, ?_, ?_⟩
  · intro hutf r hrm
    rw [(hout r hrm).2, generateOutputFileName_utf8_same env.rt _ _ hutf]
  · intro hacc hok
    simp only [Outcome.trace, hm, Outcome.final] at hok
    have hskip := final_skipped hr hd
    have hz : files.countP (filterRejects (applyOptions env.rt options)) = 0 := by
      rw [List.countP_eq_zero]
      intro f hf
      simp [hacc f hf]
    have herr : m.shared.batchResult.Errors.length = 0 := by
      rw [(final_errors hr hd).2]
      unfold callCount
      rw [List.countP_eq_zero]
      intro ev hev
      cases hc : ev.call with
      | none => simp
      | some x =>
        obtain ⟨i, f, s, ok⟩ := x
        have := hok ev hev i f s ok hc
        simp [this]
    have htot := final_total hr hd
    have h1 := hs.successful
    have h2 := hs.failed
    simp only
    omega

/-- Witness of C13 on two files that both convert, with the default options. -/
theorem ConvertFiles_results_witness :
    ["a.txt", "b.txt"] ≠ [] ∧
      (ConvertFiles memEnv exampleFS [1, 1, 1, 1, 1, 1] ["a.txt", "b.txt"] []).result.map
        (fun b => (b.SuccessfulFiles, b.FailedFiles,
          b.Results.map (fun r => (r.InputFile, r.OutputFile)))) =
        some (2, 0, [("b.txt", "b.txt"), ("a.txt", "a.txt")]) ∧
      equalsIgnoreCase (getDefaultConfig memEnv.rt).TargetEncoding "UTF-8" :=
  ⟨by decide, by decide,
    (ConvertFiles_results memEnv exampleFS [1, 1, 1, 1, 1, 1] ["a.txt", "b.txt"] [] (by decide)).2.1⟩

end ResultClaims

section Estimates

variable {σ : Type} {env : Env σ} {config : Config} {cap : Nat} {files : List String}

theorem workerStep_estimates (i : Nat) (w : Worker) (g : Shared σ) (pc : PC) (g' : Shared σ)
    (hw : WorkerOK config files i w)
    (hg : EstimatesOK env.clock files.length g.batchResult.ProcessedFiles g.trace)
    (h : workerStep env config cap files.length w g = some (pc, g')) :
    EstimatesOK env.clock files.length g'.batchResult.ProcessedFiles g'.trace := by
  obtain ⟨-, -, -, hp⟩ := hw
  obtain ⟨idx, path, wpc⟩ := w
  unfold EstimatesOK at hg ⊢
  cases wpc <;> simp only [workerStep] at h <;> (try split at h) <;> (try split at h) <;>
    simp at h <;> obtain ⟨rfl, rfl⟩ := h <;> intro w p hmem hst <;>
    first
      | exact hg w p hmem hst
      | (refine ⟨(hg w p hmem hst).1, ?_, (hg w p hmem hst).2.2⟩
         have h2 := (hg w p hmem hst).2.1
         simp only [recordFailure, recordSuccess]
         omega)
      | (simp at hmem
         exact hg w p hmem hst)
      | (simp at hmem
         rcases hmem with hmem | hmem
         · exact hg w p hmem hst
         · rcases hmem with ⟨-, rfl⟩
           have := (hp _ rfl).2.1
           rw [this] at hst
           exact absurd hst (by decide))
      | (simp at hmem
         rcases hmem with hmem | hmem
         · refine ⟨(hg w p hmem hst).1, ?_, (hg w p hmem hst).2.2⟩
           have h2 := (hg w p hmem hst).2.1
           simp only [recordSuccess]
           omega
         · rcases hmem with ⟨-, rfl⟩
           refine ⟨?_, ?_, ⟨g.clockReads + 1, ?_⟩⟩
           · simp [completedProgress, recordSuccess]
           · simp [completedProgress, recordSuccess]
           · simp [completedProgress, recordSuccess])

theorem reachable_estimates {world : σ} {m : Machine σ}
    (hr : Reachable env config cap files.length (initialMachine config world files) m) :
    EstimatesOK env.clock files.length m.shared.batchResult.ProcessedFiles m.shared.trace := by
  refine shared_invariant_ok
    (fun g => EstimatesOK env.clock files.length g.batchResult.ProcessedFiles g.trace) ?_ ?_ hr
  · intro i w g pc g' hw hg h
    exact workerStep_estimates i w g pc g' hw hg h
  · intro w p hmem hst
    simp only [initialMachine] at hmem
    cases hc : config.ProgressCallback with
    | none => simp [hc] at hmem
    | some cb =>
      simp [hc] at hmem
      obtain ⟨-, rfl⟩ := hmem
      simp at hst

theorem tally_le_length (f : Worker → Nat) (ws : List Worker) (h : ∀ w ∈ ws, f w ≤ 1) :
    tally f ws ≤ ws.length := by
  induction ws with
  | nil => simp [tally]
  | cons a ws ih =>
    have h1 := h a (List.mem_cons_self _ _)
    have h2 := ih (fun w hw => h w (List.mem_cons_of_mem _ hw))
    simp [tally] at h2 ⊢
    omega

/-- At any moment of a run, no more files are processed than were submitted. -/
theorem reachable_processed_le {world : σ} {m : Machine σ}
    (hr : Reachable env config cap files.length (initialMachine config world files) m) :
    m.shared.batchResult.ProcessedFiles ≤ files.length := by
  have hs := reachable_sharedOK hr
  have h1 := reachable_countSkipped hr
  have h2 := reachable_countResult (fun _ => true) hr
  simp only [List.countP_true] at h2
  rw [hs.processed, hs.successful, h1, h2, ← tally_add, ← (reachable_workers_ok hr).1]
  apply tally_le_length
  intro w _
  unfold Worker.countSkipped Worker.countResult
  cases hrec : w.pc.recorded with
  | none => simp
  | some t => cases t <;> simp

theorem wrapInt64_of_range (x : Int) (h0 : 0 ≤ x) (h1 : x < 2 ^ 63) : wrapInt64 x = x := by
  unfold wrapInt64
  norm_num at h1 ⊢
  omega

end Estimates

section EstimateClaims

variable {σ : Type} (env : Env σ) (world : σ) (sched : List Nat) (files : List String)
  (options : List ConfigOption)

/-- C19 as stated fails: the product is an `int64`.  With three files and a
clock that stands at 2^62 nanoseconds, the Completed event after the first
file has the estimate -2^63, not 2 * 2^62, and it is negative; the same
happens after 1000 seconds with ten million files left. -/
theorem ConvertFiles_estimate_wraps :
    ((ConvertFiles lateEnv exampleFS [] ["a.txt", "b.txt", "x.log"]
        [WithProgress (some ⟨0⟩)]).trace.filterMap Event.asProgress).map
        (fun p => (p.Status, p.ProcessedFiles, p.EstimatedTime)) =
      [(.StatusStarting, 0, 0), (.StatusCompleted, 1, -9223372036854775808),
        (.StatusCompleted, 2, 2305843009213693952), (.StatusSkipped, 3, 0)] ∧
    ((3 : Int) - 1) * Int.tdiv (lateEnv.clock 1) 1 = 9223372036854775808 ∧
    (completedProgress ⟨10000001, 1, 1, 0, 0, 0, 0, [], []⟩ "a.txt" 10000001
        1000000000000 1000000000000).EstimatedTime = -8446744073709551616 := by
  decide

/-- C19 (amended): in every Completed event of a run of `ConvertFiles`, with
`P` its ProcessedFiles, `N = len(files)` and `t` a clock reading of the run,
`1 <= P <= N` (so the division is not by zero) and EstimatedTime is the
`int64` product `(N - P) * (t div P)`, the division truncating and done first;
when `t` is not negative and the product is below 2^63 the estimate is that
product exactly and is not negative; and it is 0 when `P == N`. -/
theorem ConvertFiles_estimate (hne : files ≠ []) :
    ∀ w p, Event.progress w p ∈ (ConvertFiles env world sched files options).trace →
      p.Status = .StatusCompleted →
      1 ≤ p.ProcessedFiles ∧ p.ProcessedFiles ≤ files.length ∧
      ∃ k,
        p.EstimatedTime =
          wrapInt64 (((files.length : Int) - (p.ProcessedFiles : Int)) *
            Int.tdiv (env.clock k) (p.ProcessedFiles : Int)) ∧
        (0 ≤ env.clock k →
          ((files.length : Int) - (p.ProcessedFiles : Int)) *
            Int.tdiv (env.clock k) (p.ProcessedFiles : Int) < 2 ^ 63 →
          p.EstimatedTime =
            ((files.length : Int) - (p.ProcessedFiles : Int)) *
              Int.tdiv (env.clock k) (p.ProcessedFiles : Int) ∧
          0 ≤ p.EstimatedTime) ∧
        (p.ProcessedFiles = files.length → p.EstimatedTime = 0) := by
  intro w p hmem hst
  have hr := ConvertFiles_final_reachable env world sched files options hne
  obtain ⟨h1, h2, k, hk⟩ := reachable_estimates hr w p hmem hst
  have hle := reachable_processed_le hr
  refine ⟨h1, by omega, k, hk, ?_, ?_⟩
  · intro h0 hlt
    have hnn : 0 ≤ ((files.length : Int) - (p.ProcessedFiles : Int)) *
        Int.tdiv (env.clock k) (p.ProcessedFiles : Int) := by
      apply Int.mul_nonneg
      · omega
      · exact Int.tdiv_nonneg h0 (by omega)
    rw [hk, wrapInt64_of_range _ hnn hlt]
    exact ⟨rfl, hnn⟩
  · intro hPN
    rw [hk, hPN]
    simp [wrapInt64]

/-- Witness of C19 (amended) on the example list with a progress callback: the
two Completed events are built after one and after two files. -/
theorem ConvertFiles_estimate_witness :
    exampleFiles ≠ [] ∧
      ((ConvertFiles memEnv exampleFS [] exampleFiles
          [WithProgress (some ⟨0⟩)]).trace.filterMap Event.asProgress).map
          (fun p => (p.Status, p.ProcessedFiles, p.EstimatedTime)) =
        [(.StatusStarting, 0, 0), (.StatusCompleted, 1, 8000000000),
          (.StatusCompleted, 2, 6000000000), (.StatusSkipped, 3, 0)] ∧
      ∀ w p, Event.progress w p ∈
        (ConvertFiles memEnv exampleFS [] exampleFiles [WithProgress (some ⟨0⟩)]).trace →
        p.Status = .StatusCompleted →
        1 ≤ p.ProcessedFiles ∧ p.ProcessedFiles ≤ exampleFiles.length :=
  ⟨by decide, by decide, fun w p hmem hst =>
    ⟨(ConvertFiles_estimate memEnv exampleFS [] exampleFiles [WithProgress (some ⟨0⟩)]
        (by decide) w p hmem hst).1,
      (ConvertFiles_estimate memEnv exampleFS [] exampleFiles [WithProgress (some ⟨0⟩)]
        (by decide) w p hmem hst).2.1⟩⟩

end EstimateClaims

/-! ## Single-file conversion: the claims -/

/-- C20: `ConvertFile` with dry-run enabled on the existing file "a.txt" and
the output path "out.txt", which does not exist before the call, reads the
file, calls the transcoder and then writes: after the call "out.txt" exists
with the transcoded bytes.  The call does what it does with dry-run disabled. -/
theorem ConvertFile_dry_run_writes :
    (applyOptions memStatEnv.rt [WithDryRun true]).DryRun = true ∧
      exampleFS.files.lookup "out.txt" = none ∧
      (ConvertFile memStatEnv exampleFS "a.txt" "out.txt" [WithDryRun true]).trace =
        [Event.read 0 "a.txt" true, Event.convert 0 "a.txt" true, Event.write 0 "a.txt" "out.txt" true] ∧
      (ConvertFile memStatEnv exampleFS "a.txt" "out.txt"
        [WithDryRun true]).world.files.lookup "out.txt" = some [97] ∧
      (ConvertFile memStatEnv exampleFS "a.txt" "out.txt" [WithDryRun true]).world =
        (ConvertFile memStatEnv exampleFS "a.txt" "out.txt" [WithDryRun false]).world := by
  decide

/-- For every environment, world, pair of paths and option list, adding
`WithDryRun(true)` or `WithDryRun(false)` at the end makes no difference to
what `ConvertFile` does: the flag is never read. -/
theorem ConvertFile_ignores_dry_run {σ : Type} (env : StatEnv σ) (world : σ)
    (inputFile outputFile : String) (options : List ConfigOption) (b : Bool) :
    ConvertFile env world inputFile outputFile (options ++ [WithDryRun b]) =
      ConvertFile env world inputFile outputFile options := by
  have hc : applyOptions env.rt (options ++ [WithDryRun b]) =
      { applyOptions env.rt options with DryRun := b } := by
    simp [applyOptions, List.foldl_append, WithDryRun]
  unfold ConvertFile
  rw [hc]
  rfl

section ProgressLaw

variable {σ : Type} {env : Env σ} {config : Config} {cap : Nat} {files : List String}

/-- A quantity of the shared state that every step of a well-formed goroutine
changes by as much as it changes that goroutine's contribution stays equal to
the tally. -/
theorem tally_invariant_ok {world : σ} {m : Machine σ} (q : Shared σ → Nat) (f : Worker → Nat)
    (hstep : ∀ i w g pc g', WorkerOK config files i w → f w ≤ q g →
      workerStep env config cap files.length w g = some (pc, g') →
      q g' + f w = q g + f { w with pc := pc })
    (h0 : q (initialMachine config world files).shared =
      tally f (initialMachine config world files).workers)
    (hr : Reachable env config cap files.length (initialMachine config world files) m) :
    q m.shared = tally f m.workers := by
  induction hr with
  | init => exact h0
  | step hr' hs ih =>
    obtain ⟨w, pc, g, hw, hws, rfl⟩ := Machine.step_some hs
    have h3 := tally_pos_of_mem f _ w (List.getElem?_mem hw)
    have h1 := hstep _ w _ pc g ((reachable_workers_ok hr').2 _ w hw) (by omega) hws
    have h2 := tally_set f _ _ w { w with pc := pc } hw
    simp only
    omega

theorem progressCount_append (P : Progress → Bool) (trace : List Event) (ev : Event) :
    progressCount P (trace ++ [ev]) =
      progressCount P trace +
        (match ev.asProgress with
          | some p => if P p = true then 1 else 0
          | none => 0) := by
  unfold progressCount
  rw [List.countP_append]
  cases hev : ev.asProgress with
  | none => simp [List.countP_cons, hev]
  | some p => simp [List.countP_cons, hev]

theorem workerStep_progressOK (i : Nat) (w : Worker) (g : Shared σ) (pc : PC) (g' : Shared σ)
    (hw : WorkerOK config files i w) (hg : ProgressOK config g.batchResult g.trace)
    (h : workerStep env config cap files.length w g = some (pc, g')) :
    ProgressOK config g'.batchResult g'.trace := by
  obtain ⟨h1, h2, h3, h4⟩ := hg
  obtain ⟨-, -, -, hp⟩ := hw
  obtain ⟨idx, path, wpc⟩ := w
  cases wpc <;> simp only [workerStep] at h <;> (try split at h) <;> (try split at h) <;>
    simp at h <;> obtain ⟨rfl, rfl⟩ := h <;>
    first
      | exact ⟨h1, h2, h3, h4⟩
      | (have hs := (hp _ rfl).2.1
         constructor <;>
           simp only [progressCount_append, Event.asProgress, hs] <;> simp <;> assumption)
      | (constructor <;>
           simp only [progressCount_append, Event.asProgress, recordFailure, recordSuccess,
             completedProgress] <;>
           simp_all)

theorem reachable_progressOK {world : σ} {m : Machine σ}
    (hr : Reachable env config cap files.length (initialMachine config world files) m) :
    ProgressOK config m.shared.batchResult m.shared.trace := by
  refine shared_invariant_ok (fun g => ProgressOK config g.batchResult g.trace) ?_ ?_ hr
  · intro i w g pc g' hw hg h
    exact workerStep_progressOK i w g pc g' hw hg h
  · constructor <;> simp only [initialMachine] <;> cases config.ProgressCallback <;>
      simp [progressCount, Event.asProgress]

theorem skipReturned_wgDone (i : Nat) (f : String) (t : Terminal) :
    Worker.countSkipReturned { index := i, filePath := f, pc := .wgDone t } =
      Worker.countSkipReturned { index := i, filePath := f, pc := .release t } := by
  cases t <;> rfl

theorem skipReturned_done (i : Nat) (f : String) (t : Terminal) :
    Worker.countSkipReturned { index := i, filePath := f, pc := .done t } =
      Worker.countSkipReturned { index := i, filePath := f, pc := .release t } := by
  cases t <;> rfl

theorem workerStep_skipReturned (i : Nat) (w : Worker) (g : Shared σ) (pc : PC) (g' : Shared σ)
    (hw : WorkerOK config files i w)
    (h : workerStep env config cap files.length w g = some (pc, g')) :
    (progressCount (fun p => p.Status == .StatusSkipped) g'.trace +
        (if config.ProgressCallback.isSome then 0 else g'.batchResult.SkippedFiles)) +
        w.countSkipReturned =
      (progressCount (fun p => p.Status == .StatusSkipped) g.trace +
        (if config.ProgressCallback.isSome then 0 else g.batchResult.SkippedFiles)) +
        Worker.countSkipReturned { w with pc := pc } := by
  obtain ⟨-, -, -, hp⟩ := hw
  obtain ⟨idx, path, wpc⟩ := w
  cases wpc <;> simp only [workerStep] at h <;> (try split at h) <;> (try split at h) <;>
    simp at h <;> obtain ⟨rfl, rfl⟩ := h <;>
    first
      | rfl
      | (simp only [skipReturned_wgDone, skipReturned_done]
         done)
      | (have hs := (hp _ rfl).2.1
         simp only [progressCount_append, Event.asProgress, hs, Worker.countSkipReturned]
         simp
         omega)
      | (simp only [progressCount_append, Event.asProgress, recordFailure, recordSuccess,
           completedProgress, Worker.countSkipReturned]
         simp_all
         done)
      | (simp only [progressCount_append, Event.asProgress, recordFailure, recordSuccess,
           completedProgress, Worker.countSkipReturned]
         simp_all
         omega)

theorem reachable_skipReturned {world : σ} {m : Machine σ}
    (hr : Reachable env config cap files.length (initialMachine config world files) m) :
    progressCount (fun p => p.Status == .StatusSkipped) m.shared.trace +
        (if config.ProgressCallback.isSome then 0 else m.shared.batchResult.SkippedFiles) =
      tally Worker.countSkipReturned m.workers := by
  refine tally_invariant_ok
    (fun g => progressCount (fun p => p.Status == .StatusSkipped) g.trace +
      (if config.ProgressCallback.isSome then 0 else g.batchResult.SkippedFiles)) _ ?_ ?_ hr
  · intro i w g pc g' hw _ h
    exact workerStep_skipReturned i w g pc g' hw h
  · rw [tally_initial _ 0 world files (by intros; rfl)]
    simp only [initialMachine]
    cases config.ProgressCallback <;> simp [progressCount, Event.asProgress]

theorem progressCount_cons (P : Progress → Bool) (ev : Event) (trace : List Event) :
    progressCount P (ev :: trace) =
      progressCount P trace +
        (match ev.asProgress with
          | some p => if P p = true then 1 else 0
          | none => 0) := by
  unfold progressCount
  cases hev : ev.asProgress with
  | none => simp [List.countP_cons, hev]
  | some p => simp [List.countP_cons, hev]

/-- Every progress callback has exactly one of the five statuses. -/
theorem progressCount_by_status (trace : List Event) :
    progressCount (fun _ => true) trace =
      progressCount (fun p => p.Status == .StatusStarting) trace +
      progressCount (fun p => p.Status == .StatusProcessing) trace +
      progressCount (fun p => p.Status == .StatusCompleted) trace +
      progressCount (fun p => p.Status == .StatusFailed) trace +
      progressCount (fun p => p.Status == .StatusSkipped) trace := by
  induction trace with
  | nil => simp [progressCount]
  | cons ev trace ih =>
    simp only [progressCount_cons, ih]
    cases hev : ev.asProgress with
    | none => simp
    | some p => cases hs : p.Status <;> simp [hs] <;> omega

end ProgressLaw

section ProgressClaims

variable {σ : Type} (env : Env σ) (world : σ) (sched : List Nat) (files : List String)
  (options : List ConfigOption)

/-- The callbacks the code does make: with a callback configured, whenever
`ConvertFiles` returns an aggregate the callback was called once with a
Starting event, once with a Completed event per successful file, once with a
Skipped event per skipped file, and never with a Failed or Processing event;
so the number of calls falls short of `len(files) + 1` by `FailedFiles`. -/
theorem ConvertFiles_progress_law (hne : files ≠ [])
    (hcb : (applyOptions env.rt options).ProgressCallback.isSome = true) (b : BatchResult)
    (h : (ConvertFiles env world sched files options).result = some b) :
    progressCount (fun p => p.Status == .StatusStarting)
        (ConvertFiles env world sched files options).trace = 1 ∧
      progressCount (fun p => p.Status == .StatusCompleted)
        (ConvertFiles env world sched files options).trace = b.SuccessfulFiles ∧
      progressCount (fun p => p.Status == .StatusSkipped)
        (ConvertFiles env world sched files options).trace = b.SkippedFiles ∧
      progressCount (fun p => p.Status == .StatusFailed)
        (ConvertFiles env world sched files options).trace = 0 ∧
      progressCount (fun _ => true) (ConvertFiles env world sched files options).trace +
        b.FailedFiles = files.length + 1 := by
  obtain ⟨m, hm⟩ := ConvertFiles_result env world sched files options hne h
  obtain ⟨_, hb, hd, hr⟩ := ConvertFiles_returned env world sched files options hne hm
  have hb' := Option.some.inj hb
  subst hb'
  simp only [Outcome.trace, hm, Outcome.final]
  have hp := reachable_progressOK hr
  have hs := reachable_sharedOK hr
  have hsk := reachable_skipReturned hr
  have hcount : tally Worker.countSkipReturned m.workers =
      m.shared.batchResult.SkippedFiles := by
    rw [reachable_countSkipped hr]
    apply tally_congr
    intro w hw
    obtain ⟨t, ht⟩ := hd w hw
    cases t <;> simp [Worker.countSkipReturned, Worker.countSkipped, ht, PC.recorded]
  have htot := final_total hr hd
  have h1 := hp.starting
  have h2 := hp.completed
  have h3 := hp.failed
  have h4 := hp.processing
  have h5 := hs.successful
  have h6 := hs.failed
  have hall := progressCount_by_status m.shared.trace
  simp only [hcb, ↓reduceIte] at h1 h2 hsk
  refine ⟨h1, h2, by omega, h3, ?_⟩
  omega

/-- C18: on the one-file list `["missing.txt"]` with a progress callback, where
the read fails, the callback is called once, with the Starting event, and the
call returns FailedFiles 1: the failure branches deliver no event.  On the
example list of five files, two of which fail, the callback is called four
times (Starting, two Completed, one Skipped) and never with a Failed event. -/
theorem ConvertFiles_failure_without_event :
    ((ConvertFiles memEnv ⟨[], []⟩ [] ["missing.txt"]
        [WithProgress (some ⟨0⟩)]).trace.filterMap Event.asProgress).map
        (fun p => (p.CurrentFile, p.Status, p.ProcessedFiles, p.TotalFiles)) =
      [("", .StatusStarting, 0, 1)] ∧
    (ConvertFiles memEnv ⟨[], []⟩ [] ["missing.txt"] [WithProgress (some ⟨0⟩)]).result.map
        (fun b => b.FailedFiles) = some 1 ∧
    ((ConvertFiles memEnv exampleFS [] exampleFiles
        [WithProgress (some ⟨0⟩)]).trace.filterMap Event.asProgress).map
        (fun p => (p.CurrentFile, p.Status)) =
      [("", .StatusStarting), ("a.txt", .StatusCompleted), ("b.txt", .StatusCompleted),
        ("x.log", .StatusSkipped)] ∧
    (ConvertFiles memEnv exampleFS [] exampleFiles [WithProgress (some ⟨0⟩)]).result.map
        (fun b => b.FailedFiles) = some 2 := by
  decide

end ProgressClaims

/-! ## Single-file conversion: validation and the returned result -/

theorem fileProgress_result {σ : Type} (env : Env σ) (config : Config) (inputFile : String)
    (status : ProgressStatus) (processed errorCount : Nat) (bytes : Int) (elapsed : Bool)
    (s : FileOutcome σ) :
    (fileProgress env config inputFile status processed errorCount bytes elapsed s).result =
      s.result := by
  unfold fileProgress
  split <;> rfl

/-- C21: `ConvertFile` returns a nil result and an error, having made no
progress callback, no read, no transcoding and no write (its trace is empty,
the outside world is the one it was called in, and the clock was not read),
whenever the input path is empty, the output path is empty, or `os.Stat`
reports that the input file does not exist.  And whenever it returns a
result, the error is nil, `InputFile` of the result is the input path and
`OutputFile` is the output path. -/
theorem ConvertFile_validation {σ : Type} (env : StatEnv σ) (world : σ)
    (inputFile outputFile : String) (options : List ConfigOption) :
    ((inputFile = "" ∨ outputFile = "" ∨ env.IsNotExist world inputFile = true) →
      (ConvertFile env world inputFile outputFile options).result = none ∧
      (ConvertFile env world inputFile outputFile options).err.isSome = true ∧
      (ConvertFile env world inputFile outputFile options).trace = [] ∧
      (ConvertFile env world inputFile outputFile options).world = world ∧
      (ConvertFile env world inputFile outputFile options).clockReads = 0) ∧
    (∀ r, (ConvertFile env world inputFile outputFile options).result = some r →
      (ConvertFile env world inputFile outputFile options).err = none ∧
      r.InputFile = inputFile ∧ r.OutputFile = outputFile) := by
  constructor
  · intro h
    unfold ConvertFile
    by_cases h1 : inputFile = ""
    · simp [h1]
    · by_cases h2 : outputFile = ""
      · simp [h1, h2]
      · rcases h with h | h | h
        · exact absurd h h1
        · exact absurd h h2
        · simp [h1, h2, h]
  · intro r
    unfold ConvertFile
    simp only
    split
    · simp
    split
    · simp
    split
    · simp
    split
    · simp [fileProgress_result]
    split
    · simp [fileProgress_result]
    split
    · simp [fileProgress_result]
    · intro h
      simp only [Option.some.injEq] at h
      subst h
      refine ⟨?_, rfl, rfl⟩
      simp only [fileProgress]
      split <;> split <;> rfl

/-- C21 at concrete inputs: an empty input path, an empty output path and a
missing input file are refused without touching anything, and converting the
existing file "a.txt" to "out.txt" returns a result naming both paths. -/
theorem ConvertFile_validation_witness :
    (ConvertFile memStatEnv exampleFS "" "out.txt" [WithProgress (some ⟨0⟩)]).trace = [] ∧
    (ConvertFile memStatEnv exampleFS "a.txt" "" [WithProgress (some ⟨0⟩)]).trace = [] ∧
    (ConvertFile memStatEnv exampleFS "missing.txt" "out.txt" [WithProgress (some ⟨0⟩)]).result = none ∧
    (ConvertFile memStatEnv exampleFS "missing.txt" "out.txt" [WithProgress (some ⟨0⟩)]).err =
      some "input file does not exist: missing.txt" ∧
    (ConvertFile memStatEnv exampleFS "missing.txt" "out.txt" [WithProgress (some ⟨0⟩)]).trace = [] ∧
    ((ConvertFile memStatEnv exampleFS "a.txt" "out.txt" []).result.map
      (fun r => (r.InputFile, r.OutputFile))) = some ("a.txt", "out.txt") ∧
    (ConvertFile memStatEnv exampleFS "a.txt" "out.txt" []).err = none :=
  ⟨((ConvertFile_validation memStatEnv exampleFS "" "out.txt" [WithProgress (some ⟨0⟩)]).1
      (Or.inl rfl)).2.2.1,
    ((ConvertFile_validation memStatEnv exampleFS "a.txt" "" [WithProgress (some ⟨0⟩)]).1
      (Or.inr (Or.inl rfl))).2.2.1,
    ((ConvertFile_validation memStatEnv exampleFS "missing.txt" "out.txt" [WithProgress (some ⟨0⟩)]).1
      (Or.inr (Or.inr (by decide)))).1,
    by decide,
    ((ConvertFile_validation memStatEnv exampleFS "missing.txt" "out.txt" [WithProgress (some ⟨0⟩)]).1
      (Or.inr (Or.inr (by decide)))).2.2.1,
    by decide, by decide⟩

/-! ## Output path policy: distinct paths stay distinct -/

theorem specExt_shape (rt : GoPlatform) (p : List Char) :
    specExt rt p = [] ∨ ∃ t, specExt rt p = '.' :: t ∧ '.' ∉ t := by
  unfold specExt
  simp only
  split
  · right
    refine ⟨_, rfl, ?_⟩
    intro h
    have h2 := List.mem_takeWhile_imp (List.mem_reverse.mp h)
    simp at h2
  · left; rfl

theorem specExt_noSep (rt : GoPlatform) (p : List Char) :
    ∀ c ∈ specExt rt p, os.IsPathSeparator rt c = false := fun c hc =>
  finalElement_noSep rt p c ((specExt_suffix_final rt p).subset hc)

theorem specExt_nil_no_dot (rt : GoPlatform) (p : List Char) (h : specExt rt p = []) :
    '.' ∉ finalElement rt p := by
  unfold specExt at h
  simp only at h
  split at h
  · exact absurd h (by simp)
  · assumption

theorem takeWhile_of_all {α : Type} (P : α → Bool) (l r : List α) (h : l <+: r)
    (hl : ∀ c ∈ l, P c = true) : l <+: r.takeWhile P := by
  induction l generalizing r with
  | nil => exact List.nil_prefix
  | cons a l ih =>
    obtain ⟨t, rfl⟩ := h
    have ha := hl a (List.mem_cons_self _ _)
    simp only [List.cons_append, List.takeWhile_cons, ha, ↓reduceIte]
    exact (List.prefix_cons_inj a).mpr
      (ih _ (List.prefix_append l t) (fun c hc => hl c (List.mem_cons_of_mem _ hc)))

theorem suffix_finalElement (rt : GoPlatform) (u p : List Char) (h : u <:+ p)
    (hu : ∀ c ∈ u, os.IsPathSeparator rt c = false) : u <:+ finalElement rt p := by
  unfold finalElement
  rw [← List.reverse_prefix]
  rw [List.reverse_reverse]
  apply takeWhile_of_all
  · exact List.reverse_prefix.mpr h
  · intro c hc
    simp [hu c (List.mem_reverse.mp hc)]

/-- Two paths with the same image under the suffix form are equal, when the
extension of the second is not longer than that of the first. -/
theorem suffix_form_cancel (rt : GoPlatform) (S p q : List Char)
    (h : specBase rt p ++ (S ++ specExt rt p) = specBase rt q ++ (S ++ specExt rt q))
    (hle : (specExt rt q).length ≤ (specExt rt p).length) : p = q := by
  have hp := specBase_append_specExt rt p
  have hq := specBase_append_specExt rt q
  have hsame : specExt rt q = specExt rt p → p = q := by
    intro he
    rw [he] at h hq
    have h' : (specBase rt p ++ S) ++ specExt rt p = (specBase rt q ++ S) ++ specExt rt p := by
      simpa [List.append_assoc] using h
    have h2 := List.append_cancel_right (List.append_cancel_right h')
    rw [← hp, ← hq, h2]
  have hsuf : specExt rt q <:+ specExt rt p := by
    have h1 : specExt rt q <:+ specBase rt p ++ (S ++ specExt rt p) := by
      rw [h]
      exact ⟨specBase rt q ++ S, by simp⟩
    have h2 : specExt rt p <:+ specBase rt p ++ (S ++ specExt rt p) :=
      ⟨specBase rt p ++ S, by simp⟩
    exact List.suffix_of_suffix_length_le h1 h2 hle
  rcases specExt_shape rt p with hx | ⟨t, hx, ht⟩
  · apply hsame
    rw [hx] at hsuf ⊢
    exact List.suffix_nil.mp hsuf
  · rw [hx] at hsuf
    rcases List.suffix_cons_iff.mp hsuf with heq | hsuf'
    · exact hsame (by rw [heq, hx])
    · exfalso
      have hxq : specExt rt q = [] := by
        rcases specExt_shape rt q with h0 | ⟨t', h1, _⟩
        · exact h0
        · exfalso
          apply ht
          apply hsuf'.subset
          rw [h1]
          exact List.mem_cons_self _ _
      have hnd := specExt_nil_no_dot rt q hxq
      rw [hxq, List.append_nil] at hq h
      rw [hq] at h
      have hlen := congrArg List.length h
      simp only [List.length_append, hx, List.length_cons] at hlen
      rcases List.append_eq_append_iff.mp h with ⟨u, hu1, hu2⟩ | ⟨c, hc1, hc2⟩
      · have hcount : ∀ c, List.count c u = List.count c (specExt rt p) := by
          intro c
          have := congrArg (List.count c) hu2
          simp only [List.count_append] at this
          omega
        have hdot : '.' ∈ u := by
          rw [← List.count_pos_iff, hcount, hx]
          simp
        have hsep : ∀ c ∈ u, os.IsPathSeparator rt c = false := by
          intro c hc
          apply specExt_noSep rt p c
          rw [← List.count_pos_iff, ← hcount]
          exact List.count_pos_iff.mpr hc
        have hu : u <:+ q := ⟨specBase rt p, hu1.symm⟩
        exact hnd ((suffix_finalElement rt u q hu hsep).subset hdot)
      · have := congrArg List.length hc2
        simp only [List.length_append, hx, List.length_cons] at this
        omega

theorem len_append (a b : String) : len (a ++ b) = len a + len b := by
  simp [len]

theorem ToLower_utf8Size_ascii (rt : GoPlatform) (c : Char) (hc : c.toNat ≤ unicode.MaxASCII) :
    (unicode.ToLower rt c).utf8Size = c.utf8Size := by
  have hc' : c.toNat ≤ 127 := hc
  have he : c = Char.ofNat c.toNat := (Char.ofNat_toNat c).symm
  rw [he]
  generalize c.toNat = n at hc'
  interval_cases n <;> rfl

/-- C27 as stated fails in its byte count: lower-casing can change the length
of the encoding.  On a platform whose lower-case table maps the Kelvin sign
(three bytes) to the letter `k` (one byte), the target encoding made of the
Kelvin sign alone sends "a.txt" (5 bytes) to "a_k.txt" (7 bytes), not to a
path of 5 + 1 + 3 bytes. -/
theorem generateOutputFileName_length_counterexample :
    strings.ToUpper kelvinPlatform (String.mk [Char.ofNat 0x212A]) ≠ "UTF-8" ∧
      ¬ equalsIgnoreCase (String.mk [Char.ofNat 0x212A]) "UTF-8" ∧
      len (String.mk [Char.ofNat 0x212A]) = 3 ∧
      generateOutputFileName kelvinPlatform "a.txt" (String.mk [Char.ofNat 0x212A]) = "a_k.txt" ∧
      len "a.txt" = 5 ∧
      len (generateOutputFileName kelvinPlatform "a.txt" (String.mk [Char.ofNat 0x212A])) = 7 := by
  decide

/-- C27 (amended): for every target encoding `e` the program does not take for
"UTF-8" (its upper-casing differs from "UTF-8") and every path `p`,
`generateOutputFileName p e` is not `p`: it has `1 + ` the number of runes of
`e` more runes than `p`, and `1 + len(lowercase(e))` more bytes, which is
`1 + len(e)` bytes whenever lower-casing changes the encoded length of no rune
of `e`, as when `e` is ASCII; and the map is injective in `p`: two paths with
the same output path are equal, whether or not they have extensions and
whatever characters `e` holds. -/
theorem generateOutputFileName_injective (rt : GoPlatform) (e : String)
    (h : strings.ToUpper rt e ≠ "UTF-8") (p : String) :
    generateOutputFileName rt p e ≠ p ∧
    (generateOutputFileName rt p e).length = p.length + (1 + e.length) ∧
    len (generateOutputFileName rt p e) = len p + (1 + len (strings.ToLower rt e)) ∧
    ((∀ c ∈ e.data, (unicode.ToLower rt c).utf8Size = c.utf8Size) →
      len (generateOutputFileName rt p e) = len p + (1 + len e)) ∧
    ((∀ c ∈ e.data, c.toNat ≤ unicode.MaxASCII) →
      len (generateOutputFileName rt p e) = len p + (1 + len e)) ∧
    (∀ q, generateOutputFileName rt p e = generateOutputFileName rt q e → p = q) := by
  have hd := generateOutputFileName_data rt p e h
  have hp := specBase_append_specExt rt p.data
  have hlen : (generateOutputFileName rt p e).length = p.length + (1 + e.length) := by
    have h1 := congrArg List.length hd
    have h2 := congrArg List.length hp
    simp only [List.length_append, List.length_cons, strings.ToLower, List.length_map] at h1 h2
    simp only [String.length]
    omega
  have hbytes : len (generateOutputFileName rt p e) =
      len p + (1 + len (strings.ToLower rt e)) := by
    unfold len
    rw [hd]
    conv_rhs => rw [← hp]
    simp only [List.map_append, List.map_cons, List.sum_append, List.sum_cons]
    have : Char.utf8Size '_' = 1 := by decide
    omega
  have hsame : (∀ c ∈ e.data, (unicode.ToLower rt c).utf8Size = c.utf8Size) →
      len (strings.ToLower rt e) = len e := by
    intro hc
    unfold len strings.ToLower
    simp only [List.map_map]
    congr 1
    apply List.map_congr_left
    intro c hm
    exact hc c hm
  refine ⟨?_, hlen, hbytes, ?_, ?_, ?_⟩
  · intro heq
    rw [heq] at hlen
    omega
  · intro hc
    rw [hbytes, hsame hc]
  · intro hc
    rw [hbytes, hsame (fun c hm => ToLower_utf8Size_ascii rt c (hc c hm))]
  · intro q heq
    have hdq := generateOutputFileName_data rt q e h
    have hL : specBase rt p.data ++ (('_' :: (strings.ToLower rt e).data) ++ specExt rt p.data) =
        specBase rt q.data ++ (('_' :: (strings.ToLower rt e).data) ++ specExt rt q.data) := by
      have := hd.symm.trans ((congrArg String.data heq).trans hdq)
      simpa using this
    apply String.ext
    rcases Nat.le_total (specExt rt q.data).length (specExt rt p.data).length with hle | hle
    · exact suffix_form_cancel rt _ _ _ hL hle
    · exact (suffix_form_cancel rt _ _ _ hL.symm hle).symm

/-- Witness of C27 (amended) with the encoding "GBK": "a.txt" and "a" have
different output paths, each four bytes longer than the input, and so have
"a_gbk.txt" and "a.txt"; with the encoding "x.y", which holds a dot, "a" and
"a_x.y" have different output paths too. -/
theorem generateOutputFileName_injective_witness :
    strings.ToUpper unixASCII "GBK" ≠ "UTF-8" ∧
      generateOutputFileName unixASCII "a.txt" "GBK" = "a_gbk.txt" ∧
      generateOutputFileName unixASCII "a" "GBK" = "a_gbk" ∧
      generateOutputFileName unixASCII "a_gbk.txt" "GBK" = "a_gbk_gbk.txt" ∧
      generateOutputFileName unixASCII "a" "x.y" = "a_x.y" ∧
      generateOutputFileName unixASCII "a_x.y" "x.y" = "a_x_x.y.y" ∧
      len (generateOutputFileName unixASCII "a.txt" "GBK") = len "a.txt" + (1 + len "GBK") ∧
      (∀ q, generateOutputFileName unixASCII "a.txt" "GBK" =
        generateOutputFileName unixASCII q "GBK" → "a.txt" = q) :=
  ⟨by decide, by decide, by decide, by decide, by decide, by decide,
    (generateOutputFileName_injective unixASCII "GBK" (by decide) "a.txt").2.2.2.2.1 (by decide),
    (generateOutputFileName_injective unixASCII "GBK" (by decide) "a.txt").2.2.2.2.2⟩

/-! ## Batch orchestrator: the counters against the lists -/

section Bytes

variable {σ : Type} {env : Env σ} {config : Config} {cap : Nat} {files : List String}

theorem wrapInt64_add_wrap (a b : Int) : wrapInt64 (wrapInt64 a + b) = wrapInt64 (a + b) := by
  unfold wrapInt64
  norm_num
  omega

theorem wrapInt64_of_int64 (x : Int) (h0 : -2 ^ 63 ≤ x) (h1 : x < 2 ^ 63) : wrapInt64 x = x := by
  unfold wrapInt64
  norm_num at h0 h1 ⊢
  omega

theorem sumBytes_append (rs : List ConvertResult) (r : ConvertResult) :
    sumBytes (rs ++ [r]) = sumBytes rs + r.BytesProcessed := by
  simp [sumBytes]

theorem workerStep_totalBytes (i : Nat) (w : Worker) (g : Shared σ) (pc : PC) (g' : Shared σ)
    (_ : WorkerOK config files i w)
    (hg : g.batchResult.TotalBytes = wrapInt64 (sumBytes g.batchResult.Results))
    (h : workerStep env config cap files.length w g = some (pc, g')) :
    g'.batchResult.TotalBytes = wrapInt64 (sumBytes g'.batchResult.Results) := by
  obtain ⟨idx, path, wpc⟩ := w
  cases wpc <;> simp only [workerStep] at h <;> (try split at h) <;> (try split at h) <;>
    simp at h <;> obtain ⟨rfl, rfl⟩ := h <;>
    first
      | exact hg
      | (simp only [recordSuccess, sumBytes_append]
         rw [hg, wrapInt64_add_wrap])

/-- At any moment of a run, `TotalBytes` is the `int64` sum of `BytesProcessed`
over the results recorded so far. -/
theorem reachable_totalBytes {world : σ} {m : Machine σ}
    (hr : Reachable env config cap files.length (initialMachine config world files) m) :
    m.shared.batchResult.TotalBytes = wrapInt64 (sumBytes m.shared.batchResult.Results) := by
  refine shared_invariant_ok
    (fun g => g.batchResult.TotalBytes = wrapInt64 (sumBytes g.batchResult.Results)) ?_ ?_ hr
  · intro i w g pc g' hw hg h
    exact workerStep_totalBytes i w g pc g' hw hg h
  · simp [initialMachine, sumBytes, wrapInt64]

end Bytes

section AggregateClaims

variable {σ : Type} (env : Env σ) (world : σ) (sched : List Nat) (files : List String)
  (options : List ConfigOption)

/-- C28 as stated fails: `TotalBytes` is an `int64` and the addition of line
258 wraps.  With a transcoder that reports 2^62 processed bytes per file, two
files convert, the two results carry 2^62 bytes each, their sum is 2^63, and
`TotalBytes` of the returned aggregate is -2^63. -/
theorem ConvertFiles_totalBytes_wraps :
    (ConvertFiles hugeEnv exampleFS [] ["a.txt", "b.txt"] []).result.map
        (fun b => (b.SuccessfulFiles, b.Results.map (fun r => r.BytesProcessed), b.TotalBytes)) =
      some (2, [4611686018427387904, 4611686018427387904], -9223372036854775808) ∧
    (ConvertFiles hugeEnv exampleFS [] ["a.txt", "b.txt"] []).result.map
        (fun b => sumBytes b.Results) = some 9223372036854775808 := by
  decide

/-- C28 (amended): for every non-empty file list, in every world and under
every schedule, whenever `ConvertFiles` returns an aggregate (it does when the
limit is positive), `SuccessfulFiles == len(Results)`,
`FailedFiles == len(Errors)`, and `TotalBytes` is the `int64` sum of
`BytesProcessed` over the entries of `Results`, in whatever order the
goroutines completed: the sum reduced into the range of `int64`, which is the
sum itself whenever the sum lies in that range. -/
theorem ConvertFiles_aggregate (hne : files ≠ []) :
    (0 < (applyOptions env.rt options).ConcurrencyLimit →
      ∃ b m, ConvertFiles env world sched files options = .returned (some b) none m) ∧
    (∀ b, (ConvertFiles env world sched files options).result = some b →
      b.SuccessfulFiles = b.Results.length ∧
      b.FailedFiles = b.Errors.length ∧
      b.TotalBytes = wrapInt64 (sumBytes b.Results) ∧
      (-2 ^ 63 ≤ sumBytes b.Results → sumBytes b.Results < 2 ^ 63 →
        b.TotalBytes = sumBytes b.Results)) := by
  refine ⟨ConvertFiles_returns env world sched files options hne, ?_⟩
  intro b h
  obtain ⟨m, hm⟩ := ConvertFiles_result env world sched files options hne h
  obtain ⟨_, hb, _, hr⟩ := ConvertFiles_returned env world sched files options hne hm
  have hb' := Option.some.inj hb
  subst hb'
  have hs := reachable_sharedOK hr
  have ht := reachable_totalBytes hr
  refine ⟨hs.successful, hs.failed, ht, ?_⟩
  intro h0 h1
  show m.shared.batchResult.TotalBytes = sumBytes m.shared.batchResult.Results
  rw [ht]
  exact wrapInt64_of_int64 _ h0 h1

/-- Witness of C28 (amended) on the example list: two results of one byte
each, two errors, and a byte total of two. -/
theorem ConvertFiles_aggregate_witness :
    exampleFiles ≠ [] ∧
      (ConvertFiles memEnv exampleFS [] exampleFiles []).result.map
        (fun b => (b.SuccessfulFiles, b.Results.length, b.FailedFiles, b.Errors.length,
          b.TotalBytes, sumBytes b.Results)) = some (2, 2, 2, 2, 2, 2) ∧
      ∀ b, (ConvertFiles memEnv exampleFS [] exampleFiles []).result = some b →
        b.SuccessfulFiles = b.Results.length ∧ b.FailedFiles = b.Errors.length ∧
        b.TotalBytes = wrapInt64 (sumBytes b.Results) :=
  ⟨by decide, by decide, fun b h =>
    ⟨((ConvertFiles_aggregate memEnv exampleFS [] exampleFiles [] (by decide)).2 b h).1,
      ((ConvertFiles_aggregate memEnv exampleFS [] exampleFiles [] (by decide)).2 b h).2.1,
      ((ConvertFiles_aggregate memEnv exampleFS [] exampleFiles [] (by decide)).2 b h).2.2.1⟩⟩

end AggregateClaims

/-! ## Directory discovery: the paths of the walk -/

section Paths

variable (rt : GoPlatform)

theorem Separator_isSep : os.IsPathSeparator rt (filepath.Separator rt) = true := by
  cases h : rt.windows <;> simp [os.IsPathSeparator, filepath.Separator, h]

theorem elements_ne_nil (p : List Char) : filepath.elements rt p ≠ [] := by
  cases p with
  | nil => simp [filepath.elements]
  | cons c cs =>
    simp only [filepath.elements]
    split
    · simp
    · split <;> simp

theorem elements_noSep (n : List Char) (hn : ∀ c ∈ n, os.IsPathSeparator rt c = false) :
    filepath.elements rt n = [n] := by
  induction n with
  | nil => rfl
  | cons c cs ih =>
    have hc := hn c (List.mem_cons_self _ _)
    have := ih (fun d hd => hn d (List.mem_cons_of_mem _ hd))
    simp [filepath.elements, hc, this]

theorem elements_append_sep (x n : List Char) (s : Char) (hs : os.IsPathSeparator rt s = true)
    (hn : ∀ c ∈ n, os.IsPathSeparator rt c = false) :
    filepath.elements rt (x ++ s :: n) = filepath.elements rt x ++ [n] := by
  induction x with
  | nil => simp [filepath.elements, hs, elements_noSep rt n hn]
  | cons c cs ih =>
    by_cases hc : os.IsPathSeparator rt c = true
    · simp [filepath.elements, hc, ih]
    · simp only [List.cons_append, filepath.elements, hc, Bool.false_eq_true, ↓reduceIte]
      have ih2 : filepath.elements rt (cs.append (s :: n)) = filepath.elements rt cs ++ [n] := ih
      rw [ih2]
      cases he : filepath.elements rt cs with
      | nil => exact absurd he (elements_ne_nil rt cs)
      | cons e es => simp

theorem elements_cons_sep (e y : List Char) (s : Char) (hs : os.IsPathSeparator rt s = true)
    (he : ∀ c ∈ e, os.IsPathSeparator rt c = false) :
    filepath.elements rt (e ++ s :: y) = e :: filepath.elements rt y := by
  induction e with
  | nil => simp [filepath.elements, hs]
  | cons c cs ih =>
    have hc := he c (List.mem_cons_self _ _)
    have := ih (fun d hd => he d (List.mem_cons_of_mem _ hd))
    simp [filepath.elements, hc, this]

theorem elements_mem_noSep (p : List Char) :
    ∀ e ∈ filepath.elements rt p, ∀ c ∈ e, os.IsPathSeparator rt c = false := by
  induction p with
  | nil => simp [filepath.elements]
  | cons c cs ih =>
    intro e he
    simp only [filepath.elements] at he
    split at he
    · rcases List.mem_cons.mp he with h | h
      · subst h; simp
      · exact ih e h
    · rename_i hc
      cases hel : filepath.elements rt cs with
      | nil => exact absurd hel (elements_ne_nil rt cs)
      | cons e0 es =>
        rw [hel] at he ih
        simp only [List.mem_cons] at he
        rcases he with h | h
        · subst h
          intro d hd
          rcases List.mem_cons.mp hd with h' | h'
          · subst h'; simpa using hc
          · exact ih e0 (List.mem_cons_self _ _) d h'
        · exact ih e (List.mem_cons_of_mem _ h)

theorem elements_render (l : List (List Char)) (hne : l ≠ [])
    (hl : ∀ e ∈ l, ∀ c ∈ e, os.IsPathSeparator rt c = false) :
    filepath.elements rt (filepath.Clean.render (filepath.Separator rt) l) = l := by
  induction l with
  | nil => exact absurd rfl hne
  | cons e es ih =>
    cases es with
    | nil =>
      simp only [filepath.Clean.render]
      exact elements_noSep rt e (hl e (List.mem_cons_self _ _))
    | cons e2 es2 =>
      simp only [filepath.Clean.render]
      rw [elements_cons_sep rt e _ _ (Separator_isSep rt) (hl e (List.mem_cons_self _ _))]
      rw [ih (by simp) (fun x hx => hl x (List.mem_cons_of_mem _ hx))]

theorem weight_append (a b : List (List Char)) :
    filepath.Clean.weight (a ++ b) = filepath.Clean.weight a + filepath.Clean.weight b := by
  simp [filepath.Clean.weight]

theorem weight_single_le (e : List Char) : filepath.Clean.weight [e] ≤ 1 := by
  simp only [filepath.Clean.weight, List.map_cons, List.map_nil, List.sum_cons, List.sum_nil]
  split
  · omega
  · split <;> omega

theorem weight_dropLast (out : List (List Char)) :
    filepath.Clean.weight out - 1 ≤ filepath.Clean.weight out.dropLast := by
  rcases List.eq_nil_or_concat out with h | ⟨l, e, h⟩
  · subst h; simp [filepath.Clean.weight]
  · subst h
    have := weight_single_le e
    simp only [List.concat_eq_append, List.dropLast_concat, weight_append]
    omega

/-- A round of the loop never counts for less than the element it reads. -/
theorem step_weight (rooted : Bool) (out : List (List Char)) (e : List Char) :
    filepath.Clean.weight out + filepath.Clean.weight [e] ≤
      filepath.Clean.weight (filepath.Clean.step rooted out e) := by
  have hd := weight_dropLast out
  unfold filepath.Clean.step
  by_cases h1 : e = [] ∨ e = ['.']
  · have hw : filepath.Clean.weight [e] = 0 := by
      rcases h1 with h | h <;> subst h <;> rfl
    simp only [h1, ↓reduceIte]
    omega
  · by_cases h2 : e = ['.', '.']
    · subst h2
      have hw : filepath.Clean.weight [['.', '.']] = -1 := rfl
      simp only [h1, ↓reduceIte]
      split
      · split
        · omega
        · have := weight_append out [['.', '.']]
          omega
      · split
        · split
          · omega
          · have := weight_append out [['.', '.']]
            omega
        · omega
    · have hw : filepath.Clean.weight [e] = 1 := by
        simp only [filepath.Clean.weight, List.map_cons, List.map_nil, List.sum_cons,
          List.sum_nil, h2, h1, ↓reduceIte]
        rfl
      simp only [h1, h2, ↓reduceIte, weight_append]
      omega

theorem foldl_weight (rooted : Bool) (es : List (List Char)) (acc : List (List Char)) :
    filepath.Clean.weight acc + filepath.Clean.weight es ≤
      filepath.Clean.weight (es.foldl (filepath.Clean.step rooted) acc) := by
  induction es generalizing acc with
  | nil => simp [filepath.Clean.weight]
  | cons e es ih =>
    have h1 := step_weight rooted acc e
    have h2 := ih (filepath.Clean.step rooted acc e)
    have h3 : filepath.Clean.weight (e :: es) =
        filepath.Clean.weight [e] + filepath.Clean.weight es := weight_append [e] es
    simp only [List.foldl_cons]
    omega

theorem step_mem (rooted : Bool) (out : List (List Char)) (e x : List Char)
    (hx : x ∈ filepath.Clean.step rooted out e) : x ∈ out ∨ x = e := by
  unfold filepath.Clean.step at hx
  split at hx
  · exact Or.inl hx
  · split at hx
    · split at hx
      · split at hx
        · exact Or.inl hx
        · simpa using hx
      · split at hx
        · split at hx
          · exact Or.inl hx
          · simpa using hx
        · exact Or.inl (List.dropLast_subset _ hx)
    · simpa using hx

theorem foldl_mem (rooted : Bool) (es : List (List Char)) (acc : List (List Char))
    (x : List Char) (hx : x ∈ es.foldl (filepath.Clean.step rooted) acc) : x ∈ acc ∨ x ∈ es := by
  induction es generalizing acc with
  | nil => exact Or.inl hx
  | cons e es ih =>
    simp only [List.foldl_cons] at hx
    rcases ih _ hx with h | h
    · rcases step_mem rooted acc e x h with h' | h'
      · exact Or.inl h'
      · exact Or.inr (h' ▸ List.mem_cons_self _ _)
    · exact Or.inr (List.mem_cons_of_mem _ h)

theorem IsName_spec (name : String) (h : filepath.IsName rt name = true) :
    name.data ≠ [] ∧ name.data ≠ ['.'] ∧ name.data ≠ ['.', '.'] ∧
      ∀ c ∈ name.data, os.IsPathSeparator rt c = false := by
  simp only [filepath.IsName, Bool.and_eq_true, bne_iff_ne, ne_eq, List.all_eq_true,
    Bool.not_eq_true'] at h
  obtain ⟨⟨⟨h1, h2⟩, h3⟩, h4⟩ := h
  refine ⟨?_, ?_, ?_, h4⟩
  · intro hd; exact h1 (String.ext hd)
  · intro hd; exact h2 (String.ext hd)
  · intro hd; exact h3 (String.ext hd)

/-- The path of an entry is never the path of its directory: cleaning
`dir/name` leaves a path that counts one element more than `dir` does. -/
theorem Join_ne (dir name : String) (h : filepath.IsName rt name = true) :
    filepath.Join rt dir name ≠ dir := by
  obtain ⟨hn1, hn2, hn3, hn4⟩ := IsName_spec rt name h
  have hstep : ∀ rooted out, filepath.Clean.step rooted out name.data = out ++ [name.data] := by
    intro rooted out
    simp [filepath.Clean.step, hn1, hn2, hn3]
  unfold filepath.Join
  by_cases hd : dir = ""
  · subst hd
    have hne : name ≠ "" := fun hnm => hn1 (by rw [hnm])
    simp only [ne_eq, not_true_eq_false, ↓reduceIte, hne, not_false_eq_true]
    intro hc
    have := congrArg String.data hc
    simp only [filepath.Clean, elements_noSep rt name.data hn4, List.foldl_cons, List.foldl_nil,
      hstep] at this
    cases hdat : name.data with
    | nil => exact hn1 hdat
    | cons c cs =>
      have hcsep := hn4 c (by rw [hdat]; exact List.mem_cons_self _ _)
      simp [hdat, hcsep, filepath.Clean.render] at this
  · simp only [ne_eq, hd, not_false_eq_true, ↓reduceIte]
    intro hc
    have hdat := congrArg String.data hc
    have hddata : dir.data ≠ [] := fun h0 => hd (String.ext h0)
    obtain ⟨c0, cs0, hdc⟩ := List.exists_cons_of_ne_nil hddata
    have hel : filepath.elements rt
        (dir ++ String.singleton (filepath.Separator rt) ++ name).data =
        filepath.elements rt dir.data ++ [name.data] := by
      have : (dir ++ String.singleton (filepath.Separator rt) ++ name).data =
          dir.data ++ filepath.Separator rt :: name.data := by
        simp [String.singleton]
      rw [this, elements_append_sep rt _ _ _ (Separator_isSep rt) hn4]
    have hhead : (dir ++ String.singleton (filepath.Separator rt) ++ name).data.head? =
        dir.data.head? := by
      simp [hdc]
    simp only [filepath.Clean, hel, hhead, List.foldl_append, List.foldl_cons, List.foldl_nil,
      hstep] at hdat
    -- the stack after the elements of `dir`
    generalize hst : (filepath.elements rt dir.data).foldl
      (filepath.Clean.step (dir.data.head?.map (os.IsPathSeparator rt) == some true)) [] = st
      at hdat
    have hw := foldl_weight (dir.data.head?.map (os.IsPathSeparator rt) == some true)
      (filepath.elements rt dir.data) []
    rw [hst] at hw
    have hsep : ∀ e ∈ st ++ [name.data], ∀ c ∈ e, os.IsPathSeparator rt c = false := by
      intro e he
      rcases List.mem_append.mp he with h1 | h1
      · rw [← hst] at h1
        rcases foldl_mem _ _ _ _ h1 with h2 | h2
        · exact absurd h2 (List.not_mem_nil _)
        · exact elements_mem_noSep rt dir.data e h2
      · rw [List.mem_singleton.mp h1]
        exact hn4
    have hrender := elements_render rt (st ++ [name.data]) (by simp) hsep
    have hwn : filepath.Clean.weight [name.data] = 1 := by
      simp only [filepath.Clean.weight, List.map_cons, List.map_nil, List.sum_cons, List.sum_nil,
        hn1, hn2, hn3, false_or, ↓reduceIte]
      rfl
    have hw0 : filepath.Clean.weight ([] : List (List Char)) = 0 := rfl
    have hwnil : filepath.Clean.weight [([] : List Char)] = 0 := rfl
    split at hdat
    · -- rooted
      have h2 := congrArg (filepath.elements rt) hdat
      simp only [filepath.elements, Separator_isSep, ↓reduceIte, hrender] at h2
      have h3 := congrArg filepath.Clean.weight h2
      rw [show ([] : List Char) :: (st ++ [name.data]) = [[]] ++ (st ++ [name.data]) from rfl,
        weight_append, weight_append] at h3
      omega
    · simp only [List.append_eq_nil, List.cons_ne_self, and_false, ↓reduceIte] at hdat
      have h2 := congrArg (filepath.elements rt) hdat
      rw [hrender] at h2
      have h3 := congrArg filepath.Clean.weight h2
      rw [weight_append] at h3
      omega

end Paths

/-! ## Directory discovery: the walk against the words of the specification -/

section Discovery

variable (rt : GoPlatform) (dirPath : String) (config : Config)

theorem HasPrefix_dot (name : String) : strings.HasPrefix name "." = isHiddenName name := by
  unfold strings.HasPrefix isHiddenName
  cases h : name.data with
  | nil => rfl
  | cons c l =>
    show (['.'].isPrefixOf (c :: l)) = _
    by_cases hc : c = '.'
    · subst hc; simp [List.isPrefixOf]
    · have : ¬ ('.' = c) := fun h => hc h.symm
      simp [List.isPrefixOf, hc, this]

/-- The selection discovery makes among candidates. -/
theorem visit_file (path name : String) (size : Int) (regular : Bool) (files : List String) :
    collectFiles.visit dirPath config path (some ⟨name, size, false, regular⟩) none files =
      (files ++ (([(path, (⟨name, size, false, regular⟩ : FileInfo))].filter
        (eligible config)).map Prod.fst), none) := by
  have he : eligible config (path, (⟨name, size, false, regular⟩ : FileInfo)) =
      (!(config.SkipHidden && isHiddenName name) &&
        !(decide (0 < config.MaxFileSize) && decide (config.MaxFileSize < size)) &&
        !filterRejects config path) := rfl
  have hgt : decide (config.MaxFileSize > 0) = decide (0 < config.MaxFileSize) := rfl
  have hgt2 : decide (size > config.MaxFileSize) = decide (config.MaxFileSize < size) := rfl
  simp only [collectFiles.visit, HasPrefix_dot, List.filter_cons, List.filter_nil, he, hgt, hgt2]
  cases (config.SkipHidden && isHiddenName name) <;>
    cases (decide (0 < config.MaxFileSize) && decide (config.MaxFileSize < size)) <;>
    cases filterRejects config path <;> simp

theorem visit_dir_shallow (hrec : config.Recursive = false) (path name : String)
    (hp : path ≠ dirPath) (files : List String) :
    collectFiles.visit dirPath config path (some ⟨name, 0, true, false⟩) none files =
      (files, some .SkipDir) := by
  simp [collectFiles.visit, hrec, hp]

theorem visit_dir_root (name : String) (files : List String) :
    collectFiles.visit dirPath config dirPath (some ⟨name, 0, true, false⟩) none files =
      (files, none) := by
  simp [collectFiles.visit]

theorem visit_dir_deep (hrec : config.Recursive = true) (path name : String)
    (files : List String) :
    collectFiles.visit dirPath config path (some ⟨name, 0, true, false⟩) none files =
      (files, none) := by
  simp [collectFiles.visit, hrec]

/-- With recursion off, the loop over the listing of the root selects among
the files directly in the root and enters no sub-directory. -/
theorem walkEntries_shallow (hrec : config.Recursive = false) :
    ∀ (ts : List FileTree) (acc : List String), FileTree.intactAll rt ts = true →
      filepath.walkEntries rt (collectFiles.visit dirPath config) dirPath ts acc =
        (acc ++ ((FileTree.filesIn rt false dirPath ts).filter (eligible config)).map Prod.fst,
          none)
  | [], acc, _ => by simp [filepath.walkEntries, FileTree.filesIn]
  | .broken _ _ :: rest, acc, h => by simp [FileTree.intactAll, FileTree.intact] at h
  | .file name size regular :: rest, acc, h => by
    simp only [FileTree.intactAll, Bool.and_eq_true] at h
    simp only [filepath.walkEntries, filepath.walk, visit_file]
    rw [walkEntries_shallow hrec rest _ h.2]
    simp only [FileTree.filesIn, FileTree.filesAt, FileTree.name, List.append_assoc]
    rw [← List.map_append, ← List.filter_append]
  | .dir name readErr entries :: rest, acc, h => by
    simp only [FileTree.intactAll, FileTree.intact, Bool.and_eq_true,
      Option.isNone_iff_eq_none] at h
    obtain ⟨⟨⟨h1, h3⟩, _⟩, h5⟩ := h
    subst h3
    have hp := Join_ne rt dirPath name h1
    simp only [filepath.walkEntries, filepath.walk, visit_dir_shallow dirPath config hrec _ _ hp]
    rw [walkEntries_shallow hrec rest _ h5]
    simp [FileTree.filesIn, FileTree.filesAt, FileTree.name]

mutual

/-- With recursion on, the walk of an intact tree selects among the files of
the tree at every depth. -/
theorem walk_deep (hrec : config.Recursive = true) :
    ∀ (t : FileTree) (path : String) (acc : List String), t.intact rt = true →
      filepath.walk rt (collectFiles.visit dirPath config) path t acc =
        (acc ++ ((FileTree.filesAt rt true path t).filter (eligible config)).map Prod.fst,
          none)
  | .file name size regular, path, acc, _ => by
    simp only [filepath.walk, visit_file, FileTree.filesAt]
  | .broken _ _, path, acc, h => by simp [FileTree.intact] at h
  | .dir name readErr entries, path, acc, h => by
    simp only [FileTree.intact, Bool.and_eq_true, Option.isNone_iff_eq_none] at h
    obtain ⟨⟨_, h3⟩, h4⟩ := h
    subst h3
    simp only [filepath.walk, visit_dir_deep dirPath config hrec]
    rw [walkEntries_deep hrec entries path acc h4]
    simp [FileTree.filesAt]

theorem walkEntries_deep (hrec : config.Recursive = true) :
    ∀ (ts : List FileTree) (path : String) (acc : List String),
      FileTree.intactAll rt ts = true →
      filepath.walkEntries rt (collectFiles.visit dirPath config) path ts acc =
        (acc ++ ((FileTree.filesIn rt true path ts).filter (eligible config)).map Prod.fst,
          none)
  | [], path, acc, _ => by simp [filepath.walkEntries, FileTree.filesIn]
  | .broken _ _ :: rest, path, acc, h => by simp [FileTree.intactAll, FileTree.intact] at h
  | .file name size regular :: rest, path, acc, h => by
    simp only [FileTree.intactAll, Bool.and_eq_true] at h
    simp only [filepath.walkEntries, filepath.walk, visit_file]
    rw [walkEntries_deep hrec rest path _ h.2]
    simp only [FileTree.filesIn, FileTree.filesAt, FileTree.name, List.append_assoc]
    rw [← List.map_append, ← List.filter_append]
  | .dir name readErr entries :: rest, path, acc, h => by
    simp only [FileTree.intactAll, Bool.and_eq_true] at h
    simp only [filepath.walkEntries]
    rw [walk_deep hrec (.dir name readErr entries) _ acc h.1]
    simp only
    rw [walkEntries_deep hrec rest path _ h.2]
    simp [FileTree.filesIn, FileTree.name]

end

/-- What `collectFiles` returns for an intact directory: of the files directly
in it, and with recursion on of the files at every depth, those that
discovery keeps, in the order of the walk, and no error. -/
theorem collectFiles_eq (name : String) (entries : List FileTree)
    (h : FileTree.intactAll rt entries = true) :
    collectFiles rt (.dir name none entries) dirPath config =
      (((FileTree.filesIn rt config.Recursive dirPath entries).filter (eligible config)).map
        Prod.fst, none) := by
  unfold collectFiles filepath.Walk
  simp only [filepath.walk, visit_dir_root]
  cases hrec : config.Recursive with
  | false =>
    simp [walkEntries_shallow rt dirPath config hrec entries [] h]
  | true =>
    simp [walkEntries_deep rt dirPath config hrec entries dirPath [] h]

end Discovery

section WalkInvariant

variable {α : Type} (rt : GoPlatform) (walkFn : filepath.WalkFunc α) (I : α → Prop)

mutual

/-- What every call of the callback preserves holds after the walk of any tree. -/
theorem walk_preserves (hfn : ∀ path info err a, I a → I (walkFn path info err a).1) :
    ∀ (t : FileTree) (path : String) (a : α), I a → I (filepath.walk rt walkFn path t a).1
  | .file name size regular, path, a, ha => by
    simp only [filepath.walk]
    exact hfn _ _ _ _ ha
  | .broken _ err, path, a, ha => by
    simp only [filepath.walk]
    exact hfn _ _ _ _ ha
  | .dir name readErr entries, path, a, ha => by
    simp only [filepath.walk]
    have h1 := hfn path (some ⟨name, 0, true, false⟩) readErr a ha
    rcases hres : walkFn path (some ⟨name, 0, true, false⟩) readErr a with ⟨a1, e⟩
    rw [hres] at h1
    cases e with
    | some e1 => exact h1
    | none =>
      simp only
      split
      · exact h1
      · exact walkEntries_preserves hfn entries path a1 h1

theorem walkEntries_preserves (hfn : ∀ path info err a, I a → I (walkFn path info err a).1) :
    ∀ (ts : List FileTree) (path : String) (a : α), I a →
      I (filepath.walkEntries rt walkFn path ts a).1
  | [], path, a, ha => by
    simp only [filepath.walkEntries]
    exact ha
  | .broken name err :: rest, path, a, ha => by
    simp only [filepath.walkEntries]
    have h1 := hfn (filepath.Join rt path name) none (some err) a ha
    rcases hres : walkFn (filepath.Join rt path name) none (some err) a with ⟨a1, e⟩
    rw [hres] at h1
    rcases e with _ | _ | e1
    · exact walkEntries_preserves hfn rest path a1 h1
    · exact walkEntries_preserves hfn rest path a1 h1
    · exact h1
  | .file name size regular :: rest, path, a, ha => by
    simp only [filepath.walkEntries]
    have h1 := walk_preserves hfn (.file name size regular) (filepath.Join rt path name) a ha
    rcases hres : filepath.walk rt walkFn (filepath.Join rt path name)
      (.file name size regular) a with ⟨a1, e⟩
    rw [hres] at h1
    cases e with
    | some e1 => exact h1
    | none => exact walkEntries_preserves hfn rest path a1 h1
  | .dir name readErr entries :: rest, path, a, ha => by
    simp only [filepath.walkEntries]
    have h1 := walk_preserves hfn (.dir name readErr entries) (filepath.Join rt path name) a ha
    rcases hres : filepath.walk rt walkFn (filepath.Join rt path name)
      (.dir name readErr entries) a with ⟨a1, e⟩
    rw [hres] at h1
    rcases e with _ | _ | e1
    · exact walkEntries_preserves hfn rest path a1 h1
    · exact walkEntries_preserves hfn rest path a1 h1
    · exact h1

end

theorem Walk_preserves (hfn : ∀ path info err a, I a → I (walkFn path info err a).1)
    (root : String) (tree : FileTree) (a : α) (ha : I a) :
    I (filepath.Walk rt root tree walkFn a).1 := by
  unfold filepath.Walk
  have h1 := walk_preserves rt walkFn I hfn tree root a ha
  rcases hres : filepath.walk rt walkFn root tree a with ⟨a1, e⟩
  rw [hres] at h1
  rcases e with _ | _ | e1 <;> exact h1

end WalkInvariant

/-- Whatever the tree, every path `collectFiles` returns is one the filter
predicate accepts. -/
theorem collectFiles_accepted (rt : GoPlatform) (tree : FileTree) (dirPath : String)
    (config : Config) :
    ∀ p ∈ (collectFiles rt tree dirPath config).1, filterRejects config p = false := by
  unfold collectFiles
  apply Walk_preserves rt (collectFiles.visit dirPath config)
    (fun files => ∀ p ∈ files, filterRejects config p = false)
  · intro path info err files hfiles
    unfold collectFiles.visit
    split
    · exact hfiles
    · exact hfiles
    · split
      · split <;> exact hfiles
      · split
        · exact hfiles
        · split
          · exact hfiles
          · split
            · exact hfiles
            · rename_i hrej
              intro p hp
              simp only [List.mem_append, List.mem_singleton] at hp
              rcases hp with hp | hp
              · exact hfiles p hp
              · subst hp
                simpa using hrej
  · intro p hp
    exact absurd hp (List.not_mem_nil _)

section DirectoryRuns

variable {σ : Type} (env : DirEnv σ) (world : σ) (sched : List Nat) (dirPath : String)
  (options : List ConfigOption)

/-- What a returned aggregate of `ConvertFiles` on a non-empty list says of the list. -/
theorem ConvertFiles_summary (env : Env σ) (files : List String) (hne : files ≠ [])
    {b : BatchResult} (h : (ConvertFiles env world sched files options).result = some b) :
    b.TotalFiles = files.length ∧
      b.SkippedFiles = files.countP (filterRejects (applyOptions env.rt options)) ∧
      b.ProcessedFiles = b.SkippedFiles + b.SuccessfulFiles ∧
      b.SuccessfulFiles = b.Results.length ∧
      b.FailedFiles = b.Errors.length ∧
      b.SkippedFiles + b.Results.length + b.Errors.length = files.length ∧
      (∀ r ∈ b.Results, r.InputFile ∈ files) ∧
      (∀ e ∈ b.Errors, e.File ∈ files) := by
  obtain ⟨m, hm⟩ := ConvertFiles_result env world sched files options hne h
  obtain ⟨_, hb, hd, hr⟩ := ConvertFiles_returned env world sched files options hne hm
  have hb' := Option.some.inj hb
  subst hb'
  have hs := reachable_sharedOK hr
  have hperm := final_perm hr hd
  refine ⟨hs.totalFiles, final_skipped hr hd, hs.processed, hs.successful, hs.failed,
    final_total hr hd, ?_, ?_⟩
  · intro r hrm
    apply hperm.mem_iff.mpr
    apply List.mem_append_left
    apply List.mem_append_right
    exact List.mem_map_of_mem _ hrm
  · intro e hem
    apply hperm.mem_iff.mpr
    apply List.mem_append_right
    exact List.mem_map_of_mem _ hem

/-- The ways a call of `ConvertDirectory` goes. -/
theorem ConvertDirectory_cases :
    (env.IsNotExist world dirPath = true ∧
      ConvertDirectory env world sched dirPath options =
        .returned none (some ("directory does not exist: " ++ dirPath)) (idleMachine world)) ∨
    (env.IsNotExist world dirPath = false ∧
      ∃ files, (∃ err,
        collectFiles env.rt (env.Tree world dirPath) dirPath (applyOptions env.rt options) =
          (files, some err) ∧
        ConvertDirectory env world sched dirPath options =
          .returned none
            (some ("failed to collect files from directory " ++ dirPath ++ ": " ++ err))
            (idleMachine world)) ∨
      (collectFiles env.rt (env.Tree world dirPath) dirPath (applyOptions env.rt options) =
          (files, none) ∧
        ((files = [] ∧
          ConvertDirectory env world sched dirPath options =
            .returned (some ⟨0, 0, 0, 0, 0, 0, 0, [], []⟩) none (idleMachine world)) ∨
        (files ≠ [] ∧
          ConvertDirectory env world sched dirPath options =
            ConvertFiles env.toEnv world sched files options)))) := by
  unfold ConvertDirectory
  cases hex : env.IsNotExist world dirPath with
  | true => left; simp
  | false =>
    right
    refine ⟨rfl, ?_⟩
    rcases hc : collectFiles env.rt (env.Tree world dirPath) dirPath
      (applyOptions env.rt options) with ⟨files, e⟩
    refine ⟨files, ?_⟩
    cases e with
    | some err => left; exact ⟨err, rfl, by simp [hc]⟩
    | none =>
      right
      refine ⟨rfl, ?_⟩
      cases files with
      | nil => left; simp [hc]
      | cons f fs => right; simp [hc]

/-- A returned aggregate of `ConvertDirectory` is the empty one, for an empty
list of discovered files, or the one `ConvertFiles` returns for the list. -/
theorem ConvertDirectory_result {b : BatchResult}
    (h : (ConvertDirectory env world sched dirPath options).result = some b) :
    env.IsNotExist world dirPath = false ∧
    ∃ files,
      collectFiles env.rt (env.Tree world dirPath) dirPath (applyOptions env.rt options) =
        (files, none) ∧
      ((files = [] ∧ b = ⟨0, 0, 0, 0, 0, 0, 0, [], []⟩) ∨
        (files ≠ [] ∧ (ConvertFiles env.toEnv world sched files options).result = some b)) := by
  rcases ConvertDirectory_cases env world sched dirPath options with
    ⟨_, hc⟩ | ⟨hex, files, ⟨err, _, hc⟩ | ⟨hcol, ⟨hnil, hc⟩ | ⟨hne, hc⟩⟩⟩
  · rw [hc] at h; simp [Outcome.result] at h
  · rw [hc] at h; simp [Outcome.result] at h
  · rw [hc] at h
    simp only [Outcome.result, Option.some.injEq] at h
    exact ⟨hex, files, hcol, Or.inl ⟨hnil, h.symm⟩⟩
  · rw [hc] at h
    exact ⟨hex, files, hcol, Or.inr ⟨hne, h⟩⟩

/-- What a returned aggregate of `ConvertDirectory` says of the discovered list. -/
theorem ConvertDirectory_summary {b : BatchResult}
    (h : (ConvertDirectory env world sched dirPath options).result = some b) :
    b.TotalFiles =
        (collectFiles env.rt (env.Tree world dirPath) dirPath
          (applyOptions env.rt options)).1.length ∧
      b.SkippedFiles = 0 ∧
      b.ProcessedFiles = b.SuccessfulFiles ∧
      b.SuccessfulFiles = b.Results.length ∧
      b.FailedFiles = b.Errors.length ∧
      b.Results.length + b.Errors.length = b.TotalFiles ∧
      (∀ r ∈ b.Results, r.InputFile ∈
        (collectFiles env.rt (env.Tree world dirPath) dirPath
          (applyOptions env.rt options)).1) ∧
      (∀ e ∈ b.Errors, e.File ∈
        (collectFiles env.rt (env.Tree world dirPath) dirPath
          (applyOptions env.rt options)).1) := by
  obtain ⟨_, files, hcol, ⟨hnil, hb⟩ | ⟨hne, hb⟩⟩ :=
    ConvertDirectory_result env world sched dirPath options h
  · subst hb; subst hnil
    rw [hcol]
    simp
  · have hacc := collectFiles_accepted env.rt (env.Tree world dirPath) dirPath
      (applyOptions env.rt options)
    rw [hcol] at hacc ⊢
    obtain ⟨h1, h2, h3, h4, h5, h6, h7, h8⟩ :=
      ConvertFiles_summary world sched options env.toEnv files hne hb
    have hz : files.countP (filterRejects (applyOptions env.rt options)) = 0 := by
      rw [List.countP_eq_zero]
      intro f hf
      simp [hacc f hf]
    rw [hz] at h2
    refine ⟨h1, h2, by omega, h4, h5, by omega, h7, h8⟩

end DirectoryRuns

/-! ## Directory discovery: the candidates -/

theorem filesIn_mem (rt : GoPlatform) (deep : Bool) (path : String) (ts : List FileTree)
    (c : String × FileInfo) :
    c ∈ FileTree.filesIn rt deep path ts ↔
      ∃ t ∈ ts, c ∈ FileTree.filesAt rt deep (filepath.Join rt path t.name) t := by
  induction ts with
  | nil => simp [FileTree.filesIn]
  | cons t rest ih => simp [FileTree.filesIn, ih]

theorem filesIn_file (rt : GoPlatform) (deep : Bool) (path : String) (ts : List FileTree)
    (n : String) (size : Int) (regular : Bool) (h : FileTree.file n size regular ∈ ts) :
    (filepath.Join rt path n, (⟨n, size, false, regular⟩ : FileInfo)) ∈
      FileTree.filesIn rt deep path ts := by
  rw [filesIn_mem]
  exact ⟨_, h, by simp [FileTree.filesAt, FileTree.name]⟩

theorem filesIn_dir (rt : GoPlatform) (path : String) (ts : List FileTree)
    (n : String) (r : Option String) (es : List FileTree) (h : FileTree.dir n r es ∈ ts) :
    ∀ c ∈ FileTree.filesIn rt true (filepath.Join rt path n) es,
      c ∈ FileTree.filesIn rt true path ts := by
  intro c hc
  rw [filesIn_mem]
  exact ⟨_, h, by simpa [FileTree.filesAt, FileTree.name] using hc⟩

theorem filesIn_shallow (rt : GoPlatform) (path : String) (ts : List FileTree)
    (c : String × FileInfo) :
    c ∈ FileTree.filesIn rt false path ts ↔
      ∃ n size regular, FileTree.file n size regular ∈ ts ∧
        c = (filepath.Join rt path n, (⟨n, size, false, regular⟩ : FileInfo)) := by
  rw [filesIn_mem]
  constructor
  · rintro ⟨t, ht, hc⟩
    cases t with
    | file n size regular =>
      simp only [FileTree.filesAt, FileTree.name, List.mem_singleton] at hc
      exact ⟨n, size, regular, ht, hc⟩
    | dir n r es => simp [FileTree.filesAt] at hc
    | broken n e => simp [FileTree.filesAt] at hc
  · rintro ⟨n, size, regular, ht, rfl⟩
    exact ⟨_, ht, by simp [FileTree.filesAt, FileTree.name]⟩

mutual

theorem filesAt_not_dir (rt : GoPlatform) (deep : Bool) :
    ∀ (t : FileTree) (path : String), ∀ c ∈ FileTree.filesAt rt deep path t, c.2.IsDir = false
  | .file n size regular, path, c, hc => by
    simp only [FileTree.filesAt, List.mem_singleton] at hc
    rw [hc]
  | .broken _ _, path, c, hc => by simp [FileTree.filesAt] at hc
  | .dir n r es, path, c, hc => by
    simp only [FileTree.filesAt] at hc
    split at hc
    · exact filesIn_not_dir rt deep es path c hc
    · simp at hc

theorem filesIn_not_dir (rt : GoPlatform) (deep : Bool) :
    ∀ (ts : List FileTree) (path : String), ∀ c ∈ FileTree.filesIn rt deep path ts,
      c.2.IsDir = false
  | [], path, c, hc => by simp [FileTree.filesIn] at hc
  | t :: rest, path, c, hc => by
    simp only [FileTree.filesIn, List.mem_append] at hc
    rcases hc with hc | hc
    · exact filesAt_not_dir rt deep t _ c hc
    · exact filesIn_not_dir rt deep rest path c hc

end

theorem mem_collectFiles (rt : GoPlatform) (name : String) (entries : List FileTree)
    (dirPath : String) (config : Config) (h : FileTree.intactAll rt entries = true) (p : String) :
    p ∈ (collectFiles rt (.dir name none entries) dirPath config).1 ↔
      ∃ info, (p, info) ∈ FileTree.filesIn rt config.Recursive dirPath entries ∧
        eligible config (p, info) = true := by
  rw [collectFiles_eq rt dirPath config name entries h]
  simp only [List.mem_map, List.mem_filter, Prod.exists, exists_and_right, exists_eq_right]

/-! ## Directory discovery: the claims -/

/-- C22: on a Unix build target, for every root path (clean or not) and every
directory whose tree can be read, `collectFiles` returns no
error; with recursion off it returns exactly the paths of the files directly
in the root that discovery keeps (no sub-directory is entered, so no file at
depth two or more is returned); with recursion on it returns exactly the paths
of the files discovery keeps among the files at every depth: the files
directly in a directory belong to them, and so do those of each of its
sub-directories, whatever the path of the directory. -/
theorem collectFiles_depth (rt : GoPlatform) (name : String) (entries : List FileTree)
    (dirPath : String) (config : Config) (_hunix : rt.windows = false)
    (h : FileTree.intactAll rt entries = true) :
    (collectFiles rt (.dir name none entries) dirPath config).2 = none ∧
    (config.Recursive = false →
      ∀ p, p ∈ (collectFiles rt (.dir name none entries) dirPath config).1 ↔
        ∃ n size regular, FileTree.file n size regular ∈ entries ∧
          p = filepath.Join rt dirPath n ∧
          eligible config (p, ⟨n, size, false, regular⟩) = true) ∧
    (config.Recursive = true →
      ∀ p, p ∈ (collectFiles rt (.dir name none entries) dirPath config).1 ↔
        ∃ info, (p, info) ∈ FileTree.filesIn rt true dirPath entries ∧
          eligible config (p, info) = true) ∧
    (∀ path ts n size regular, FileTree.file n size regular ∈ ts →
      (filepath.Join rt path n, (⟨n, size, false, regular⟩ : FileInfo)) ∈
        FileTree.filesIn rt true path ts) ∧
    (∀ path ts n r es, FileTree.dir n r es ∈ ts →
      ∀ c ∈ FileTree.filesIn rt true (filepath.Join rt path n) es,
        c ∈ FileTree.filesIn rt true path ts) := by
  refine ⟨?_, ?_, ?_, ?_, ?_⟩
  · rw [collectFiles_eq rt dirPath config name entries h]
  · intro hrec p
    rw [mem_collectFiles rt name entries dirPath config h, hrec]
    constructor
    · rintro ⟨info, hmem, hel⟩
      obtain ⟨n, size, regular, ht, hc⟩ := (filesIn_shallow rt dirPath entries _).mp hmem
      simp only [Prod.mk.injEq] at hc
      obtain ⟨hp, hi⟩ := hc
      subst hi
      exact ⟨n, size, regular, ht, hp, hel⟩
    · rintro ⟨n, size, regular, ht, hp, hel⟩
      refine ⟨_, ?_, hel⟩
      rw [hp]
      exact filesIn_file rt false dirPath entries n size regular ht
  · intro hrec p
    rw [mem_collectFiles rt name entries dirPath config h, hrec]
  · intro path ts n size regular ht
    exact filesIn_file rt true path ts n size regular ht
  · intro path ts n r es ht
    exact filesIn_dir rt path ts n r es ht

/-- Witness of C22 on the directory of the repository's test: two text files
at the top level and two more in a sub-directory give two paths with
recursion off and four with recursion on, also from the root "./testdir",
whose paths the walk cleans. -/
theorem collectFiles_depth_witness :
    collectFiles unixASCII testTree "testdir" (getDefaultConfig unixASCII) =
        (["testdir/root1.txt", "testdir/root2.txt"], none) ∧
      collectFiles unixASCII testTree "testdir" (applyOptions unixASCII [WithRecursive true]) =
        (["testdir/root1.txt", "testdir/root2.txt", "testdir/subdir/sub1.txt",
          "testdir/subdir/sub2.txt"], none) ∧
      collectFiles unixASCII testTree "./testdir" (getDefaultConfig unixASCII) =
        (["testdir/root1.txt", "testdir/root2.txt"], none) ∧
      collectFiles unixASCII testTree "./testdir" (applyOptions unixASCII [WithRecursive true]) =
        (["testdir/root1.txt", "testdir/root2.txt", "testdir/subdir/sub1.txt",
          "testdir/subdir/sub2.txt"], none) ∧
      (collectFiles unixASCII
        (.dir "testdir" none
          [.file "root1.txt" 5 true, .file "root2.txt" 5 true,
            .dir "subdir" none [.file "sub1.txt" 5 true, .file "sub2.txt" 5 true],
            .file "test.log" 5 true])
        "testdir" (getDefaultConfig unixASCII)).2 = none :=
  ⟨by decide, by decide, by decide, by decide,
    (collectFiles_depth unixASCII "testdir" _ "testdir" (getDefaultConfig unixASCII)
      rfl (by decide)).1⟩

section DirectoryClaims

variable {σ : Type} (env : DirEnv σ) (world : σ) (sched : List Nat) (dirPath : String)
  (options : List ConfigOption)

/-- C23 as stated fails: the filter predicate is applied during discovery
(lines 362-365).  In the directory of the repository's test, "test.log" is not
hidden and not oversized and the default filter rejects it; `collectFiles`
leaves it out, and the run returns TotalFiles 2, ProcessedFiles 2 and
SkippedFiles 0, not 3, 3 and 1. -/
theorem ConvertDirectory_filter_at_discovery :
    filterRejects (getDefaultConfig unixASCII) "testdir/test.log" = true ∧
      eligible (WithFileFilter none (getDefaultConfig unixASCII))
        ("testdir/test.log", ⟨"test.log", 5, false, true⟩) = true ∧
      collectFiles unixASCII testTree "testdir" (getDefaultConfig unixASCII) =
        (["testdir/root1.txt", "testdir/root2.txt"], none) ∧
      (ConvertDirectory (memDirEnv [("testdir", testTree)]) testFS [] "testdir" []).result.map
        (fun b => (b.TotalFiles, b.ProcessedFiles, b.SkippedFiles, b.SuccessfulFiles)) =
        some (2, 2, 0, 2) := by
  decide

/-- C23 (amended): in a directory-mode run the filter predicate is applied
during discovery, and again at dispatch where it then rejects nothing: every
path `collectFiles` returns, whatever the tree, is one the filter accepts, so
a file the filter rejects is left out of the list; and whenever
`ConvertDirectory` returns an aggregate, `TotalFiles` is the length of that
list, `ProcessedFiles` is not above it, and `SkippedFiles` is 0: a rejected
file counts toward none of the three. -/
theorem ConvertDirectory_filter_omits :
    (∀ tree, ∀ p ∈ (collectFiles env.rt tree dirPath (applyOptions env.rt options)).1,
      filterRejects (applyOptions env.rt options) p = false) ∧
    (∀ b, (ConvertDirectory env world sched dirPath options).result = some b →
      b.TotalFiles =
        (collectFiles env.rt (env.Tree world dirPath) dirPath
          (applyOptions env.rt options)).1.length ∧
      b.ProcessedFiles ≤ b.TotalFiles ∧
      b.SkippedFiles = 0) := by
  refine ⟨fun tree => collectFiles_accepted env.rt tree dirPath _, ?_⟩
  intro b h
  obtain ⟨h1, h2, h3, h4, _, h6, _⟩ := ConvertDirectory_summary env world sched dirPath options h
  exact ⟨h1, by omega, h2⟩

/-- Witness of C23 (amended) on the directory of the repository's test with
recursion on: four files are discovered and converted, none is skipped. -/
theorem ConvertDirectory_filter_omits_witness :
    (ConvertDirectory (memDirEnv [("testdir", testTree)]) testFS [] "testdir"
        [WithRecursive true]).result.map
        (fun b => (b.TotalFiles, b.ProcessedFiles, b.SkippedFiles, b.SuccessfulFiles)) =
        some (4, 4, 0, 4) ∧
      ∀ p ∈ (collectFiles (memDirEnv [("testdir", testTree)]).rt testTree "testdir"
          (applyOptions (memDirEnv [("testdir", testTree)]).rt [WithRecursive true])).1,
        filterRejects (applyOptions (memDirEnv [("testdir", testTree)]).rt [WithRecursive true])
          p = false :=
  ⟨by decide,
    (ConvertDirectory_filter_omits (memDirEnv [("testdir", testTree)]) testFS [] "testdir"
      [WithRecursive true]).1 testTree⟩

/-- C24: on a Unix build target, for every root path and every directory
whose tree can be read, `collectFiles` returns no
error and exactly the paths of the candidates that pass the hidden-file rule,
the size ceiling and the filter predicate, where the size ceiling excludes a
file of size `s` if and only if `MaxFileSize > 0` and `s > MaxFileSize`: every
returned path is one of a file the ceiling does not exclude, a file as large
as the ceiling that passes the other two rules is returned, and with a ceiling
of 0 (or below) no file is excluded for its size.  An excluded file is absent
from the list, so whenever `ConvertDirectory` returns an aggregate,
`TotalFiles` is the length of the list, `SkippedFiles` is 0, and every entry of
`Errors` names a path of the list. -/
theorem collectFiles_size_ceiling (name : String) (entries : List FileTree)
    (_hunix : env.rt.windows = false)
    (htree : env.Tree world dirPath = .dir name none entries)
    (h : FileTree.intactAll env.rt entries = true) :
    collectFiles env.rt (env.Tree world dirPath) dirPath (applyOptions env.rt options) =
      (((FileTree.filesIn env.rt (applyOptions env.rt options).Recursive dirPath entries).filter
        (fun c => passesHidden (applyOptions env.rt options) c.2 &&
          !(decide (0 < (applyOptions env.rt options).MaxFileSize) &&
            decide ((applyOptions env.rt options).MaxFileSize < c.2.Size)) &&
          !filterRejects (applyOptions env.rt options) c.1)).map Prod.fst, none) ∧
    (∀ p ∈ (collectFiles env.rt (env.Tree world dirPath) dirPath
        (applyOptions env.rt options)).1,
      ∃ info, (p, info) ∈
          FileTree.filesIn env.rt (applyOptions env.rt options).Recursive dirPath entries ∧
        ¬ (0 < (applyOptions env.rt options).MaxFileSize ∧
          (applyOptions env.rt options).MaxFileSize < info.Size)) ∧
    (∀ c ∈ FileTree.filesIn env.rt (applyOptions env.rt options).Recursive dirPath entries,
      passesHidden (applyOptions env.rt options) c.2 = true →
      filterRejects (applyOptions env.rt options) c.1 = false →
      (c.2.Size ≤ (applyOptions env.rt options).MaxFileSize ∨
        (applyOptions env.rt options).MaxFileSize ≤ 0) →
      c.1 ∈ (collectFiles env.rt (env.Tree world dirPath) dirPath
        (applyOptions env.rt options)).1) ∧
    (∀ b, (ConvertDirectory env world sched dirPath options).result = some b →
      b.TotalFiles =
        (collectFiles env.rt (env.Tree world dirPath) dirPath
          (applyOptions env.rt options)).1.length ∧
      b.SkippedFiles = 0 ∧
      ∀ e ∈ b.Errors, e.File ∈
        (collectFiles env.rt (env.Tree world dirPath) dirPath
          (applyOptions env.rt options)).1) := by
  rw [htree]
  refine ⟨collectFiles_eq env.rt dirPath _ name entries h, ?_, ?_, ?_⟩
  · intro p hp
    obtain ⟨info, hmem, hel⟩ := (mem_collectFiles env.rt name entries dirPath _ h p).mp hp
    refine ⟨info, hmem, ?_⟩
    simp only [eligible, passesSize, Bool.and_eq_true, Bool.not_eq_true', Bool.and_eq_false_iff,
      decide_eq_false_iff_not, decide_eq_true_eq] at hel
    rcases hel.1.2 with h1 | h1 <;> omega
  · intro c hc hh hf hs
    apply (mem_collectFiles env.rt name entries dirPath _ h c.1).mpr
    refine ⟨c.2, hc, ?_⟩
    simp only [eligible, passesSize, hh, hf, Bool.true_and, Bool.not_false, Bool.and_true,
      Bool.not_eq_true', Bool.and_eq_false_iff, decide_eq_false_iff_not]
    rcases hs with hs | hs
    · right; omega
    · left; omega
  · intro b hb
    rw [← htree]
    obtain ⟨h1, h2, _, _, _, _, _, h8⟩ := ConvertDirectory_summary env world sched dirPath options hb
    exact ⟨h1, h2, h8⟩

/-- Witness of C24 with a ceiling of 1000 bytes: the file of 2000 bytes is
left out and the file of 1000 bytes is returned, also from the root
"./repo/"; with a ceiling of 0 both are returned. -/
theorem collectFiles_size_ceiling_witness :
    collectFiles unixASCII hiddenTree "repo" (applyOptions unixASCII [WithMaxFileSize 1000]) =
        (["repo/link.txt", "repo/small.txt"], none) ∧
      collectFiles unixASCII hiddenTree "./repo/" (applyOptions unixASCII [WithMaxFileSize 1000]) =
        (["repo/link.txt", "repo/small.txt"], none) ∧
      collectFiles unixASCII hiddenTree "repo" (applyOptions unixASCII [WithMaxFileSize 0]) =
        (["repo/big.txt", "repo/link.txt", "repo/small.txt"], none) ∧
      (collectFiles (memDirEnv [("repo", hiddenTree)]).rt
        ((memDirEnv [("repo", hiddenTree)]).Tree testFS "repo") "repo"
        (applyOptions (memDirEnv [("repo", hiddenTree)]).rt [WithMaxFileSize 1000])).2 = none :=
  ⟨by decide, by decide, by decide,
    congrArg Prod.snd
      (collectFiles_size_ceiling (memDirEnv [("repo", hiddenTree)]) testFS [] "repo"
        [WithMaxFileSize 1000] "repo" _ rfl rfl (by decide)).1⟩

end DirectoryClaims

section HiddenClaims

/-- C25 as stated fails: the hidden-file rule looks at the name of the file
alone, and never at whether it is a regular file.  With skip-hidden on, as it
is by default, and recursion on, the walk enters the hidden directory ".git"
and returns "repo/.git/notes.txt"; it also returns "repo/link.txt", which is
not a regular file.  The hidden file ".secret.txt" is left out. -/
theorem collectFiles_hidden_directory :
    (applyOptions unixASCII [WithRecursive true]).SkipHidden = true ∧
      collectFiles unixASCII hiddenTree "repo" (applyOptions unixASCII [WithRecursive true]) =
        (["repo/.git/notes.txt", "repo/big.txt", "repo/link.txt", "repo/small.txt"], none) ∧
      isHiddenName ".git" = true ∧
      ("repo/link.txt", (⟨"link.txt", 9, false, false⟩ : FileInfo)) ∈
        FileTree.filesIn unixASCII true "repo"
          [.dir ".git" none [.file "notes.txt" 5 true], .file ".secret.txt" 5 true,
            .file "big.txt" 2000 true, .file "link.txt" 9 false, .file "small.txt" 1000 true] := by
  decide

/-- C25 (amended): on a Unix build target, for every root path and every
directory whose tree can be read, with
skip-hidden on every path `collectFiles` returns is the path of an entry that
is not a directory (a regular file or not) and whose own name does not begin
with a dot, found directly in the root or, with recursion on, at any depth,
inside hidden directories too; with skip-hidden off the hidden-file rule
excludes nothing: the returned paths are those of the candidates that pass
the size ceiling and the filter predicate, hidden or not.  No candidate is a
directory. -/
theorem collectFiles_skip_hidden (rt : GoPlatform) (name : String) (entries : List FileTree)
    (dirPath : String) (config : Config) (_hunix : rt.windows = false)
    (h : FileTree.intactAll rt entries = true) :
    (config.SkipHidden = true →
      ∀ p ∈ (collectFiles rt (.dir name none entries) dirPath config).1,
        ∃ info, (p, info) ∈ FileTree.filesIn rt config.Recursive dirPath entries ∧
          info.IsDir = false ∧ isHiddenName info.Name = false) ∧
    (config.SkipHidden = false →
      (collectFiles rt (.dir name none entries) dirPath config).1 =
        ((FileTree.filesIn rt config.Recursive dirPath entries).filter
          (fun c => passesSize config c.2 && !filterRejects config c.1)).map Prod.fst) ∧
    (∀ c ∈ FileTree.filesIn rt config.Recursive dirPath entries, c.2.IsDir = false) := by
  refine ⟨?_, ?_, ?_⟩
  · intro hs p hp
    obtain ⟨info, hmem, hel⟩ := (mem_collectFiles rt name entries dirPath config h p).mp hp
    refine ⟨info, hmem, filesIn_not_dir rt _ entries dirPath _ hmem, ?_⟩
    simp only [eligible, passesHidden, hs, Bool.true_and, Bool.and_eq_true,
      Bool.not_eq_true'] at hel
    exact hel.1.1
  · intro hs
    rw [collectFiles_eq rt dirPath config name entries h]
    simp only
    congr 1
    apply List.filter_congr
    intro c _
    simp [eligible, passesHidden, hs]
  · intro c hc
    exact filesIn_not_dir rt _ entries dirPath c hc

/-- Witness of C25 (amended): with skip-hidden on and recursion off the hidden
file is left out, and with skip-hidden off it is returned. -/
theorem collectFiles_skip_hidden_witness :
    collectFiles unixASCII hiddenTree "repo" (getDefaultConfig unixASCII) =
        (["repo/big.txt", "repo/link.txt", "repo/small.txt"], none) ∧
      collectFiles unixASCII hiddenTree "repo" (applyOptions unixASCII [WithSkipHidden false]) =
        (["repo/.secret.txt", "repo/big.txt", "repo/link.txt", "repo/small.txt"], none) ∧
      ∀ p ∈ (collectFiles unixASCII
          (.dir "repo" none
            [.dir ".git" none [.file "notes.txt" 5 true], .file ".secret.txt" 5 true,
              .file "big.txt" 2000 true, .file "link.txt" 9 false, .file "small.txt" 1000 true])
          "repo" (getDefaultConfig unixASCII)).1,
        ∃ info, (p, info) ∈ FileTree.filesIn unixASCII (getDefaultConfig unixASCII).Recursive "repo"
            [.dir ".git" none [.file "notes.txt" 5 true], .file ".secret.txt" 5 true,
              .file "big.txt" 2000 true, .file "link.txt" 9 false, .file "small.txt" 1000 true] ∧
          info.IsDir = false ∧ isHiddenName info.Name = false :=
  ⟨by decide, by decide,
    (collectFiles_skip_hidden unixASCII "repo" _ "repo" (getDefaultConfig unixASCII)
      rfl (by decide)).1 rfl⟩

end HiddenClaims

section EmptyClaims

variable {σ : Type} (env : DirEnv σ) (world : σ) (sched : List Nat) (dirPath : String)
  (options : List ConfigOption)

/-- C26: for a directory path that does not exist `ConvertDirectory` returns a
nil result and an error; for one that exists and in which discovery finds no
file and meets no error, it returns a nil error and the aggregate with
TotalFiles 0, every other count 0 and empty `Results` and `Errors`, having
started no goroutine and made no callback; and discovery finds no file in a
directory whose tree can be read and none of whose candidates passes the
hidden-file rule, the size ceiling and the filter predicate, as in an empty
directory (the candidates and their paths being those of a Unix build
target). -/
theorem ConvertDirectory_no_candidates :
    (env.IsNotExist world dirPath = true →
      ConvertDirectory env world sched dirPath options =
        .returned none (some ("directory does not exist: " ++ dirPath)) (idleMachine world)) ∧
    (env.IsNotExist world dirPath = false →
      collectFiles env.rt (env.Tree world dirPath) dirPath (applyOptions env.rt options) =
        ([], none) →
      ConvertDirectory env world sched dirPath options =
        .returned (some ⟨0, 0, 0, 0, 0, 0, 0, [], []⟩) none (idleMachine world)) ∧
    (∀ name entries, env.rt.windows = false →
      env.Tree world dirPath = .dir name none entries →
      FileTree.intactAll env.rt entries = true →
      (∀ c ∈ FileTree.filesIn env.rt (applyOptions env.rt options).Recursive dirPath entries,
        eligible (applyOptions env.rt options) c = false) →
      collectFiles env.rt (env.Tree world dirPath) dirPath (applyOptions env.rt options) =
        ([], none)) := by
  refine ⟨?_, ?_, ?_⟩
  · intro hex
    simp [ConvertDirectory, hex]
  · intro hex hcol
    simp [ConvertDirectory, hex, hcol]
  · intro name entries _ htree h hnone
    rw [htree, collectFiles_eq env.rt dirPath _ name entries h]
    have : (FileTree.filesIn env.rt (applyOptions env.rt options).Recursive dirPath
        entries).filter (eligible (applyOptions env.rt options)) = [] := by
      rw [List.filter_eq_nil_iff]
      intro c hc
      simp [hnone c hc]
    rw [this]
    rfl

/-- Witness of C26: a path that does not exist, an empty directory, and a
directory that holds nothing but a log file, which the default filter
rejects, so that discovery finds no file in it. -/
theorem ConvertDirectory_no_candidates_witness :
    (ConvertDirectory (memDirEnv [("empty", .dir "empty" none [])]) testFS [] "nowhere" [] =
        .returned none (some "directory does not exist: nowhere") (idleMachine testFS)) ∧
      (ConvertDirectory (memDirEnv [("empty", .dir "empty" none [])]) testFS [] "empty" [] =
        .returned (some ⟨0, 0, 0, 0, 0, 0, 0, [], []⟩) none (idleMachine testFS)) ∧
      (ConvertDirectory (memDirEnv [("logs", .dir "logs" none [.file "test.log" 5 true])])
          testFS [] "logs" [] =
        .returned (some ⟨0, 0, 0, 0, 0, 0, 0, [], []⟩) none (idleMachine testFS)) ∧
      collectFiles unixASCII (.dir "logs" none [.file "test.log" 5 true]) "logs"
        (getDefaultConfig unixASCII) = ([], none) :=
  ⟨(ConvertDirectory_no_candidates (memDirEnv [("empty", .dir "empty" none [])]) testFS []
      "nowhere" []).1 (by decide),
    (ConvertDirectory_no_candidates (memDirEnv [("empty", .dir "empty" none [])]) testFS []
      "empty" []).2.1 (by decide) (by decide),
    (ConvertDirectory_no_candidates (memDirEnv [("logs", .dir "logs" none [.file "test.log" 5 true])])
      testFS [] "logs" []).2.1 (by decide) (by decide),
    (ConvertDirectory_no_candidates (memDirEnv [("logs", .dir "logs" none [.file "test.log" 5 true])])
      testFS [] "logs" []).2.2 "logs" [.file "test.log" 5 true] rfl rfl (by decide) (by decide)⟩

end EmptyClaims

end ConvertContent2UTF8
